import Mathlib

/-!
# MPK: a zero-copy MessagePack decoder (`mpk.c`, `mpk.h`)

Shallow embedding of the decoder and proofs about it.

Conventions of the embedding
* a byte (`uint8_t`) is a `Fin 256`; a message is its byte list, and `size`
  is the length of that list;
* `size_t` is 64 bits wide: arithmetic on it is taken modulo `2^64`;
  `uint32_t` arithmetic is taken modulo `2^32`;
* the host is little-endian (`LITTLE_ENDIAN` defined);
* `mpk_value_t` is a tagged union: the tag `type` is derived from the active
  member of the union;
* the `msg` pointer of `mpk_collection_t` is the message passed next to the
  collection;
* the `data` pointer of `mpk_blob_t` is the run of bytes it points to;
* a float is its IEEE-754 bit pattern;
* functions that return `int` success and fill `*out` return an `Option`;
* loops that may run for a long time take a fuel argument, and `none` as the
  outer result means that the fuel ran out.
-/

namespace MPK

/-! ## Data model -/

abbrev Byte := Fin 256

/-- Width of `size_t`: values are taken modulo this number. -/
def SIZE_MOD : Nat := 2 ^ 64

/-- Width of `uint32_t`: values are taken modulo this number. -/
def U32_MOD : Nat := 2 ^ 32

structure mpk_msg_t where
  msg : List Byte
deriving DecidableEq, Repr

/-- The `size` field: the number of bytes of the buffer. -/
def mpk_msg_t.size (a : mpk_msg_t) : Nat := a.msg.length

def MPK_STR : Nat := 0
def MPK_BIN : Nat := 1
def MPK_EXT : Nat := 2

structure mpk_blob_t where
  off : Nat
  size : Nat
  data : List Byte
  type0 : Int
  type1 : Int
deriving DecidableEq, Repr

def MPK_ARR : Nat := 0
def MPK_MAP : Nat := 1

structure mpk_collection_t where
  off : Nat
  elems : Nat
  type : Nat
deriving DecidableEq, Repr

def MPK_BLOB : Nat := 0
def MPK_COL : Nat := 1
def MPK_BOOL : Nat := 2

def MPK_UF : Nat := 0x00
def MPK_MF : Nat := 0x80
def MPK_AF : Nat := 0x90
def MPK_SF : Nat := 0xa0
def MPK_NIL : Nat := 0xc0
def MPK_F : Nat := 0xc2
def MPK_T : Nat := 0xc3
def MPK_B8 : Nat := 0xc4
def MPK_B16 : Nat := 0xc5
def MPK_B32 : Nat := 0xc6
def MPK_X8 : Nat := 0xc7
def MPK_X16 : Nat := 0xc8
def MPK_X32 : Nat := 0xc9
def MPK_F32 : Nat := 0xca
def MPK_F64 : Nat := 0xcb
def MPK_U8 : Nat := 0xcc
def MPK_U16 : Nat := 0xcd
def MPK_U32 : Nat := 0xce
def MPK_U64 : Nat := 0xcf
def MPK_I8 : Nat := 0xd0
def MPK_I16 : Nat := 0xd1
def MPK_I32 : Nat := 0xd2
def MPK_I64 : Nat := 0xd3
def MPK_XF1 : Nat := 0xd4
def MPK_XF2 : Nat := 0xd5
def MPK_XF4 : Nat := 0xd6
def MPK_XF8 : Nat := 0xd7
def MPK_XF16 : Nat := 0xd8
def MPK_S8 : Nat := 0xd9
def MPK_S16 : Nat := 0xda
def MPK_S32 : Nat := 0xdb
def MPK_A16 : Nat := 0xdc
def MPK_A32 : Nat := 0xdd
def MPK_M16 : Nat := 0xde
def MPK_M32 : Nat := 0xdf
def MPK_IF : Nat := 0xe0

/-- The union `value` of `mpk_value_t`, by active member. Unsigned members
hold a natural number, signed members an integer, `f32` and `f64` the bit
pattern of the float or double. -/
inductive mpk_payload where
  | u8 (n : Nat)
  | u16 (n : Nat)
  | u32 (n : Nat)
  | u64 (n : Nat)
  | i8 (n : Int)
  | i16 (n : Int)
  | i32 (n : Int)
  | i64 (n : Int)
  | f32 (bits : Nat)
  | f64 (bits : Nat)
  | bool (b : Int)
  | nil (z : Int)
  | col (c : mpk_collection_t)
  | blob (b : mpk_blob_t)
deriving DecidableEq, Repr

structure mpk_value_t where
  value : mpk_payload
  rawhdr : Nat
deriving DecidableEq, Repr

/-- The `type` field of `mpk_value_t`, as `MPK_ElemAt` sets it together with
the member of the union. -/
def mpk_value_t.type (v : mpk_value_t) : Nat :=
  match v.value with
  | .u8 _ => MPK_U8
  | .u16 _ => MPK_U16
  | .u32 _ => MPK_U32
  | .u64 _ => MPK_U64
  | .i8 _ => MPK_I8
  | .i16 _ => MPK_I16
  | .i32 _ => MPK_I32
  | .i64 _ => MPK_I64
  | .f32 _ => MPK_F32
  | .f64 _ => MPK_F64
  | .bool _ => MPK_BOOL
  | .nil _ => MPK_NIL
  | .col _ => MPK_COL
  | .blob _ => MPK_BLOB

/-! ## `INDEX` and the byte-order normaliser -/

/-- The macro `INDEX(a, i, m)`: the byte at `i`, or `NULL` when `i >= m`. -/
def INDEX (a : List Byte) (i m : Nat) : Option Byte :=
  if i < m then a[i]? else none

/-- Value of a `uint64_t` whose bytes in memory, lowest address first, are
`b` (little-endian host). -/
def leValue : List Byte → Nat
  | [] => 0
  | b :: bs => b.val + 256 * leValue bs

/-- `MPK_UnsafeBytesToNum(v, bytes)`: copy `bytes` bytes of `v` into a zeroed
eight-byte union, reverse them in place, read the union as `uint64_t`. -/
def MPK_UnsafeBytesToNum (v : List Byte) (bytes : Nat) : Nat :=
  leValue ((v.take bytes).reverse ++ List.replicate (8 - bytes) 0)

/-! ## Type identification -/

def IN_RANGEI (s n e : Nat) : Bool := decide (s ≤ n) && decide (n ≤ e)

def MPK_ISFIX (t : Nat) : Bool :=
  (t &&& 0x80 == 0) || (t &&& 0x40 == 0) || (t &&& 0xe0 == 0xe0)
def MPK_ISUF (t : Nat) : Bool := t &&& 0x80 == MPK_UF
def MPK_ISMF (t : Nat) : Bool := t &&& 0xf0 == MPK_MF
def MPK_ISAF (t : Nat) : Bool := t &&& 0xf0 == MPK_AF
def MPK_ISSF (t : Nat) : Bool := t &&& 0xe0 == MPK_SF
def MPK_ISIF (t : Nat) : Bool := t &&& 0xe0 == MPK_IF
def MPK_ISXF (t : Nat) : Bool := IN_RANGEI MPK_XF1 t MPK_XF16
def MPK_ISARR (t : Nat) : Bool := MPK_ISAF t || IN_RANGEI MPK_A16 t MPK_A32
def MPK_ISMAP (t : Nat) : Bool := MPK_ISMF t || IN_RANGEI MPK_M16 t MPK_M32
def MPK_ISCOL (t : Nat) : Bool := MPK_ISARR t || MPK_ISMAP t
def MPK_ISEXT (t : Nat) : Bool := MPK_ISXF t || IN_RANGEI MPK_X8 t MPK_X32
def MPK_ISSTR (t : Nat) : Bool := MPK_ISSF t || IN_RANGEI MPK_S8 t MPK_S32
def MPK_ISBIN (t : Nat) : Bool := IN_RANGEI MPK_B8 t MPK_B32
def MPK_ISBLOB (t : Nat) : Bool := MPK_ISEXT t || MPK_ISSTR t || MPK_ISBIN t
def MPK_ISNUM (t : Nat) : Bool :=
  MPK_ISUF t || MPK_ISIF t || IN_RANGEI MPK_F32 t MPK_I64
def MPK_ISNIL (t : Nat) : Bool := t == MPK_NIL
def MPK_ISBOOL (t : Nat) : Bool := t == MPK_T || t == MPK_F

/-- `MPK_STSiz`: size of a static-sized element, header included; zero for
the dynamic-sized ones. -/
def MPK_STSiz (t : Nat) : Nat :=
  if MPK_ISUF t || MPK_ISIF t || MPK_ISBOOL t || MPK_ISNIL t then 1
  else if t = MPK_U8 ∨ t = MPK_I8 then 2
  else if t = MPK_U16 ∨ t = MPK_I16 then 3
  else if t = MPK_U32 ∨ t = MPK_I32 ∨ t = MPK_F32 then 5
  else if t = MPK_U64 ∨ t = MPK_I64 ∨ t = MPK_F64 then 9
  else 0

/-! ## Scalar extraction -/

/-- Reading the low `w` bits of the union as an unsigned integer. -/
def asUnsigned (w : Nat) (n : Nat) : Nat := n % 2 ^ w

/-- Reading the low `w` bits of the union as a two's-complement integer. -/
def asSigned (w : Nat) (n : Nat) : Int :=
  if n % 2 ^ w < 2 ^ (w - 1) then (n % 2 ^ w : Nat) else ((n % 2 ^ w : Nat) : Int) - 2 ^ w

/-- The body shared by the functions the macro `MPKNUM(NAME, CTYPE, bytes)`
generates: the `uint64_t` member of the union and the error flag after the
call. `err` is the flag before the call. -/
def MPKNUM (bytes : Nat) (a : mpk_msg_t) (off : Nat) (err : Int) : Nat × Int :=
  match INDEX a.msg ((off + 1) % SIZE_MOD) a.size,
        INDEX a.msg ((off + bytes) % SIZE_MOD) a.size with
  | some _, some _ =>
    (MPK_UnsafeBytesToNum (a.msg.drop ((off + 1) % SIZE_MOD)) bytes, err)
  | _, _ => (0, 1)

/-- Widening a float to a double, on bit patterns (`out->value.f64` is
assigned the `float` that `MPK_NumF64` returns). An infinity stays an
infinity; a NaN keeps its payload and comes out quiet (the conversion sets
the top bit of the fraction of a signalling NaN). -/
def f32ToF64Bits (x : Nat) : Nat :=
  let s := x / 2 ^ 31 % 2
  let e := x / 2 ^ 23 % 256
  let f := x % 2 ^ 23
  if e = 255 then
    if f = 0 then s * 2 ^ 63 + 2047 * 2 ^ 52
    else s * 2 ^ 63 + 2047 * 2 ^ 52 + 2 ^ 51 + (f % 2 ^ 22) * 2 ^ 29
  else if e = 0 then
    if f = 0 then s * 2 ^ 63
    else s * 2 ^ 63 + (Nat.log2 f + 874) * 2 ^ 52 + (f - 2 ^ Nat.log2 f) * 2 ^ (52 - Nat.log2 f)
  else s * 2 ^ 63 + (e + 896) * 2 ^ 52 + f * 2 ^ 29

def MPK_NumF32 (a : mpk_msg_t) (off : Nat) (err : Int) : Nat × Int :=
  let r := MPKNUM 4 a off err
  (asUnsigned 32 r.1, r.2)
/-- `MPKNUM(F64, float, 8)`: the C type is `float`, so the result is the
float whose bits are the low four bytes of the union. -/
def MPK_NumF64 (a : mpk_msg_t) (off : Nat) (err : Int) : Nat × Int :=
  let r := MPKNUM 8 a off err
  (asUnsigned 32 r.1, r.2)
def MPK_NumU8 (a : mpk_msg_t) (off : Nat) (err : Int) : Nat × Int :=
  let r := MPKNUM 1 a off err
  (asUnsigned 8 r.1, r.2)
def MPK_NumU16 (a : mpk_msg_t) (off : Nat) (err : Int) : Nat × Int :=
  let r := MPKNUM 2 a off err
  (asUnsigned 16 r.1, r.2)
def MPK_NumU32 (a : mpk_msg_t) (off : Nat) (err : Int) : Nat × Int :=
  let r := MPKNUM 4 a off err
  (asUnsigned 32 r.1, r.2)
def MPK_NumU64 (a : mpk_msg_t) (off : Nat) (err : Int) : Nat × Int :=
  let r := MPKNUM 8 a off err
  (asUnsigned 64 r.1, r.2)
def MPK_NumI8 (a : mpk_msg_t) (off : Nat) (err : Int) : Int × Int :=
  let r := MPKNUM 1 a off err
  (asSigned 8 r.1, r.2)
def MPK_NumI16 (a : mpk_msg_t) (off : Nat) (err : Int) : Int × Int :=
  let r := MPKNUM 2 a off err
  (asSigned 16 r.1, r.2)
def MPK_NumI32 (a : mpk_msg_t) (off : Nat) (err : Int) : Int × Int :=
  let r := MPKNUM 4 a off err
  (asSigned 32 r.1, r.2)
def MPK_NumI64 (a : mpk_msg_t) (off : Nat) (err : Int) : Int × Int :=
  let r := MPKNUM 8 a off err
  (asSigned 64 r.1, r.2)

def MPK_NumUF (a : mpk_msg_t) (off : Nat) (err : Int) : Nat × Int :=
  match INDEX a.msg off a.size with
  | some num => (num.val, err)
  | none => (0, 1)

def MPK_NumIF (a : mpk_msg_t) (off : Nat) (err : Int) : Int × Int :=
  match INDEX a.msg off a.size with
  | some num => (asSigned 8 num.val, err)
  | none => (0, 1)

/-! ## Blob and collection headers -/

/-- The class test that opens `MPK_Blob`: the value given to `type[0]`, or
`none` where the function returns at once. -/
def blobType0 (p : Nat) : Option Nat :=
  if MPK_ISSTR p then some MPK_STR
  else if MPK_ISBIN p then some MPK_BIN
  else if MPK_ISEXT p then some MPK_EXT
  else none

/-- The length part of `MPK_Blob`: `ibytes` and `rv.size`, or `none` where the
function returns early (`err` set, or the `default` of the `switch`); `rv.size`
is 0 at each of these returns. -/
def blobLength (a : mpk_msg_t) (off : Nat) (p : Nat) (ty : Nat) : Option (Nat × Nat) :=
  if ty = MPK_STR ∧ MPK_ISSF p then some (0, p &&& 0x1f)
  else if ty = MPK_EXT ∧ MPK_ISXF p then some (0, 1 <<< (p - MPK_XF1))
  else if p = MPK_B8 ∨ p = MPK_S8 ∨ p = MPK_X8 then
    let r := MPK_NumU8 a off 0
    if r.2 ≠ 0 then none else some (1, r.1)
  else if p = MPK_B16 ∨ p = MPK_S16 ∨ p = MPK_X16 then
    let r := MPK_NumU16 a off 0
    if r.2 ≠ 0 then none else some (2, r.1)
  else if p = MPK_B32 ∨ p = MPK_S32 ∨ p = MPK_X32 then
    let r := MPK_NumU32 a off 0
    if r.2 ≠ 0 then none else some (4, r.1)
  else none

/-- The typespec part of `MPK_Blob`: the value of `type[1]`, or `none` where
the function returns because the typespec byte of an ext is out of reach. -/
def blobType1 (a : mpk_msg_t) (off ibytes ty : Nat) : Option Int :=
  if ty = MPK_EXT then
    match INDEX a.msg ((off + ibytes + 1) % SIZE_MOD) a.size with
    | some q => some (asSigned 8 q.val)
    | none => none
  else some 0

/-- `MPK_Blob`: parse a string, binary or extension header at `off`. An
`off` field of 0 in the result signals an error. -/
def MPK_Blob (a : mpk_msg_t) (off : Nat) : mpk_blob_t :=
  match INDEX a.msg off a.size with
  | none => { off := 0, size := 0, data := [], type0 := 0, type1 := 0 }
  | some p =>
    match blobType0 p.val with
    | none => { off := 0, size := 0, data := [], type0 := 0, type1 := 0 }
    | some ty =>
      match blobLength a off p.val ty with
      | none => { off := 0, size := 0, data := [], type0 := (ty : Int), type1 := 0 }
      | some (ibytes, size) =>
        match blobType1 a off ibytes ty with
        | none => { off := 0, size := size, data := [], type0 := (ty : Int), type1 := 0 }
        | some t1 =>
          let ext : Nat := if ty = MPK_EXT then 1 else 0
          let eod := (off + ibytes + size + ext) % SIZE_MOD
          match INDEX a.msg eod a.size with
          | some _ =>
            let doff := (off + ibytes + ext + 1) % SIZE_MOD
            { off := doff, size := size, data := (a.msg.drop doff).take size,
              type0 := (ty : Int), type1 := t1 }
          | none => { off := 0, size := size, data := [], type0 := (ty : Int), type1 := t1 }

/-- The class test that opens `MPK_Col`: the value given to `type`, or `none`
where the function returns at once. -/
def colType (p : Nat) : Option Nat :=
  if MPK_ISARR p then some MPK_ARR
  else if MPK_ISMAP p then some MPK_MAP
  else none

/-- The length part of `MPK_Col`: `ibytes` and `rv.elems`, or `none` where the
function returns early (`numerr` set, or the `default` of the `switch`);
`rv.elems` is 0 at each of these returns. -/
def colLength (a : mpk_msg_t) (off : Nat) (p : Nat) : Option (Nat × Nat) :=
  if MPK_ISFIX p then some (0, p &&& 0x0f)
  else if p = MPK_M16 ∨ p = MPK_A16 then
    let r := MPK_NumU16 a off 0
    if r.2 ≠ 0 then none else some (2, r.1)
  else if p = MPK_M32 ∨ p = MPK_A32 then
    let r := MPK_NumU32 a off 0
    if r.2 ≠ 0 then none else some (4, r.1)
  else none

/-- `MPK_Col`: parse an array or map header at `off`. An `off` field of 0 in
the result signals an error. -/
def MPK_Col (a : mpk_msg_t) (off : Nat) : mpk_collection_t :=
  match INDEX a.msg off a.size with
  | none => { off := 0, elems := 0, type := 0 }
  | some p =>
    match colType p.val with
    | none => { off := 0, elems := 0, type := 0 }
    | some ty =>
      match colLength a off p.val with
      | none => { off := 0, elems := 0, type := ty }
      | some (ibytes, elems) =>
        let data_off := (off + 1 + ibytes) % SIZE_MOD
        match INDEX a.msg data_off a.size with
        | some _ => { off := data_off, elems := elems, type := ty }
        | none => { off := 0, elems := elems, type := ty }

/-! ## The single-element decoder -/

/-- The numeric branch of `MPK_ElemAt`: member of the union and error flag. -/
def numericAt (a : mpk_msg_t) (off : Nat) (p : Nat) : Option (mpk_payload × Int) :=
  if MPK_ISUF p then
    let r := MPK_NumUF a off 0
    some (.u8 r.1, r.2)
  else if MPK_ISIF p then
    let r := MPK_NumIF a off 0
    some (.i8 r.1, r.2)
  else if p = MPK_U8 then let r := MPK_NumU8 a off 0; some (.u8 r.1, r.2)
  else if p = MPK_U16 then let r := MPK_NumU16 a off 0; some (.u16 r.1, r.2)
  else if p = MPK_U32 then let r := MPK_NumU32 a off 0; some (.u32 r.1, r.2)
  else if p = MPK_U64 then let r := MPK_NumU64 a off 0; some (.u64 r.1, r.2)
  else if p = MPK_I8 then let r := MPK_NumI8 a off 0; some (.i8 r.1, r.2)
  else if p = MPK_I16 then let r := MPK_NumI16 a off 0; some (.i16 r.1, r.2)
  else if p = MPK_I32 then let r := MPK_NumI32 a off 0; some (.i32 r.1, r.2)
  else if p = MPK_I64 then let r := MPK_NumI64 a off 0; some (.i64 r.1, r.2)
  else if p = MPK_F32 then let r := MPK_NumF32 a off 0; some (.f32 r.1, r.2)
  else if p = MPK_F64 then let r := MPK_NumF64 a off 0; some (.f64 (f32ToF64Bits r.1), r.2)
  else none

/-- `MPK_ElemAt(a, off, out)`. The parameter `off` is a `uint8_t`: whatever
the caller passes is converted to it, which is the `% 256`. `none` is the
return value 0, `some out` the return value 1 with the value written. -/
def MPK_ElemAt (a : mpk_msg_t) (off : Nat) : Option mpk_value_t :=
  let off := off % 256
  match INDEX a.msg off a.size with
  | none => none
  | some p =>
    if MPK_ISBLOB p.val then
      let b := MPK_Blob a off
      if b.off = 0 then none else some { value := .blob b, rawhdr := off }
    else if MPK_ISCOL p.val then
      let c := MPK_Col a off
      if c.off = 0 then none else some { value := .col c, rawhdr := off }
    else if MPK_ISBOOL p.val then
      some { value := .bool (if p.val = MPK_T then 1 else 0), rawhdr := off }
    else if MPK_ISNIL p.val then
      some { value := .nil 0, rawhdr := off }
    else if MPK_ISNUM p.val then
      match numericAt a off p.val with
      | none => none
      | some (v, err) => if err ≠ 0 then none else some { value := v, rawhdr := off }
    else none

/-! ## The skip engine -/

/-- The `if`/`else if` chain in the body of the loop of `MPK_FwdNElems`, for
the header byte `hdr` at `off`: the new byte offset and the count after
`n += ...`, or `none` for the early `return 1`. -/
def fwdNext (hdr : Nat) (start : mpk_value_t) (off n : Nat) : Option (Nat × Nat) :=
  if MPK_STSiz hdr ≠ 0 then some ((off + MPK_STSiz hdr) % SIZE_MOD, n)
  else
    match start.value with
    | .blob b => some ((b.off + b.size) % SIZE_MOD, n)
    | .col c =>
      some (c.off, (n + (c.elems * (if c.type = MPK_MAP then 2 else 1)) % U32_MOD) % SIZE_MOD)
    | _ => none

/-- The loop of `MPK_FwdNElems` with the checks after it. The first argument
is fuel: one unit per iteration. Result `none`: out of fuel; `some none`: the
function returned 0; `some (some v)`: it returned 1 and left `v` in `*start`. -/
def FwdLoop : Nat → mpk_msg_t → mpk_value_t → Nat → Nat → Option (Option mpk_value_t)
  | 0, _, _, _, _ => none
  | fuel + 1, a, start, off, n =>
    if n ≠ 0 ∧ off < a.size then
      match INDEX a.msg off a.size with
      | none => FwdLoop fuel a start off ((n + SIZE_MOD - 1) % SIZE_MOD)
      | some p =>
        match fwdNext p.val start off n with
        | none => some (some start)
        | some (off1, n1) =>
          match MPK_ElemAt a off1 with
          | none => some none
          | some v => FwdLoop fuel a v v.rawhdr ((n1 + SIZE_MOD - 1) % SIZE_MOD)
    else if off ≥ a.size then some none
    else some (some start)

/-- `MPK_FwdNElems(a, start, n)` with fuel for its loop. -/
def MPK_FwdNElems (fuel : Nat) (a : mpk_msg_t) (start : mpk_value_t) (n : Nat) :
    Option (Option mpk_value_t) :=
  if start.rawhdr ≥ a.size then some none
  else FwdLoop fuel a start start.rawhdr n

/-- `MPK_IndexArr(arr, idx, out)`; `a` is `arr->msg`. -/
def MPK_IndexArr (fuel : Nat) (a : mpk_msg_t) (arr : mpk_collection_t) (idx : Nat) :
    Option (Option mpk_value_t) :=
  if arr.type ≠ MPK_ARR then some none
  else if idx ≥ arr.elems then some none
  else
    match MPK_ElemAt a arr.off with
    | none => some none
    | some out => MPK_FwdNElems fuel a out idx

/-! ## Map lookup and raw range -/

/-- The C comparison `==` of two floats given by their bits: a NaN equals
nothing, the two zeros are equal, otherwise the bits decide. -/
def f32eq (x y : Nat) : Bool :=
  let nan := fun (z : Nat) => z / 2 ^ 23 % 256 = 255 ∧ z % 2 ^ 23 ≠ 0
  decide (¬ nan x ∧ ¬ nan y ∧ (x = y ∨ (x % 2 ^ 31 = 0 ∧ y % 2 ^ 31 = 0)))

/-- The C comparison `==` of two doubles given by their bits. -/
def f64eq (x y : Nat) : Bool :=
  let nan := fun (z : Nat) => z / 2 ^ 52 % 2048 = 2047 ∧ z % 2 ^ 52 ≠ 0
  decide (¬ nan x ∧ ¬ nan y ∧ (x = y ∨ (x % 2 ^ 63 = 0 ∧ y % 2 ^ 63 = 0)))

/-- The value of `eq` in `MPK_FindInMap` once `k->type == v->type` holds: the
blob comparison, or the `switch` over `EQUALAS`. -/
def keyEq (k v : mpk_value_t) : Bool :=
  match k.value, v.value with
  | .blob kb, .blob vb =>
    decide (kb.size = vb.size) && decide (kb.type0 = vb.type0 ∧ kb.type1 = vb.type1)
      && decide (kb.data.take kb.size = vb.data.take kb.size)
  | .bool x, .bool y => decide (x = y)
  | .nil x, .nil y => decide (x = y)
  | .f32 x, .f32 y => f32eq x y
  | .f64 x, .f64 y => f64eq x y
  | .u8 x, .u8 y => decide (x = y)
  | .u16 x, .u16 y => decide (x = y)
  | .u32 x, .u32 y => decide (x = y)
  | .u64 x, .u64 y => decide (x = y)
  | .i8 x, .i8 y => decide (x = y)
  | .i16 x, .i16 y => decide (x = y)
  | .i32 x, .i32 y => decide (x = y)
  | .i64 x, .i64 y => decide (x = y)
  | _, _ => false

/-- The `for` loop of `MPK_FindInMap`; the third argument is the number of
iterations left, `map->elems - i`. -/
def FindLoop (fuel : Nat) (a : mpk_msg_t) (k : mpk_value_t) :
    Nat → mpk_value_t → Option (Option mpk_value_t)
  | 0, _ => some none
  | left + 1, v =>
    if k.type = v.type then
      if keyEq k v then MPK_FwdNElems fuel a v 1
      else
        match MPK_FwdNElems fuel a v 2 with
        | none => none
        | some none => some none
        | some (some v1) => FindLoop fuel a k left v1
    else FindLoop fuel a k left v

/-- `MPK_FindInMap(map, k, v)`; `a` is `map->msg`. -/
def MPK_FindInMap (fuel : Nat) (a : mpk_msg_t) (map : mpk_collection_t) (k : mpk_value_t) :
    Option (Option mpk_value_t) :=
  if map.type ≠ MPK_MAP then some none
  else if k.type = MPK_COL then some none
  else
    match MPK_ElemAt a map.off with
    | none => some none
    | some v => FindLoop fuel a k map.elems v

/-- `MPK_ColSize(val)`; `a` is `val->value.col.msg`. The outer `none` means
that the fuel of the skip ran out. -/
def MPK_ColSize (fuel : Nat) (a : mpk_msg_t) (val : mpk_value_t) : Option Nat :=
  match val.value with
  | .col c =>
    let ielems := if c.type = MPK_MAP then (c.elems * 2) % U32_MOD else c.elems
    match MPK_ElemAt a c.off with
    | none => some 0
    | some endel =>
      match MPK_FwdNElems fuel a endel ielems with
      | none => none
      | some none => some ((a.size + SIZE_MOD - val.rawhdr % SIZE_MOD) % SIZE_MOD)
      | some (some endel1) =>
        some ((endel1.rawhdr + SIZE_MOD - val.rawhdr % SIZE_MOD) % SIZE_MOD)
  | _ => some 0

/-! ## Reference decode of scalars (from the wording of the specification) -/

/-- The big-endian number formed by a run of bytes. -/
def beValue (l : List Byte) : Nat := l.foldl (fun acc b => acc * 256 + b.val) 0

/-- The two's-complement reading of a `bits`-bit number. -/
def twosComplement (bits : Nat) (x : Nat) : Int :=
  if x < 2 ^ (bits - 1) then (x : Int) else (x : Int) - 2 ^ bits

/-- Payload width in bytes of the integer, boolean and nil headers; `none`
for every other header. -/
def refWidth (t : Nat) : Option Nat :=
  if t < 0x80 then some 0
  else if 0xe0 ≤ t then some 0
  else if t = 0xcc ∨ t = 0xd0 then some 1
  else if t = 0xcd ∨ t = 0xd1 then some 2
  else if t = 0xce ∨ t = 0xd2 then some 4
  else if t = 0xcf ∨ t = 0xd3 then some 8
  else if t = 0xc0 ∨ t = 0xc2 ∨ t = 0xc3 then some 0
  else none

/-- The byte-for-byte reference decode of an integer, boolean or nil element
with header `t` and payload bytes `pl`. -/
def refDecode (t : Nat) (pl : List Byte) : mpk_payload :=
  if t < 0x80 then .u8 t
  else if 0xe0 ≤ t then .i8 ((t : Int) - 256)
  else if t = 0xcc then .u8 (beValue pl)
  else if t = 0xcd then .u16 (beValue pl)
  else if t = 0xce then .u32 (beValue pl)
  else if t = 0xcf then .u64 (beValue pl)
  else if t = 0xd0 then .i8 (twosComplement 8 (beValue pl))
  else if t = 0xd1 then .i16 (twosComplement 16 (beValue pl))
  else if t = 0xd2 then .i32 (twosComplement 32 (beValue pl))
  else if t = 0xd3 then .i64 (twosComplement 64 (beValue pl))
  else if t = 0xc2 then .bool 0
  else if t = 0xc3 then .bool 1
  else .nil 0

/-! ## Auxiliary notions for the skip engine and the lookup -/

/-- Number of raw elements of a collection: a map pair counts twice. -/
def rawCount (c : mpk_collection_t) : Nat :=
  c.elems * (if c.type = MPK_MAP then 2 else 1)

/-- Decode at `off` and run the skip loop from there with count `n`: what an
iteration of `MPK_FwdNElems` does after it has moved the byte offset. -/
def FwdAt (fuel : Nat) (a : mpk_msg_t) (off n : Nat) : Option (Option mpk_value_t) :=
  match MPK_ElemAt a off with
  | none => some none
  | some v => FwdLoop fuel a v v.rawhdr n

/-- What "equal payload" means for two keys: the same member of the union
holding equal values; for blobs equal length, equal type-tag bytes and equal
payload bytes; for floats equality as floating-point numbers. -/
def payloadEq : mpk_payload → mpk_payload → Prop
  | .blob x, .blob y =>
    x.size = y.size ∧ x.type0 = y.type0 ∧ x.type1 = y.type1 ∧
      x.data.take x.size = y.data.take x.size
  | .bool x, .bool y => x = y
  | .nil x, .nil y => x = y
  | .f32 x, .f32 y => f32eq x y = true
  | .f64 x, .f64 y => f64eq x y = true
  | .u8 x, .u8 y => x = y
  | .u16 x, .u16 y => x = y
  | .u32 x, .u32 y => x = y
  | .u64 x, .u64 y => x = y
  | .i8 x, .i8 y => x = y
  | .i16 x, .i16 y => x = y
  | .i32 x, .i32 y => x = y
  | .i64 x, .i64 y => x = y
  | _, _ => False

/-! ## Concrete messages -/

/-- `cc ff`: an explicit unsigned-8 element. -/
def msgU8 : mpk_msg_t := ⟨[0xcc, 0xff]⟩

/-- A 257-byte message: fixint 5 at offset 0, fixint 7 at offset 256. -/
def msgLong : mpk_msg_t := ⟨5 :: (List.replicate 255 0 ++ [7])⟩

/-- A 258-byte message: `cc 09`, then at offset 2 an array of three children:
a 251-byte string at offset 3 (it ends at offset 256), fixint 7 at offset 256
and fixint 8 at offset 257. -/
def msgWrap : mpk_msg_t :=
  ⟨[0xcc, 9, 0x93, 0xd9, 251] ++ (List.replicate 251 0 ++ [7, 8])⟩

/-- `82 01 02 a1 78 03`: the map `{1: 2, "x": 3}`. -/
def msgMixedMap : mpk_msg_t := ⟨[0x82, 1, 2, 0xa1, 0x78, 3]⟩

/-- The lookup key `"x"`, as decoded from the one-element message `a1 78`. -/
def keyX : mpk_value_t :=
  { value := .blob { off := 1, size := 1, data := [0x78], type0 := 0, type1 := 0 }, rawhdr := 0 }

/-- `93 01 02 03`: the array `[1, 2, 3]`, last in the buffer. -/
def msgArr3 : mpk_msg_t := ⟨[0x93, 1, 2, 3]⟩

/-- `91 90`: an array whose only child is an empty array, at the very end. -/
def msgNestedEmpty : mpk_msg_t := ⟨[0x91, 0x90]⟩

/-- `92 01 02 03`: the array `[1, 2]` followed by the fixint 3. -/
def msgArrThen : mpk_msg_t := ⟨[0x92, 1, 2, 3]⟩

/-- `92 01 02`: the array `[1, 2]`, last in the buffer. -/
def msgArrLast : mpk_msg_t := ⟨[0x92, 1, 2]⟩

/-- `92 01 c1`: an array of two whose second child has the unknown header. -/
def msgArrBad : mpk_msg_t := ⟨[0x92, 1, 0xc1]⟩

/-- `a0`: an empty string, last in the buffer. -/
def msgEmptyStr : mpk_msg_t := ⟨[0xa0]⟩

/-- `92 91 01 02`: the array `[[1], 2]`. -/
def msgNested : mpk_msg_t := ⟨[0x92, 0x91, 1, 2]⟩

/-- `c1`: the one header byte that belongs to no class. -/
def msgC1 : mpk_msg_t := ⟨[0xc1]⟩

/-- `cb 3f f0 00 00 00 00 00 00`: the float64 encoding of 1.0. -/
def msgOne : mpk_msg_t := ⟨[0xcb, 0x3f, 0xf0, 0, 0, 0, 0, 0, 0]⟩

/-- A 256-byte message: an array of two whose first child is a 253-byte
string that fills the buffer up to its end (`92 d9 fd` and 253 zero bytes). -/
def msgCycle : mpk_msg_t := ⟨[0x92, 0xd9, 253] ++ List.replicate 253 0⟩

/-- The array decoded at offset 0 of `msgCycle`. -/
def cycArr : mpk_value_t := { value := .col ⟨1, 2, MPK_ARR⟩, rawhdr := 0 }

/-- The string decoded at offset 1 of `msgCycle`. -/
def cycStr : mpk_value_t :=
  { value := .blob ⟨3, 253, List.replicate 253 0, 0, 0⟩, rawhdr := 1 }

/-- 1 for a predicate that holds, 0 for one that does not: used to count how
many predicates of a family hold. -/
def b2n (b : Bool) : Nat := if b then 1 else 0

/-! ## Reference functions for blob and collection headers, extractors and truncation -/

/-- Width in bytes of the explicit length field that follows a blob header;
0 for the headers that carry the length themselves. -/
def blobLenWidthRef (t : Nat) : Nat :=
  if t = 0xc4 ∨ t = 0xc7 ∨ t = 0xd9 then 1
  else if t = 0xc5 ∨ t = 0xc8 ∨ t = 0xda then 2
  else if t = 0xc6 ∨ t = 0xc9 ∨ t = 0xdb then 4
  else 0

/-- Kind tag of a blob header: string, binary or extension; `none` for a
header that is not a blob class. -/
def blobKindRef (t : Nat) : Option Nat :=
  if (0xa0 ≤ t ∧ t ≤ 0xbf) ∨ (0xd9 ≤ t ∧ t ≤ 0xdb) then some MPK_STR
  else if 0xc4 ≤ t ∧ t ≤ 0xc6 then some MPK_BIN
  else if (0xc7 ≤ t ∧ t ≤ 0xc9) ∨ (0xd4 ≤ t ∧ t ≤ 0xd8) then some MPK_EXT
  else none

/-- 1 for an extension header (one subtype byte follows the length field),
0 otherwise. -/
def blobExtRef (t : Nat) : Nat := if blobKindRef t = some MPK_EXT then 1 else 0

/-- Length of the payload of the blob with header `t` at `off`. -/
def blobLenRef (a : mpk_msg_t) (off t : Nat) : Nat :=
  if 0xa0 ≤ t ∧ t ≤ 0xbf then t % 32
  else if t = 0xd4 then 1
  else if t = 0xd5 then 2
  else if t = 0xd6 then 4
  else if t = 0xd7 then 8
  else if t = 0xd8 then 16
  else beValue ((a.msg.drop (off + 1)).take (blobLenWidthRef t))

/-- The blob that the wording of the specification describes at `off` for
the header byte `t`; `none` stands for the sentinel. -/
def blobRef (a : mpk_msg_t) (off t : Nat) : Option mpk_blob_t :=
  match blobKindRef t with
  | none => none
  | some ty =>
    let lw := blobLenWidthRef t
    let ext := blobExtRef t
    let len := blobLenRef a off t
    if a.size < off + 1 + lw then none
    else if ext = 1 ∧ a.size ≤ off + 1 + lw then none
    else if a.size < off + 1 + lw + ext + len then none
    else some
      { off := off + 1 + lw + ext, size := len,
        data := (a.msg.drop (off + 1 + lw + ext)).take len,
        type0 := (ty : Int),
        type1 := if ext = 1 then twosComplement 8 ((a.msg.getD (off + 1 + lw) 0).val) else 0 }

/-- Kind tag of a collection header: array or map; `none` for a header that
is not a collection class. -/
def colKindRef (t : Nat) : Option Nat :=
  if (0x90 ≤ t ∧ t ≤ 0x9f) ∨ t = 0xdc ∨ t = 0xdd then some MPK_ARR
  else if (0x80 ≤ t ∧ t ≤ 0x8f) ∨ t = 0xde ∨ t = 0xdf then some MPK_MAP
  else none

/-- Width in bytes of the explicit length field that follows a collection
header; 0 for the fix variants. -/
def colLenWidthRef (t : Nat) : Nat :=
  if t = 0xdc ∨ t = 0xde then 2
  else if t = 0xdd ∨ t = 0xdf then 4
  else 0

/-- Element count of the collection with header `t` at `off` (for a map: the
number of pairs). -/
def colCountRef (a : mpk_msg_t) (off t : Nat) : Nat :=
  if 0x80 ≤ t ∧ t ≤ 0x9f then t % 16
  else beValue ((a.msg.drop (off + 1)).take (colLenWidthRef t))

/-- `ExtractorSpec w f conv zero`: the extractor `f` of payload width `w`
fails (flag set to 1, result `zero`) when `off + 1 + w > size`, and otherwise
leaves the flag as it was and returns `conv` of the big-endian number of the
bytes `off+1 .. off+w`; for offsets with `off + w < 2^64`. -/
def ExtractorSpec {α : Type} (w : Nat) (f : mpk_msg_t → Nat → Int → α × Int)
    (conv : Nat → α) (zero : α) : Prop :=
  ∀ (a : mpk_msg_t) (off : Nat) (err : Int), off + w < SIZE_MOD →
    (a.size < off + 1 + w → f a off err = (zero, 1)) ∧
    (off + 1 + w ≤ a.size →
      f a off err = (conv (beValue ((a.msg.drop (off + 1)).take w)), err))

/-- `07`: one byte. -/
def msgSeven : mpk_msg_t := ⟨[7]⟩

/-- `a3 61 62 63`: the string "abc". -/
def msgAbc : mpk_msg_t := ⟨[0xa3, 0x61, 0x62, 0x63]⟩

/-- The buffer cut down to its first `k` bytes. -/
def truncate (k : Nat) (a : mpk_msg_t) : mpk_msg_t := ⟨a.msg.take k⟩

/-- Payload width of the scalar headers: the integers, booleans and nil of
`refWidth`, and the two floats. -/
def scalarWidthRef (t : Nat) : Option Nat :=
  if t = 0xca then some 4 else if t = 0xcb then some 8 else refWidth t

/-- Number of bytes the element with header `t` at `off` needs: header,
length field, extension subtype byte and payload for a scalar or a blob;
header, length field and the first byte after it for a collection. -/
def neededBytes (a : mpk_msg_t) (off t : Nat) : Nat :=
  if blobKindRef t ≠ none then
    1 + blobLenWidthRef t + blobExtRef t + blobLenRef a off t
  else if colKindRef t ≠ none then 1 + colLenWidthRef t + 1
  else 1 + (scalarWidthRef t).getD 0

/-! ## Well-formed runs of elements on the wire (from the wording of the specification) -/

/-- `Wire a p k e`: the bytes `[p, e)` of the buffer hold exactly `k` complete
MessagePack elements, one after the other, every nested descendant included.
The extent of each element is read off the wire format alone: a scalar is its
header and the `scalarWidthRef` payload bytes; a blob is its header, its
length field, the subtype byte of an extension and the payload of the length
the header or the length field states; a collection is its header, its length
field and then the run of its children, as many as the header or the length
field states, a map pair being two children (recursive descent). -/
inductive Wire (a : mpk_msg_t) : Nat → Nat → Nat → Prop where
  | nil (p : Nat) : Wire a p 0 p
  | scalar {p k e : Nat} (hdr : Byte) (w : Nat) :
      a.msg[p]? = some hdr → scalarWidthRef hdr.val = some w → p + 1 + w ≤ a.size →
      Wire a (p + 1 + w) k e → Wire a p (k + 1) e
  | blob {p k e : Nat} (hdr : Byte) :
      a.msg[p]? = some hdr → blobKindRef hdr.val ≠ none →
      p + 1 + blobLenWidthRef hdr.val + blobExtRef hdr.val + blobLenRef a p hdr.val ≤ a.size →
      Wire a (p + 1 + blobLenWidthRef hdr.val + blobExtRef hdr.val + blobLenRef a p hdr.val) k e →
      Wire a p (k + 1) e
  | col {p k e e1 : Nat} (hdr : Byte) (ty : Nat) :
      a.msg[p]? = some hdr → colKindRef hdr.val = some ty →
      p + 1 + colLenWidthRef hdr.val ≤ a.size →
      Wire a (p + 1 + colLenWidthRef hdr.val)
        (colCountRef a p hdr.val * (if ty = MPK_MAP then 2 else 1)) e1 →
      Wire a e1 k e → Wire a p (k + 1) e

/-- The byte at `off` is a collection header whose length field ends exactly
where the buffer ends, so that no byte follows it (a well-formed collection
of this kind is empty). -/
def colEndsBuffer (a : mpk_msg_t) (off : Nat) : Bool :=
  match a.msg[off]? with
  | some hdr => (colKindRef hdr.val).isSome && decide (off + 1 + colLenWidthRef hdr.val = a.size)
  | none => false

/-- `92 cd 00 01 02 07`: the array `[1, 2]` whose first child is an explicit
unsigned-16, followed by the fixint 7. -/
def msgU16Arr : mpk_msg_t := ⟨[0x92, 0xcd, 0, 1, 2, 7]⟩

/-- `82 a1 78 cd 00 01 91 90 c3 07`: the map `{"x": 1, [[]]: true}`, whose
second key is an array holding an empty array, followed by the fixint 7. -/
def msgDeep : mpk_msg_t := ⟨[0x82, 0xa1, 0x78, 0xcd, 0, 1, 0x91, 0x90, 0xc3, 7]⟩

/-- `92 01 90`: the array `[1, []]`, last in the buffer. -/
def msgArrEmptyLast : mpk_msg_t := ⟨[0x92, 1, 0x90]⟩

/-- `91 01 90`: the array `[1]` followed by an empty array that is the last
byte of the buffer. -/
def msgArrThenEmpty : mpk_msg_t := ⟨[0x91, 1, 0x90]⟩

/-- `92 01`: an array of two cut off after its first child. -/
def msgArrCut : mpk_msg_t := ⟨[0x92, 1]⟩

/-- `91 c1`: an array of one whose only child has the unknown header. -/
def msgBadFirst : mpk_msg_t := ⟨[0x91, 0xc1]⟩

/-- `81 cb 3f f0 00 00 00 00 00 00 01`: the map `{1.0: 1}` with a float64
key. -/
def msgMapF64 : mpk_msg_t := ⟨[0x81, 0xcb, 0x3f, 0xf0, 0, 0, 0, 0, 0, 0, 1]⟩

/-- `cb 40 00 00 00 00 00 00 00`: the float64 encoding of 2.0. -/
def msgTwo : mpk_msg_t := ⟨[0xcb, 0x40, 0, 0, 0, 0, 0, 0, 0]⟩

/-! ## Facts about the header classes -/

set_option maxRecDepth 100000 in
theorem class_posfix : ∀ p : Byte, p.val < 0x80 →
    MPK_ISBLOB p.val = false ∧ MPK_ISCOL p.val = false ∧ MPK_ISBOOL p.val = false ∧
    MPK_ISNIL p.val = false ∧ MPK_ISNUM p.val = true ∧ MPK_ISUF p.val = true := by
  decide

set_option maxRecDepth 100000 in
theorem class_negfix : ∀ p : Byte, 0xe0 ≤ p.val →
    MPK_ISBLOB p.val = false ∧ MPK_ISCOL p.val = false ∧ MPK_ISBOOL p.val = false ∧
    MPK_ISNIL p.val = false ∧ MPK_ISNUM p.val = true ∧ MPK_ISUF p.val = false ∧
    MPK_ISIF p.val = true := by
  decide

set_option maxRecDepth 100000 in
theorem class_explicit : ∀ p : Byte, 0xca ≤ p.val → p.val ≤ 0xd3 →
    MPK_ISBLOB p.val = false ∧ MPK_ISCOL p.val = false ∧ MPK_ISBOOL p.val = false ∧
    MPK_ISNIL p.val = false ∧ MPK_ISNUM p.val = true ∧ MPK_ISUF p.val = false ∧
    MPK_ISIF p.val = false := by
  decide

set_option maxRecDepth 100000 in
theorem class_const : ∀ p : Byte, p.val = 0xc0 ∨ p.val = 0xc2 ∨ p.val = 0xc3 →
    MPK_ISBLOB p.val = false ∧ MPK_ISCOL p.val = false ∧
    MPK_ISBOOL p.val = decide (p.val ≠ 0xc0) ∧ MPK_ISNIL p.val = decide (p.val = 0xc0) := by
  decide

/-! ## Facts about the byte-order normaliser -/

theorem beValue_append_single (l : List Byte) (b : Byte) :
    beValue (l ++ [b]) = beValue l * 256 + b.val := by
  simp [beValue, List.foldl_append]

theorem leValue_eq_beValue_reverse (l : List Byte) : leValue l = beValue l.reverse := by
  induction l with
  | nil => rfl
  | cons b l ih =>
    rw [List.reverse_cons, beValue_append_single, leValue, ih]
    omega

theorem leValue_append_zeros (l : List Byte) (k : Nat) :
    leValue (l ++ List.replicate k 0) = leValue l := by
  induction l with
  | nil =>
    induction k with
    | zero => rfl
    | succ k ih =>
      simp only [List.nil_append] at ih
      simp [List.replicate_succ, leValue, ih]
  | cons b l ih => simp [leValue, ih]

theorem unsafeBytesToNum_eq (v : List Byte) (bytes : Nat) :
    MPK_UnsafeBytesToNum v bytes = beValue (v.take bytes) := by
  rw [MPK_UnsafeBytesToNum, leValue_append_zeros, leValue_eq_beValue_reverse, List.reverse_reverse]

theorem beValue_lt (l : List Byte) : beValue l < 256 ^ l.length := by
  induction l using List.reverseRecOn with
  | nil => simp [beValue]
  | append_singleton l b ih =>
    rw [beValue_append_single, List.length_append, List.length_singleton, pow_succ]
    have := b.isLt
    omega

theorem get?_of_lt_size (a : mpk_msg_t) (i : Nat) (h : i < a.size) :
    ∃ b, a.msg[i]? = some b := by
  refine ⟨a.msg.get ⟨i, h⟩, ?_⟩
  simp [mpk_msg_t.size] at *

/-- Inside the buffer the generated extractor returns the big-endian number
of the payload and leaves the flag alone. -/
theorem MPKNUM_ok (bytes : Nat) (a : mpk_msg_t) (off : Nat) (err : Int)
    (hb : 1 ≤ bytes) (hfit : off + 1 + bytes ≤ a.size) (hoff : off + bytes < SIZE_MOD) :
    MPKNUM bytes a off err = (beValue ((a.msg.drop (off + 1)).take bytes), err) := by
  have h1 : (off + 1) % SIZE_MOD = off + 1 := Nat.mod_eq_of_lt (by omega)
  have h2 : (off + bytes) % SIZE_MOD = off + bytes := Nat.mod_eq_of_lt hoff
  obtain ⟨b1, hb1⟩ := get?_of_lt_size a (off + 1) (by omega)
  obtain ⟨b2, hb2⟩ := get?_of_lt_size a (off + bytes) (by omega)
  have l1 : off + 1 < a.size := by omega
  have l2 : off + bytes < a.size := by omega
  simp only [MPKNUM, h1, h2, INDEX, l1, l2, if_true, hb1, hb2, unsafeBytesToNum_eq]

/-- Outside the buffer the generated extractor sets the flag and returns 0. -/
theorem MPKNUM_err (bytes : Nat) (a : mpk_msg_t) (off : Nat) (err : Int)
    (hfit : a.size < off + 1 + bytes) (hoff : off + bytes < SIZE_MOD) :
    MPKNUM bytes a off err = (0, 1) := by
  have h2 : (off + bytes) % SIZE_MOD = off + bytes := Nat.mod_eq_of_lt hoff
  have l2 : ¬ off + bytes < a.size := by omega
  simp only [MPKNUM, h2, INDEX, l2, if_false]
  split <;> simp_all

theorem payload_length (a : mpk_msg_t) (off w : Nat) (hfit : off + 1 + w ≤ a.size) :
    ((a.msg.drop (off + 1)).take w).length = w := by
  simp [mpk_msg_t.size] at *
  omega

/-! ## C1: scalars decode to the reference decode -/

theorem asUnsigned_beValue (w : Nat) (l : List Byte) (hl : l.length = w) :
    asUnsigned (8 * w) (beValue l) = beValue l := by
  have h := beValue_lt l
  rw [hl] at h
  have e : (2 : Nat) ^ (8 * w) = 256 ^ w := by rw [pow_mul]; norm_num
  rw [asUnsigned, e]
  exact Nat.mod_eq_of_lt h

theorem asSigned_beValue (w : Nat) (l : List Byte) (hl : l.length = w) :
    asSigned (8 * w) (beValue l) = twosComplement (8 * w) (beValue l) := by
  have h := asUnsigned_beValue w l hl
  rw [asUnsigned] at h
  simp only [asSigned, twosComplement, h]

/-- C1: at an offset `off` that `MPK_ElemAt` can be given (its parameter is a
`uint8_t`) and whose header byte `p` denotes an integer, a boolean or nil
(`refWidth p` is the payload width `w`), with the payload inside the buffer,
`MPK_ElemAt` succeeds and yields the tag and value of the byte-for-byte
reference decode `refDecode` of the header and the `w` payload bytes, with
the header offset `off`. -/
theorem elemAt_scalar (a : mpk_msg_t) (off : Nat) (p : Byte) (w : Nat)
    (hoff : off < 256) (hp : a.msg[off]? = some p)
    (hw : refWidth p.val = some w) (hfit : off + 1 + w ≤ a.size) :
    MPK_ElemAt a off
      = some { value := refDecode p.val ((a.msg.drop (off + 1)).take w), rawhdr := off } := by
  have hlt : off < a.size := by omega
  have hmod : off % 256 = off := Nat.mod_eq_of_lt hoff
  have hlen := payload_length a off w hfit
  have hidx : INDEX a.msg off a.size = some p := by simp [INDEX, hlt, hp]
  unfold refWidth at hw
  unfold refDecode
  split_ifs at hw with c1 c2 c3 c4 c5 c6 c7
  · obtain ⟨h1, h2, h3, h4, h5, h6⟩ := class_posfix p c1
    simp [MPK_ElemAt, hmod, hidx, h1, h2, h3, h4, h5, numericAt, h6, MPK_NumUF, c1]
  · obtain ⟨h1, h2, h3, h4, h5, h6, h7⟩ := class_negfix p c2
    simp [MPK_ElemAt, hmod, hidx, h1, h2, h3, h4, h5, numericAt, h6, h7, MPK_NumIF, c1, c2]
    have := p.isLt
    have e : (p.val % 2 ^ 8) = p.val := Nat.mod_eq_of_lt (by omega)
    rw [asSigned, e, if_neg (by norm_num; omega)]
    norm_num
  · obtain ⟨h1, h2, h3, h4, h5, h6, h7⟩ := class_explicit p (by omega) (by omega)
    have hw1 : w = 1 := by simpa using hw.symm
    subst hw1
    have hn := MPKNUM_ok 1 a off 0 (by omega) hfit (by simp [SIZE_MOD]; omega)
    have hu := asUnsigned_beValue 1 _ hlen
    have hs := asSigned_beValue 1 _ hlen
    rcases c3 with hv | hv <;> simp only [hv] at h1 h2 h3 h4 h5 h6 h7 <;>
      simp [MPK_ElemAt, hmod, hidx, h1, h2, h3, h4, h5, numericAt, h6, h7, hv, MPK_U8, MPK_U16,
        MPK_U32, MPK_U64, MPK_I8, MPK_I16, MPK_I32, MPK_I64, MPK_NumU8, MPK_NumI8, hn] <;>
      first | simpa using hu | simpa using hs
  · obtain ⟨h1, h2, h3, h4, h5, h6, h7⟩ := class_explicit p (by omega) (by omega)
    have hw1 : w = 2 := by simpa using hw.symm
    subst hw1
    have hn := MPKNUM_ok 2 a off 0 (by omega) hfit (by simp [SIZE_MOD]; omega)
    have hu := asUnsigned_beValue 2 _ hlen
    have hs := asSigned_beValue 2 _ hlen
    rcases c4 with hv | hv <;> simp only [hv] at h1 h2 h3 h4 h5 h6 h7 <;>
      simp [MPK_ElemAt, hmod, hidx, h1, h2, h3, h4, h5, numericAt, h6, h7, hv, MPK_U8, MPK_U16,
        MPK_U32, MPK_U64, MPK_I8, MPK_I16, MPK_I32, MPK_I64, MPK_NumU16, MPK_NumI16, hn] <;>
      first | simpa using hu | simpa using hs
  · obtain ⟨h1, h2, h3, h4, h5, h6, h7⟩ := class_explicit p (by omega) (by omega)
    have hw1 : w = 4 := by simpa using hw.symm
    subst hw1
    have hn := MPKNUM_ok 4 a off 0 (by omega) hfit (by simp [SIZE_MOD]; omega)
    have hu := asUnsigned_beValue 4 _ hlen
    have hs := asSigned_beValue 4 _ hlen
    rcases c5 with hv | hv <;> simp only [hv] at h1 h2 h3 h4 h5 h6 h7 <;>
      simp [MPK_ElemAt, hmod, hidx, h1, h2, h3, h4, h5, numericAt, h6, h7, hv, MPK_U8, MPK_U16,
        MPK_U32, MPK_U64, MPK_I8, MPK_I16, MPK_I32, MPK_I64, MPK_NumU32, MPK_NumI32, hn] <;>
      first | simpa using hu | simpa using hs
  · obtain ⟨h1, h2, h3, h4, h5, h6, h7⟩ := class_explicit p (by omega) (by omega)
    have hw1 : w = 8 := by simpa using hw.symm
    subst hw1
    have hn := MPKNUM_ok 8 a off 0 (by omega) hfit (by simp [SIZE_MOD]; omega)
    have hu := asUnsigned_beValue 8 _ hlen
    have hs := asSigned_beValue 8 _ hlen
    rcases c6 with hv | hv <;> simp only [hv] at h1 h2 h3 h4 h5 h6 h7 <;>
      simp [MPK_ElemAt, hmod, hidx, h1, h2, h3, h4, h5, numericAt, h6, h7, hv, MPK_U8, MPK_U16,
        MPK_U32, MPK_U64, MPK_I8, MPK_I16, MPK_I32, MPK_I64, MPK_NumU64, MPK_NumI64, hn] <;>
      first | simpa using hu | simpa using hs
  · obtain ⟨h1, h2, h3, h4⟩ := class_const p c7
    rcases c7 with hv | hv | hv <;> simp only [hv] at h1 h2 h3 h4 <;>
      simp [MPK_ElemAt, hmod, hidx, h1, h2, h3, h4, hv, MPK_T]

/-! ## Shape of what the decoders return -/

set_option maxRecDepth 100000 in
theorem class_dynamic : ∀ p : Byte, (MPK_ISBLOB p.val = true ∨ MPK_ISCOL p.val = true) →
    MPK_STSiz p.val = 0 := by
  decide

set_option maxRecDepth 100000 in
theorem class_static : ∀ p : Byte, MPK_STSiz p.val ≠ 0 →
    MPK_ISBLOB p.val = false ∧ MPK_ISCOL p.val = false ∧ 1 ≤ MPK_STSiz p.val ∧
    MPK_STSiz p.val ≤ 9 := by
  decide

theorem asUnsigned_lt (w n : Nat) : asUnsigned w n < 2 ^ w := Nat.mod_lt _ (by positivity)

theorem num8_lt (a : mpk_msg_t) (off : Nat) : (MPK_NumU8 a off 0).1 < U32_MOD := by
  have := asUnsigned_lt 8 (MPKNUM 1 a off 0).1
  simp only [MPK_NumU8, U32_MOD]; omega

theorem num16_lt (a : mpk_msg_t) (off : Nat) : (MPK_NumU16 a off 0).1 < U32_MOD := by
  have := asUnsigned_lt 16 (MPKNUM 2 a off 0).1
  simp only [MPK_NumU16, U32_MOD]; omega

theorem num32_lt (a : mpk_msg_t) (off : Nat) : (MPK_NumU32 a off 0).1 < U32_MOD := by
  have := asUnsigned_lt 32 (MPKNUM 4 a off 0).1
  simp only [MPK_NumU32, U32_MOD]; omega

set_option maxRecDepth 100000 in
theorem fixext_size_lt : ∀ p : Byte, MPK_ISXF p.val = true →
    1 <<< (p.val - MPK_XF1) < U32_MOD := by
  decide

theorem blobLength_bound (a : mpk_msg_t) (off : Nat) (p : Byte) (ty ib sz : Nat)
    (h : blobLength a off p.val ty = some (ib, sz)) : ib ≤ 4 ∧ sz < U32_MOD := by
  have h5 : p.val &&& 31 < U32_MOD := lt_of_le_of_lt Nat.and_le_right (by simp [U32_MOD])
  have h8 := num8_lt a off
  have h16 := num16_lt a off
  have h32 := num32_lt a off
  unfold blobLength at h
  split_ifs at h with c1 c2
  · simp at h; obtain ⟨rfl, rfl⟩ := h; exact ⟨by omega, h5⟩
  · have hx := fixext_size_lt p c2.2
    simp only [Option.some.injEq, Prod.mk.injEq] at h
    obtain ⟨rfl, rfl⟩ := h; exact ⟨by omega, hx⟩
  all_goals
    simp at h
    obtain ⟨_, rfl, rfl⟩ := h
    refine ⟨by omega, ?_⟩
    assumption

theorem colLength_bound (a : mpk_msg_t) (off : Nat) (p : Byte) (ib el : Nat)
    (h : colLength a off p.val = some (ib, el)) : ib ≤ 4 ∧ el < U32_MOD := by
  have h4 : p.val &&& 15 < U32_MOD := lt_of_le_of_lt Nat.and_le_right (by simp [U32_MOD])
  have h16 := num16_lt a off
  have h32 := num32_lt a off
  unfold colLength at h
  split_ifs at h
  · simp at h; obtain ⟨rfl, rfl⟩ := h; exact ⟨by omega, h4⟩
  all_goals
    simp at h
    obtain ⟨_, rfl, rfl⟩ := h
    refine ⟨by omega, ?_⟩
    assumption

theorem INDEX_some (l : List Byte) (i m : Nat) (q : Byte) (h : INDEX l i m = some q) :
    i < m := by
  unfold INDEX at h
  split at h
  · assumption
  · simp at h

theorem blob_off (a : mpk_msg_t) (off : Nat) (hoff : off < 256)
    (h : (MPK_Blob a off).off ≠ 0) :
    off < (MPK_Blob a off).off ∧ (MPK_Blob a off).off ≤ off + 6 ∧
    (MPK_Blob a off).off + (MPK_Blob a off).size ≤ a.size := by
  generalize hr : MPK_Blob a off = r at h ⊢
  unfold MPK_Blob at hr
  split at hr
  · subst hr; simp at h
  · split at hr
    · subst hr; simp at h
    · split at hr
      · subst hr; simp at h
      · rename_i p hp _ ty hty _ ib sz hlen
        obtain ⟨hib, hsz⟩ := blobLength_bound a off p ty ib sz hlen
        split at hr
        · subst hr; simp at h
        · simp only at hr
          have hext : (if ty = MPK_EXT then 1 else 0) ≤ 1 := by split <;> omega
          generalize (if ty = MPK_EXT then 1 else 0) = ext at hr hext
          have hm1 : (off + ib + sz + ext) % SIZE_MOD = off + ib + sz + ext :=
            Nat.mod_eq_of_lt (by simp [SIZE_MOD, U32_MOD] at *; omega)
          have hm2 : (off + ib + ext + 1) % SIZE_MOD = off + ib + ext + 1 :=
            Nat.mod_eq_of_lt (by simp [SIZE_MOD]; omega)
          rw [hm1, hm2] at hr
          split at hr
          · rename_i q hq
            have := INDEX_some _ _ _ _ hq
            subst hr
            simp only
            omega
          · subst hr; simp at h

theorem col_off (a : mpk_msg_t) (off : Nat) (hoff : off < 256)
    (h : (MPK_Col a off).off ≠ 0) :
    off < (MPK_Col a off).off ∧ (MPK_Col a off).off ≤ off + 5 ∧
    (MPK_Col a off).off < a.size ∧ (MPK_Col a off).elems < U32_MOD := by
  generalize hr : MPK_Col a off = r at h ⊢
  unfold MPK_Col at hr
  split at hr
  · subst hr; simp at h
  · split at hr
    · subst hr; simp at h
    · split at hr
      · subst hr; simp at h
      · rename_i p hp _ ty hty _ ib el hlen
        obtain ⟨hib, hel⟩ := colLength_bound a off p ib el hlen
        simp only at hr
        have hm : (off + 1 + ib) % SIZE_MOD = off + 1 + ib :=
          Nat.mod_eq_of_lt (by simp [SIZE_MOD]; omega)
        rw [hm] at hr
        split at hr
        · rename_i q hq
          have := INDEX_some _ _ _ _ hq
          subst hr
          simp only
          exact ⟨by omega, by omega, this, hel⟩
        · subst hr; simp at h

set_option maxRecDepth 100000 in
theorem class_scalar : ∀ p : Byte, MPK_ISBLOB p.val = false → MPK_ISCOL p.val = false →
    (MPK_ISBOOL p.val = true ∨ MPK_ISNIL p.val = true ∨ MPK_ISNUM p.val = true) →
    MPK_STSiz p.val ≠ 0 := by
  decide

theorem numericAt_kind (a : mpk_msg_t) (off p : Nat) (v : mpk_payload) (err : Int)
    (h : numericAt a off p = some (v, err)) :
    (∀ b, v ≠ .blob b) ∧ (∀ c, v ≠ .col c) := by
  unfold numericAt at h
  by_cases c0 : MPK_ISUF p = true
  · rw [if_pos c0] at h
    simp only [Option.some.injEq, Prod.mk.injEq] at h
    obtain ⟨rfl, _⟩ := h
    exact ⟨fun _ => by simp, fun _ => by simp⟩
  rw [if_neg c0] at h
  by_cases c1 : MPK_ISIF p = true
  · rw [if_pos c1] at h
    simp only [Option.some.injEq, Prod.mk.injEq] at h
    obtain ⟨rfl, _⟩ := h
    exact ⟨fun _ => by simp, fun _ => by simp⟩
  rw [if_neg c1] at h
  by_cases c2 : p = MPK_U8
  · rw [if_pos c2] at h
    simp only [Option.some.injEq, Prod.mk.injEq] at h
    obtain ⟨rfl, _⟩ := h
    exact ⟨fun _ => by simp, fun _ => by simp⟩
  rw [if_neg c2] at h
  by_cases c3 : p = MPK_U16
  · rw [if_pos c3] at h
    simp only [Option.some.injEq, Prod.mk.injEq] at h
    obtain ⟨rfl, _⟩ := h
    exact ⟨fun _ => by simp, fun _ => by simp⟩
  rw [if_neg c3] at h
  by_cases c4 : p = MPK_U32
  · rw [if_pos c4] at h
    simp only [Option.some.injEq, Prod.mk.injEq] at h
    obtain ⟨rfl, _⟩ := h
    exact ⟨fun _ => by simp, fun _ => by simp⟩
  rw [if_neg c4] at h
  by_cases c5 : p = MPK_U64
  · rw [if_pos c5] at h
    simp only [Option.some.injEq, Prod.mk.injEq] at h
    obtain ⟨rfl, _⟩ := h
    exact ⟨fun _ => by simp, fun _ => by simp⟩
  rw [if_neg c5] at h
  by_cases c6 : p = MPK_I8
  · rw [if_pos c6] at h
    simp only [Option.some.injEq, Prod.mk.injEq] at h
    obtain ⟨rfl, _⟩ := h
    exact ⟨fun _ => by simp, fun _ => by simp⟩
  rw [if_neg c6] at h
  by_cases c7 : p = MPK_I16
  · rw [if_pos c7] at h
    simp only [Option.some.injEq, Prod.mk.injEq] at h
    obtain ⟨rfl, _⟩ := h
    exact ⟨fun _ => by simp, fun _ => by simp⟩
  rw [if_neg c7] at h
  by_cases c8 : p = MPK_I32
  · rw [if_pos c8] at h
    simp only [Option.some.injEq, Prod.mk.injEq] at h
    obtain ⟨rfl, _⟩ := h
    exact ⟨fun _ => by simp, fun _ => by simp⟩
  rw [if_neg c8] at h
  by_cases c9 : p = MPK_I64
  · rw [if_pos c9] at h
    simp only [Option.some.injEq, Prod.mk.injEq] at h
    obtain ⟨rfl, _⟩ := h
    exact ⟨fun _ => by simp, fun _ => by simp⟩
  rw [if_neg c9] at h
  by_cases c10 : p = MPK_F32
  · rw [if_pos c10] at h
    simp only [Option.some.injEq, Prod.mk.injEq] at h
    obtain ⟨rfl, _⟩ := h
    exact ⟨fun _ => by simp, fun _ => by simp⟩
  rw [if_neg c10] at h
  by_cases c11 : p = MPK_F64
  · rw [if_pos c11] at h
    simp only [Option.some.injEq, Prod.mk.injEq] at h
    obtain ⟨rfl, _⟩ := h
    exact ⟨fun _ => by simp, fun _ => by simp⟩
  rw [if_neg c11] at h
  simp at h

theorem elemAt_inv (a : mpk_msg_t) (off : Nat) (v : mpk_value_t)
    (h : MPK_ElemAt a off = some v) :
    v.rawhdr = off % 256 ∧ v.rawhdr < a.size ∧
    ∃ p : Byte, a.msg[off % 256]? = some p ∧
      (∀ b, v.value = .blob b → MPK_ISBLOB p.val = true ∧ b = MPK_Blob a (off % 256) ∧ b.off ≠ 0) ∧
      (∀ c, v.value = .col c → MPK_ISBLOB p.val = false ∧ MPK_ISCOL p.val = true ∧
        c = MPK_Col a (off % 256) ∧ c.off ≠ 0) ∧
      (MPK_STSiz p.val = 0 → (∃ b, v.value = .blob b) ∨ (∃ c, v.value = .col c)) := by
  unfold MPK_ElemAt at h
  simp only at h
  split at h
  · simp at h
  · rename_i p hp
    have hlt := INDEX_some _ _ _ _ hp
    have hget : a.msg[off % 256]? = some p := by simpa [INDEX, hlt] using hp
    by_cases c1 : MPK_ISBLOB p.val = true
    · rw [if_pos c1] at h
      split_ifs at h with c2
      simp only [Option.some.injEq] at h; subst h
      exact ⟨rfl, hlt, p, hget, fun b hb => by simp at hb; subst hb; exact ⟨c1, rfl, c2⟩,
        fun c hc => by simp at hc, fun _ => Or.inl ⟨_, rfl⟩⟩
    rw [if_neg c1] at h
    by_cases c3 : MPK_ISCOL p.val = true
    · rw [if_pos c3] at h
      split_ifs at h with c4
      simp only [Option.some.injEq] at h; subst h
      exact ⟨rfl, hlt, p, hget, fun b hb => by simp at hb,
        fun c hc => by simp at hc; subst hc; exact ⟨by simpa using c1, c3, rfl, c4⟩,
        fun _ => Or.inr ⟨_, rfl⟩⟩
    rw [if_neg c3] at h
    by_cases c5 : MPK_ISBOOL p.val = true
    · rw [if_pos c5] at h
      simp only [Option.some.injEq] at h; subst h
      have := class_scalar p (by simpa using c1) (by simpa using c3) (Or.inl c5)
      exact ⟨rfl, hlt, p, hget, fun b hb => by simp at hb, fun c hc => by simp at hc,
        fun h0 => absurd h0 this⟩
    rw [if_neg c5] at h
    by_cases c6 : MPK_ISNIL p.val = true
    · rw [if_pos c6] at h
      simp only [Option.some.injEq] at h; subst h
      have := class_scalar p (by simpa using c1) (by simpa using c3) (Or.inr (Or.inl c6))
      exact ⟨rfl, hlt, p, hget, fun b hb => by simp at hb, fun c hc => by simp at hc,
        fun h0 => absurd h0 this⟩
    rw [if_neg c6] at h
    by_cases c7 : MPK_ISNUM p.val = true
    · rw [if_pos c7] at h
      have := class_scalar p (by simpa using c1) (by simpa using c3) (Or.inr (Or.inr c7))
      split at h
      · simp at h
      · rename_i pv err hnum
        obtain ⟨k1, k2⟩ := numericAt_kind _ _ _ _ _ hnum
        split_ifs at h
        simp only [Option.some.injEq] at h; subst h
        exact ⟨rfl, hlt, p, hget, fun b hb => absurd hb (k1 b), fun c hc => absurd hc (k2 c),
          fun h0 => absurd h0 this⟩
    · rw [if_neg c7] at h
      simp at h

/-! ## One iteration of the skip loop -/

theorem dec_mod (n : Nat) (h : n < SIZE_MOD) : (n + 1 + SIZE_MOD - 1) % SIZE_MOD = n := by
  have : n + 1 + SIZE_MOD - 1 = n + SIZE_MOD := by omega
  rw [this, Nat.add_mod_right, Nat.mod_eq_of_lt h]

theorem elemAt_mod (a : mpk_msg_t) (x : Nat) :
    MPK_ElemAt a (x % SIZE_MOD) = MPK_ElemAt a x := by
  have : x % SIZE_MOD % 256 = x % 256 :=
    Nat.mod_mod_of_dvd x (by simp [SIZE_MOD]; norm_num)
  simp only [MPK_ElemAt, this]

theorem fwdAt_static (F : Nat) (a : mpk_msg_t) (p n : Nat) (hdr : Byte) (v : mpk_value_t)
    (hp : p < 256) (hget : a.msg[p]? = some hdr) (hs : MPK_STSiz hdr.val ≠ 0)
    (hv : MPK_ElemAt a p = some v) (hn : n + 1 < SIZE_MOD) :
    FwdAt (F + 1) a p (n + 1) = FwdAt F a (p + MPK_STSiz hdr.val) n := by
  obtain ⟨hr, hlt, -⟩ := elemAt_inv a p v hv
  rw [Nat.mod_eq_of_lt hp] at hr
  rw [hr] at hlt
  obtain ⟨-, -, -, h9⟩ := class_static hdr hs
  have hm : (p + MPK_STSiz hdr.val) % SIZE_MOD = p + MPK_STSiz hdr.val :=
    Nat.mod_eq_of_lt (by simp [SIZE_MOD]; omega)
  have hidx : INDEX a.msg p a.size = some hdr := by simp [INDEX, hlt, hget]
  conv_lhs => rw [FwdAt, hv]
  have hnm : n % SIZE_MOD = n := Nat.mod_eq_of_lt (by omega)
  simp only [hr, FwdLoop, fwdNext, hidx, hs, hlt, hm]
  simp [FwdAt, hs, hnm]

theorem fwdAt_blob (F : Nat) (a : mpk_msg_t) (p n : Nat) (b : mpk_blob_t)
    (hp : p < 256) (hv : MPK_ElemAt a p = some { value := .blob b, rawhdr := p })
    (hn : n + 1 < SIZE_MOD) :
    FwdAt (F + 1) a p (n + 1) = FwdAt F a (b.off + b.size) n := by
  obtain ⟨-, hlt, hdr, hget, hb, -, -⟩ := elemAt_inv a p _ hv
  simp only at hlt
  rw [Nat.mod_eq_of_lt hp] at hget
  obtain ⟨hcls, hbe, hb0⟩ := hb b rfl
  rw [Nat.mod_eq_of_lt hp] at hbe
  have hs := class_dynamic hdr (Or.inl hcls)
  have hbo := blob_off a p hp (by rw [← hbe]; exact hb0)
  rw [← hbe] at hbo
  have hnm : n % SIZE_MOD = n := Nat.mod_eq_of_lt (by omega)
  have hidx : INDEX a.msg p a.size = some hdr := by simp [INDEX, hlt, hget]
  conv_lhs => rw [FwdAt, hv]
  simp only [FwdLoop, fwdNext, hidx, hlt]
  simp [FwdAt, hs, hnm, elemAt_mod]

theorem fwdAt_col (F : Nat) (a : mpk_msg_t) (p n : Nat) (c : mpk_collection_t)
    (hp : p < 256) (hv : MPK_ElemAt a p = some { value := .col c, rawhdr := p })
    (hr : rawCount c < U32_MOD) (hn : n + 1 + rawCount c < SIZE_MOD) :
    FwdAt (F + 1) a p (n + 1) = FwdAt F a c.off (n + rawCount c) := by
  obtain ⟨-, hlt, hdr, hget, -, hc, -⟩ := elemAt_inv a p _ hv
  simp only at hlt
  rw [Nat.mod_eq_of_lt hp] at hget
  obtain ⟨-, hcls, -, -⟩ := hc c rfl
  have hs := class_dynamic hdr (Or.inr hcls)
  have hidx : INDEX a.msg p a.size = some hdr := by simp [INDEX, hlt, hget]
  have hrc : (c.elems * if c.type = MPK_MAP then 2 else 1) % U32_MOD = rawCount c :=
    Nat.mod_eq_of_lt hr
  have hnm : (n + 1 + rawCount c + SIZE_MOD - 1) % SIZE_MOD = n + rawCount c := by
    have e : n + 1 + rawCount c + SIZE_MOD - 1 = (n + rawCount c) + 1 + SIZE_MOD - 1 := by
      omega
    rw [e]
    exact dec_mod _ (by omega)
  have hn1 : (n + 1 + rawCount c) % SIZE_MOD = n + 1 + rawCount c := Nat.mod_eq_of_lt hn
  conv_lhs => rw [FwdAt, hv]
  simp only [FwdLoop, fwdNext, hidx, hlt, hrc, hn1]
  simp only [FwdAt, hs, ne_eq, not_true_eq_false, if_false, Nat.succ_ne_zero, not_false_eq_true,
    and_self, if_true]
  rw [hnm]

/-! ## Offsets of a decoded blob and of a decoded collection -/

theorem elemAt_blob_off (a : mpk_msg_t) (p : Nat) (b : mpk_blob_t) (hp : p < 256)
    (hv : MPK_ElemAt a p = some { value := .blob b, rawhdr := p }) :
    p < b.off ∧ b.off ≤ p + 6 ∧ b.off + b.size ≤ a.size := by
  obtain ⟨-, -, hdr, -, hb, -, -⟩ := elemAt_inv a p _ hv
  obtain ⟨-, hbe, hb0⟩ := hb b rfl
  rw [Nat.mod_eq_of_lt hp] at hbe
  have := blob_off a p hp (by rw [← hbe]; exact hb0)
  rwa [← hbe] at this

theorem elemAt_col_off (a : mpk_msg_t) (p : Nat) (c : mpk_collection_t) (hp : p < 256)
    (hv : MPK_ElemAt a p = some { value := .col c, rawhdr := p }) :
    p < c.off ∧ c.off ≤ p + 5 ∧ c.off < a.size ∧ c.elems < U32_MOD := by
  obtain ⟨-, -, hdr, -, -, hc, -⟩ := elemAt_inv a p _ hv
  obtain ⟨-, -, hce, hc0⟩ := hc c rfl
  rw [Nat.mod_eq_of_lt hp] at hce
  have := col_off a p hp (by rw [← hce]; exact hc0)
  rwa [← hce] at this

/-! ## More fuel does not change a result -/

theorem FwdLoop_mono (F : Nat) : ∀ (a : mpk_msg_t) (v : mpk_value_t) (off n : Nat)
    (r : Option mpk_value_t), FwdLoop F a v off n = some r →
    FwdLoop (F + 1) a v off n = some r := by
  induction F with
  | zero => intro a v off n r h; simp [FwdLoop] at h
  | succ F ih =>
    intro a v off n r h
    rw [FwdLoop] at h ⊢
    split_ifs at h ⊢ with c1 c2
    · split at h
      · rename_i hI
        try simp only [hI]
        exact ih _ _ _ _ _ h
      · rename_i q hI
        try simp only [hI] at h ⊢
        split at h
        · rename_i hnext
          try simp only [hnext]
          exact h
        · rename_i off1 n1 hnext
          try simp only [hnext] at h ⊢
          split at h
          · rename_i hE
            try simp only [hE]
            exact h
          · rename_i w hE
            try simp only [hE]
            exact ih _ _ _ _ _ h
    · exact h
    · exact h

theorem FwdLoop_mono_add (t F : Nat) (a : mpk_msg_t) (v : mpk_value_t) (off n : Nat)
    (r : Option mpk_value_t) (h : FwdLoop F a v off n = some r) :
    FwdLoop (F + t) a v off n = some r := by
  induction t with
  | zero => exact h
  | succ t ih => exact FwdLoop_mono _ _ _ _ _ _ ih

theorem FwdLoop_mono_le {F G : Nat} (hle : F ≤ G) (a : mpk_msg_t) (v : mpk_value_t)
    (off n : Nat) (r : Option mpk_value_t) (h : FwdLoop F a v off n = some r) :
    FwdLoop G a v off n = some r := by
  obtain ⟨t, rfl⟩ := Nat.exists_eq_add_of_le hle
  exact FwdLoop_mono_add t F a v off n r h

theorem FwdAt_mono_le {F G : Nat} (hle : F ≤ G) (a : mpk_msg_t) (off n : Nat)
    (r : Option mpk_value_t) (h : FwdAt F a off n = some r) :
    FwdAt G a off n = some r := by
  unfold FwdAt at h ⊢
  split at h
  · rename_i hE; try simp only [hE]
    exact h
  · rename_i w hE; try simp only [hE]
    exact FwdLoop_mono_le hle _ _ _ _ _ h

/-! ## Entering and leaving the skip loop -/

theorem fwdNElems_eq_fwdAt (F : Nat) (a : mpk_msg_t) (p n : Nat) (v : mpk_value_t)
    (hv : MPK_ElemAt a p = some v) : MPK_FwdNElems F a v n = FwdAt F a p n := by
  obtain ⟨-, hlt, -⟩ := elemAt_inv a p v hv
  simp [MPK_FwdNElems, FwdAt, hv, Nat.not_le.mpr hlt]

theorem fwdAt_zero (F : Nat) (a : mpk_msg_t) (e : Nat) (w : mpk_value_t)
    (hw : MPK_ElemAt a e = some w) : FwdAt (F + 1) a e 0 = some (some w) := by
  obtain ⟨-, hlt, -⟩ := elemAt_inv a e w hw
  simp [FwdAt, hw, FwdLoop, Nat.not_le.mpr hlt]

theorem fwdAt_fail (F : Nat) (a : mpk_msg_t) (e n : Nat)
    (hw : MPK_ElemAt a e = none) : FwdAt F a e n = some none := by
  simp [FwdAt, hw]

theorem elemAt_none_of_size (a : mpk_msg_t) (hs : a.size < 256) :
    MPK_ElemAt a a.size = none := by
  simp [MPK_ElemAt, Nat.mod_eq_of_lt hs, INDEX]

theorem sub_mod (x y : Nat) (hxy : y ≤ x) (hx : x < SIZE_MOD) :
    (x + SIZE_MOD - y % SIZE_MOD) % SIZE_MOD = x - y := by
  have hy : y % SIZE_MOD = y := Nat.mod_eq_of_lt (by omega)
  rw [hy, show x + SIZE_MOD - y = (x - y) + SIZE_MOD by omega, Nat.add_mod_right,
    Nat.mod_eq_of_lt (by omega)]

theorem elemAt_hdr_lt (a : mpk_msg_t) (h : Nat) (x : mpk_payload)
    (hv : MPK_ElemAt a h = some { value := x, rawhdr := h }) : h < 256 := by
  obtain ⟨hr, -, -⟩ := elemAt_inv a h _ hv
  simp only at hr
  omega

/-- What `MPK_ColSize` returns in terms of the skip started at the first
child, once the first child decodes and the raw count did not wrap. -/
theorem colSize_eq (F : Nat) (a : mpk_msg_t) (h : Nat) (c : mpk_collection_t)
    (v0 : mpk_value_t) (hr : rawCount c < U32_MOD) (h0 : MPK_ElemAt a c.off = some v0) :
    MPK_ColSize F a { value := .col c, rawhdr := h } =
      match FwdAt F a c.off (rawCount c) with
      | none => none
      | some none => some ((a.size + SIZE_MOD - h % SIZE_MOD) % SIZE_MOD)
      | some (some w) => some ((w.rawhdr + SIZE_MOD - h % SIZE_MOD) % SIZE_MOD) := by
  have hcount : (if c.type = MPK_MAP then c.elems * 2 % U32_MOD else c.elems) = rawCount c := by
    unfold rawCount at hr ⊢
    by_cases hm : c.type = MPK_MAP
    · rw [if_pos hm] at hr ⊢; rw [if_pos hm]; exact Nat.mod_eq_of_lt hr
    · rw [if_neg hm, if_neg hm]; omega
  simp only [MPK_ColSize, h0, hcount, fwdNElems_eq_fwdAt F a c.off _ v0 h0]

/-! ## The scan of `MPK_FindInMap` -/

theorem keyEq_payloadEq (k v : mpk_value_t) (h : keyEq k v = true) :
    payloadEq k.value v.value := by
  unfold keyEq at h
  unfold payloadEq
  split at h <;> simp_all
  rw [← h.1.1]; exact h.2

theorem fwdNElems_mono_le {F G : Nat} (hle : F ≤ G) (a : mpk_msg_t) (v : mpk_value_t)
    (n : Nat) (r : Option mpk_value_t) (h : MPK_FwdNElems F a v n = some r) :
    MPK_FwdNElems G a v n = some r := by
  unfold MPK_FwdNElems at h ⊢
  split
  · rename_i hc; rw [if_pos hc] at h; exact h
  · rename_i hc; rw [if_neg hc] at h; exact FwdLoop_mono_le hle _ _ _ _ _ h

theorem FindLoop_mono_le {F G : Nat} (hle : F ≤ G) (a : mpk_msg_t) (k : mpk_value_t) :
    ∀ (left : Nat) (v : mpk_value_t) (r : Option mpk_value_t),
      FindLoop F a k left v = some r → FindLoop G a k left v = some r := by
  intro left
  induction left with
  | zero => intro v r h; simpa [FindLoop] using h
  | succ left ih =>
    intro v r h
    rw [FindLoop] at h ⊢
    by_cases hty : k.type = v.type
    · rw [if_pos hty] at h ⊢
      by_cases heq : keyEq k v = true
      · rw [if_pos heq] at h ⊢
        exact fwdNElems_mono_le hle _ _ _ _ h
      · rw [if_neg heq] at h ⊢
        cases hf : MPK_FwdNElems F a v 2 with
        | none => rw [hf] at h; simp at h
        | some r2 =>
          rw [hf] at h
          rw [fwdNElems_mono_le hle _ _ _ _ hf]
          cases r2 with
          | none => exact h
          | some v1 => exact ih _ _ h
    · rw [if_neg hty] at h ⊢
      exact ih _ _ h

/-! ## Skipping in two stages -/

theorem fwdNext_none (hdr : Nat) (start : mpk_value_t) (off n n2 : Nat)
    (h : fwdNext hdr start off n = none) : fwdNext hdr start off n2 = none := by
  unfold fwdNext at h ⊢
  split_ifs at h ⊢
  split at h
  · simp at h
  · simp at h
  · rfl

theorem fwdNext_shift (hdr : Nat) (start : mpk_value_t) (off n b o n1 : Nat)
    (h : fwdNext hdr start off n = some (o, n1)) (hb : n + b + U32_MOD ≤ SIZE_MOD) :
    n ≤ n1 ∧ n1 < n + U32_MOD ∧ fwdNext hdr start off (n + b) = some (o, n1 + b) := by
  have hpos : 0 < U32_MOD := by simp [U32_MOD]
  unfold fwdNext at h ⊢
  split_ifs at h ⊢
  · simp only [Option.some.injEq, Prod.mk.injEq] at h
    obtain ⟨rfl, rfl⟩ := h
    exact ⟨le_refl _, by omega, rfl⟩
  · split at h
    · simp only [Option.some.injEq, Prod.mk.injEq] at h
      obtain ⟨rfl, rfl⟩ := h
      exact ⟨le_refl _, by omega, rfl⟩
    · rename_i c hc
      simp only [Option.some.injEq, Prod.mk.injEq] at h
      obtain ⟨rfl, rfl⟩ := h
      have he : (c.elems * if c.type = MPK_MAP then 2 else 1) % U32_MOD < U32_MOD :=
        Nat.mod_lt _ hpos
      generalize (c.elems * if c.type = MPK_MAP then 2 else 1) % U32_MOD = e at he ⊢
      have e1 : (n + e) % SIZE_MOD = n + e := Nat.mod_eq_of_lt (by omega)
      have e2 : (n + b + e) % SIZE_MOD = n + b + e := Nat.mod_eq_of_lt (by omega)
      rw [e1, e2]
      exact ⟨by omega, by omega, by rw [show n + b + e = n + e + b by omega]⟩
    · simp at h

theorem FwdLoop_zero (F : Nat) (a : mpk_msg_t) (c : mpk_value_t) (h : c.rawhdr < a.size) :
    FwdLoop (F + 1) a c c.rawhdr 0 = some (some c) := by
  simp [FwdLoop, Nat.not_le.mpr h]

theorem dec_mod_add (n b : Nat) (hn : 1 ≤ n) (h : n + b < SIZE_MOD) :
    (n + b + SIZE_MOD - 1) % SIZE_MOD = (n + SIZE_MOD - 1) % SIZE_MOD + b := by
  obtain ⟨k, rfl⟩ := Nat.exists_eq_add_of_le hn
  rw [show 1 + k + b + SIZE_MOD - 1 = (k + b) + 1 + SIZE_MOD - 1 by omega, dec_mod _ (by omega),
    show 1 + k + SIZE_MOD - 1 = k + 1 + SIZE_MOD - 1 by omega, dec_mod _ (by omega)]

/-- A successful skip by `a + b` passes through the end of the skip by `a`. -/
theorem fwdLoop_split (m : mpk_msg_t) (b : Nat) (v : mpk_value_t) :
    ∀ (F : Nat) (c : mpk_value_t) (a : Nat), c.rawhdr < m.size →
      a + b + F * U32_MOD < SIZE_MOD →
      FwdLoop F m c c.rawhdr (a + b) = some (some v) →
      ∃ v1, FwdLoop F m c c.rawhdr a = some (some v1) ∧ v1.rawhdr < m.size ∧
        FwdLoop F m v1 v1.rawhdr b = some (some v) := by
  intro F
  induction F with
  | zero => intro c a _ _ h; simp [FwdLoop] at h
  | succ F ih =>
    intro c a hc hbound h
    by_cases ha : a = 0
    · subst ha
      exact ⟨c, FwdLoop_zero F m c hc, hc, by simpa using h⟩
    have hidx : ∃ p, INDEX m.msg c.rawhdr m.size = some p := by
      obtain ⟨p, hp⟩ := get?_of_lt_size m c.rawhdr hc
      exact ⟨p, by simp [INDEX, hc, hp]⟩
    obtain ⟨p, hp⟩ := hidx
    have hab : a + b ≠ 0 := by omega
    rw [FwdLoop, if_pos ⟨hab, hc⟩] at h
    simp only [hp] at h
    rw [FwdLoop, if_pos ⟨ha, hc⟩]
    simp only [hp]
    cases hnext : fwdNext p.val c c.rawhdr a with
    | none =>
      rw [fwdNext_none _ _ _ _ (a + b) hnext] at h
      simp only [Option.some.injEq] at h
      subst h
      refine ⟨c, rfl, hc, ?_⟩
      by_cases hb : b = 0
      · subst hb; exact FwdLoop_zero F m c hc
      · rw [FwdLoop, if_pos ⟨hb, hc⟩]
        simp only [hp]
        rw [fwdNext_none _ _ _ _ b hnext]
    | some q =>
      obtain ⟨o, n1⟩ := q
      obtain ⟨hle, hlt, hshift⟩ := fwdNext_shift _ _ _ _ b _ _ hnext
        (by simp only [Nat.add_mul, Nat.one_mul] at hbound; omega)
      rw [hshift] at h
      simp only at h ⊢
      cases hE : MPK_ElemAt m o with
      | none => rw [hE] at h; simp at h
      | some w =>
        rw [hE] at h
        simp only at h ⊢
        obtain ⟨-, hw, -⟩ := elemAt_inv m o w hE
        have hdec := dec_mod_add n1 b (by omega)
          (by simp only [Nat.add_mul, Nat.one_mul] at hbound; omega)
        rw [hdec] at h
        have hn1 : (n1 + SIZE_MOD - 1) % SIZE_MOD < n1 := by
          obtain ⟨k, rfl⟩ := Nat.exists_eq_add_of_le (show 1 ≤ n1 by omega)
          rw [show 1 + k + SIZE_MOD - 1 = k + 1 + SIZE_MOD - 1 by omega, dec_mod k (by
            simp only [Nat.add_mul, Nat.one_mul] at hbound; omega)]
          omega
        obtain ⟨v1, h1, h2, h3⟩ := ih w _ hw
          (by simp only [Nat.add_mul, Nat.one_mul] at hbound; omega) h
        exact ⟨v1, h1, h2, FwdLoop_mono _ _ _ _ _ _ h3⟩

/-- A successful skip by `a` followed by a successful skip by `b` is a
successful skip by `a + b`. -/
theorem fwdLoop_join (m : mpk_msg_t) (b F2 : Nat) (v1 v : mpk_value_t)
    (hb : FwdLoop F2 m v1 v1.rawhdr b = some (some v)) :
    ∀ (F1 : Nat) (c : mpk_value_t) (a : Nat), c.rawhdr < m.size →
      a + b + F1 * U32_MOD < SIZE_MOD →
      FwdLoop F1 m c c.rawhdr a = some (some v1) →
      FwdLoop (F1 + F2) m c c.rawhdr (a + b) = some (some v) := by
  intro F1
  induction F1 with
  | zero => intro c a _ _ h; simp [FwdLoop] at h
  | succ F1 ih =>
    intro c a hc hbound h
    by_cases ha : a = 0
    · subst ha
      rw [FwdLoop_zero F1 m c hc] at h
      simp only [Option.some.injEq] at h
      subst h
      rw [Nat.zero_add]
      exact FwdLoop_mono_le (by omega) _ _ _ _ _ hb
    have hidx : ∃ p, INDEX m.msg c.rawhdr m.size = some p := by
      obtain ⟨p, hp⟩ := get?_of_lt_size m c.rawhdr hc
      exact ⟨p, by simp [INDEX, hc, hp]⟩
    obtain ⟨p, hp⟩ := hidx
    have hab : a + b ≠ 0 := by omega
    rw [FwdLoop, if_pos ⟨ha, hc⟩] at h
    simp only [hp] at h
    rw [show F1 + 1 + F2 = (F1 + F2) + 1 by omega, FwdLoop, if_pos ⟨hab, hc⟩]
    simp only [hp]
    cases hnext : fwdNext p.val c c.rawhdr a with
    | none =>
      rw [hnext] at h
      simp only [Option.some.injEq] at h
      subst h
      rw [fwdNext_none _ _ _ _ (a + b) hnext]
      simp only
      cases F2 with
      | zero => simp [FwdLoop] at hb
      | succ F2 =>
        by_cases hb0 : b = 0
        · subst hb0
          rw [FwdLoop_zero F2 m c hc] at hb
          exact hb
        · rw [FwdLoop, if_pos ⟨hb0, hc⟩] at hb
          simp only [hp] at hb
          rw [fwdNext_none _ _ _ _ b hnext] at hb
          exact hb
    | some q =>
      obtain ⟨o, n1⟩ := q
      obtain ⟨hle, hlt, hshift⟩ := fwdNext_shift _ _ _ _ b _ _ hnext
        (by simp only [Nat.add_mul, Nat.one_mul] at hbound; omega)
      rw [hnext] at h
      rw [hshift]
      simp only at h ⊢
      cases hE : MPK_ElemAt m o with
      | none => rw [hE] at h; simp at h
      | some w =>
        rw [hE] at h
        simp only at h ⊢
        obtain ⟨-, hw, -⟩ := elemAt_inv m o w hE
        have hdec := dec_mod_add n1 b (by omega)
          (by simp only [Nat.add_mul, Nat.one_mul] at hbound; omega)
        rw [hdec]
        have hn1 : (n1 + SIZE_MOD - 1) % SIZE_MOD < n1 := by
          obtain ⟨k, rfl⟩ := Nat.exists_eq_add_of_le (show 1 ≤ n1 by omega)
          rw [show 1 + k + SIZE_MOD - 1 = k + 1 + SIZE_MOD - 1 by omega, dec_mod k (by
            simp only [Nat.add_mul, Nat.one_mul] at hbound; omega)]
          omega
        exact ih w _ hw (by simp only [Nat.add_mul, Nat.one_mul] at hbound; omega) h

/-! ## C1 to C4 -/

theorem elemAt_scalar_witness :
    MPK_ElemAt msgU8 0 = some { value := .u8 255, rawhdr := 0 } :=
  elemAt_scalar msgU8 0 0xcc 1 (by decide) (by decide) (by decide) (by decide)

set_option maxRecDepth 100000 in
/-- C2 fails on the code: `MPK_ElemAt` takes its offset as a `uint8_t`. On a
257-byte message the offset 256 is inside the buffer and holds the fixint 7,
yet `MPK_ElemAt` at 256 succeeds with header offset 0 and the value decoded
from byte 0, the fixint 5. -/
theorem elemAt_offset_truncated :
    256 < msgLong.size ∧ msgLong.msg[256]? = some 7 ∧
    MPK_ElemAt msgLong 256 = some { value := .u8 5, rawhdr := 0 } := by
  decide

set_option maxRecDepth 100000 in
/-- C3 fails on the code, by the `uint8_t` offset of `MPK_ElemAt`: in
`msgWrap` the array decoded at offset 2 has three decodable children at
offsets 3, 256 and 257, `MPK_IndexArr` with index 2 succeeds and yields the
array itself, while child 2 is the fixint 8 at offset 257 and `MPK_ElemAt` at
257 yields the fixint 9 of offset 1. -/
theorem indexArr_wraps :
    MPK_ElemAt msgWrap 2 = some { value := .col ⟨3, 3, MPK_ARR⟩, rawhdr := 2 } ∧
    MPK_ElemAt msgWrap 3
      = some { value := .blob ⟨5, 251, List.replicate 251 0, 0, 0⟩, rawhdr := 3 } ∧
    msgWrap.msg[256]? = some 7 ∧ msgWrap.msg[257]? = some 8 ∧
    MPK_IndexArr 10 msgWrap ⟨3, 3, MPK_ARR⟩ 2
      = some (some { value := .col ⟨3, 3, MPK_ARR⟩, rawhdr := 2 }) ∧
    MPK_ElemAt msgWrap 257 = some { value := .u8 9, rawhdr := 1 } := by
  decide

/-- C4 fails on the code: in the map `{1: 2, "x": 3}` the second pair has the
key `"x"`, equal to the lookup key, and the value 3 at offset 5, yet
`MPK_FindInMap` fails whatever the fuel: the skip over a pair sits inside the
branch for keys of the same type, so after the first key of another type the
cursor never moves. -/
theorem findInMap_stuck_on_other_type :
    MPK_ElemAt msgMixedMap 0 = some { value := .col ⟨1, 2, MPK_MAP⟩, rawhdr := 0 } ∧
    MPK_ElemAt msgMixedMap 3
      = some { value := .blob ⟨4, 1, [0x78], 0, 0⟩, rawhdr := 3 } ∧
    payloadEq keyX.value (.blob ⟨4, 1, [0x78], 0, 0⟩) ∧
    MPK_ElemAt msgMixedMap 5 = some { value := .u8 3, rawhdr := 5 } ∧
    ∀ fuel, MPK_FindInMap fuel msgMixedMap ⟨1, 2, MPK_MAP⟩ keyX = some none := by
  refine ⟨by decide, by decide, ?_, by decide, fun fuel => rfl⟩
  simp [payloadEq, keyX]

/-! ## C7 and C9 -/

/-- C7 fails on the code: the empty string `a0` that is the last byte of its
buffer decodes to a blob whose data offset is 1, the size of the buffer. -/
theorem elemAt_empty_blob_at_end :
    MPK_ElemAt msgEmptyStr 0
      = some { value := .blob ⟨1, 0, [], 0, 0⟩, rawhdr := 0 } ∧
    msgEmptyStr.size = 1 := by
  decide

/-- C7 as amended: where `MPK_ElemAt` succeeds, the header offset of the
Value and the first-child offset of a collection are strictly less than
`size`; for a blob the data offset plus the length is at most `size`, so the
data offset is at most `size`, and strictly less when the blob is not
empty. -/
theorem elemAt_offsets (a : mpk_msg_t) (off : Nat) (v : mpk_value_t)
    (h : MPK_ElemAt a off = some v) :
    v.rawhdr < a.size ∧
    (∀ c, v.value = .col c → c.off < a.size) ∧
    (∀ b, v.value = .blob b →
      b.off + b.size ≤ a.size ∧ b.off ≤ a.size ∧ (0 < b.size → b.off < a.size)) := by
  obtain ⟨-, hlt, p, -, hb, hc, -⟩ := elemAt_inv a off v h
  have h256 : off % 256 < 256 := Nat.mod_lt _ (by norm_num)
  refine ⟨hlt, ?_, ?_⟩
  · intro c hcv
    obtain ⟨-, -, hce, hc0⟩ := hc c hcv
    have := col_off a (off % 256) h256 (by rw [← hce]; exact hc0)
    rw [← hce] at this
    exact this.2.2.1
  · intro b hbv
    obtain ⟨-, hbe, hb0⟩ := hb b hbv
    have := blob_off a (off % 256) h256 (by rw [← hbe]; exact hb0)
    rw [← hbe] at this
    exact ⟨this.2.2, by omega, fun _ => by omega⟩

theorem elemAt_offsets_witness :
    (0 : Nat) < msgEmptyStr.size ∧
    (∀ c, mpk_payload.blob ⟨1, 0, [], 0, 0⟩ = .col c → c.off < msgEmptyStr.size) ∧
    (∀ b, mpk_payload.blob ⟨1, 0, [], 0, 0⟩ = .blob b →
      b.off + b.size ≤ msgEmptyStr.size ∧ b.off ≤ msgEmptyStr.size ∧
      (0 < b.size → b.off < msgEmptyStr.size)) :=
  elemAt_offsets msgEmptyStr 0 { value := .blob ⟨1, 0, [], 0, 0⟩, rawhdr := 0 } (by decide)

/-- C9: `MPK_IndexArr` fails when the collection is not an array or when
`idx >= elems`. It does so for every message and with no fuel at all, that
is, without decoding any element. -/
theorem indexArr_guard (F : Nat) (a : mpk_msg_t) (arr : mpk_collection_t) (idx : Nat)
    (h : arr.type ≠ MPK_ARR ∨ arr.elems ≤ idx) :
    MPK_IndexArr F a arr idx = some none := by
  unfold MPK_IndexArr
  rcases h with h | h
  · rw [if_pos h]
  · by_cases ht : arr.type ≠ MPK_ARR
    · rw [if_pos ht]
    · rw [if_neg ht, if_pos h]

theorem indexArr_guard_witness :
    MPK_IndexArr 0 msgArrLast ⟨1, 2, MPK_ARR⟩ 2 = some none ∧
    MPK_IndexArr 0 msgArrLast ⟨1, 2, MPK_MAP⟩ 0 = some none :=
  ⟨indexArr_guard 0 msgArrLast ⟨1, 2, MPK_ARR⟩ 2 (Or.inr (by decide)),
    indexArr_guard 0 msgArrLast ⟨1, 2, MPK_MAP⟩ 0 (Or.inl (by decide))⟩

/-! ## C10 -/

/-- C10 fails on the code: the work counter is a `size_t` to which the raw
count of every collection met is added, and it wraps. On `93 01 02 03` with
the cursor on the array, `a = 1` and `b = 2^64 - 3` (the sum does not
overflow), the skip by `a + b` succeeds and stops on the first child, because
`2^64 - 2 + 3` wraps to 1, while the skip by `a` fails at the end of the
buffer. -/
theorem fwd_counter_wraps :
    MPK_ElemAt msgArr3 0 = some { value := .col ⟨1, 3, MPK_ARR⟩, rawhdr := 0 } ∧
    1 + (2 ^ 64 - 3) < SIZE_MOD ∧
    MPK_FwdNElems 10 msgArr3 { value := .col ⟨1, 3, MPK_ARR⟩, rawhdr := 0 } (1 + (2 ^ 64 - 3))
      = some (some { value := .u8 1, rawhdr := 1 }) ∧
    MPK_FwdNElems 10 msgArr3 { value := .col ⟨1, 3, MPK_ARR⟩, rawhdr := 0 } 1 = some none := by
  decide

/-- C10 as amended: as long as the work counter cannot wrap, which holds for
runs of at most `F` iterations with `a + b + F * 2^32 < 2^64`, a skip by
`a + b` that succeeds within `F` iterations passes through a successful skip
by `a` and ends as the following skip by `b` does; and a skip by `a` that
succeeds within `F1` iterations followed by a successful skip by `b` gives a
successful skip by `a + b` with the same final Value. -/
theorem fwd_compose (m : mpk_msg_t) (c : mpk_value_t) (a b : Nat) :
    (∀ F v, a + b + F * U32_MOD < SIZE_MOD →
      MPK_FwdNElems F m c (a + b) = some (some v) →
      ∃ v1, MPK_FwdNElems F m c a = some (some v1) ∧
        MPK_FwdNElems F m v1 b = some (some v)) ∧
    (∀ F1 F2 v1 v, a + b + F1 * U32_MOD < SIZE_MOD →
      MPK_FwdNElems F1 m c a = some (some v1) →
      MPK_FwdNElems F2 m v1 b = some (some v) →
      MPK_FwdNElems (F1 + F2) m c (a + b) = some (some v)) := by
  constructor
  · intro F v hbound h
    unfold MPK_FwdNElems at h
    by_cases hc : c.rawhdr ≥ m.size
    · rw [if_pos hc] at h; simp at h
    rw [if_neg hc] at h
    obtain ⟨v1, h1, h2, h3⟩ := fwdLoop_split m b v F c a (by omega) hbound h
    refine ⟨v1, ?_, ?_⟩
    · rw [MPK_FwdNElems, if_neg hc]; exact h1
    · rw [MPK_FwdNElems, if_neg (by omega)]; exact h3
  · intro F1 F2 v1 v hbound h1 h2
    unfold MPK_FwdNElems at h1 h2 ⊢
    by_cases hc : c.rawhdr ≥ m.size
    · rw [if_pos hc] at h1; simp at h1
    rw [if_neg hc] at h1 ⊢
    by_cases hc1 : v1.rawhdr ≥ m.size
    · rw [if_pos hc1] at h2; simp at h2
    rw [if_neg hc1] at h2
    exact fwdLoop_join m b F2 v1 v h2 F1 c a (by omega) hbound h1

theorem fwd_compose_witness :
    (∃ v1, MPK_FwdNElems 5 msgArrThen { value := .u8 1, rawhdr := 1 } 1 = some (some v1) ∧
      MPK_FwdNElems 5 msgArrThen v1 1 = some (some { value := .u8 3, rawhdr := 3 })) ∧
    MPK_FwdNElems (5 + 5) msgArrThen { value := .u8 1, rawhdr := 1 } (1 + 1)
      = some (some { value := .u8 3, rawhdr := 3 }) :=
  ⟨(fwd_compose msgArrThen { value := .u8 1, rawhdr := 1 } 1 1).1 5 _ (by decide) (by decide),
    (fwd_compose msgArrThen { value := .u8 1, rawhdr := 1 } 1 1).2 5 5
      { value := .u8 2, rawhdr := 2 } _ (by decide) (by decide) (by decide)⟩

/-! ## C13 to C15 and C20 -/

theorem elemAt_idem (a : mpk_msg_t) (off : Nat) (v : mpk_value_t)
    (h : MPK_ElemAt a off = some v) : MPK_ElemAt a v.rawhdr = some v := by
  obtain ⟨hr, -, -⟩ := elemAt_inv a off v h
  have e : MPK_ElemAt a (off % 256) = MPK_ElemAt a off := by
    simp only [MPK_ElemAt, Nat.mod_mod]
  rw [hr, e, h]

/-- The loop of `MPK_FwdNElems` keeps the cursor equal to what `MPK_ElemAt`
produces at the cursor's header offset. -/
theorem fwdLoop_faithful (a : mpk_msg_t) :
    ∀ (F : Nat) (c : mpk_value_t) (n : Nat) (v : mpk_value_t),
      MPK_ElemAt a c.rawhdr = some c →
      FwdLoop F a c c.rawhdr n = some (some v) → MPK_ElemAt a v.rawhdr = some v := by
  intro F
  induction F with
  | zero => intro c n v _ h; simp [FwdLoop] at h
  | succ F ih =>
    intro c n v hc h
    rw [FwdLoop] at h
    split_ifs at h with c1 c2
    · split at h
      · exact ih _ _ _ hc h
      · split at h
        · simp only [Option.some.injEq] at h; subst h; exact hc
        · split at h
          · simp at h
          · rename_i w hE
            exact ih _ _ _ (elemAt_idem a _ w hE) h
    · simp at h
    · simp only [Option.some.injEq] at h; subst h; exact hc

/-- C20: a cursor that equals what `MPK_ElemAt` produces at its own header
offset is left, by every successful `MPK_FwdNElems`, equal to what
`MPK_ElemAt` produces at the new header offset, which is strictly less than
`size`; and the output of every successful `MPK_IndexArr` and
`MPK_FindInMap` has the same two properties. -/
theorem cursor_faithful (a : mpk_msg_t) (F : Nat) :
    (∀ c n v, MPK_ElemAt a c.rawhdr = some c → MPK_FwdNElems F a c n = some (some v) →
      MPK_ElemAt a v.rawhdr = some v ∧ v.rawhdr < a.size) ∧
    (∀ arr idx v, MPK_IndexArr F a arr idx = some (some v) →
      MPK_ElemAt a v.rawhdr = some v ∧ v.rawhdr < a.size) ∧
    (∀ map k v, MPK_FindInMap F a map k = some (some v) →
      MPK_ElemAt a v.rawhdr = some v ∧ v.rawhdr < a.size) := by
  have hlt : ∀ v, MPK_ElemAt a v.rawhdr = some v → v.rawhdr < a.size :=
    fun v hv => (elemAt_inv a _ v hv).2.1
  have hfwd : ∀ c n v, MPK_ElemAt a c.rawhdr = some c →
      MPK_FwdNElems F a c n = some (some v) → MPK_ElemAt a v.rawhdr = some v := by
    intro c n v hc h
    unfold MPK_FwdNElems at h
    split_ifs at h <;> try (exact absurd h (by simp))
    exact fwdLoop_faithful a F c n v hc h
  refine ⟨fun c n v hc h => ⟨hfwd c n v hc h, hlt v (hfwd c n v hc h)⟩, ?_, ?_⟩
  · intro arr idx v h
    unfold MPK_IndexArr at h
    split_ifs at h <;> try (exact absurd h (by simp))
    split at h
    · simp at h
    · rename_i out hE
      have := hfwd out idx v (elemAt_idem a _ out hE) h
      exact ⟨this, hlt v this⟩
  · intro map k v h
    unfold MPK_FindInMap at h
    split_ifs at h <;> try (exact absurd h (by simp))
    split at h
    · simp at h
    · rename_i v0 hE
      have hloop : ∀ (left : Nat) (c : mpk_value_t), MPK_ElemAt a c.rawhdr = some c →
          FindLoop F a k left c = some (some v) → MPK_ElemAt a v.rawhdr = some v := by
        intro left
        induction left with
        | zero => intro c _ h; simp [FindLoop] at h
        | succ left ih =>
          intro c hc h
          rw [FindLoop] at h
          split_ifs at h
          · exact hfwd c 1 v hc h
          · split at h
            · simp at h
            · simp at h
            · rename_i v1 hf
              exact ih v1 (hfwd c 2 v1 hc hf) h
          · exact ih c hc h
      have := hloop _ v0 (elemAt_idem a _ v0 hE) h
      exact ⟨this, hlt v this⟩

theorem cursor_faithful_witness :
    MPK_ElemAt msgArrThen 3 = some { value := .u8 3, rawhdr := 3 } ∧ 3 < msgArrThen.size :=
  (cursor_faithful msgArrThen 5).1 { value := .u8 1, rawhdr := 1 } 2
    { value := .u8 3, rawhdr := 3 } (by decide) (by decide)

set_option maxRecDepth 100000 in
/-- C15: for every header byte other than 0xc1 exactly one of the five
family predicates is-blob, is-collection, is-boolean, is-nil, is-numeric
holds; among blobs exactly one of string, binary, extension; among
collections exactly one of array, map; for 0xc1 none of the five holds, and
`MPK_ElemAt` fails where the header byte is 0xc1. -/
theorem classes_partition :
    (∀ t : Byte, t.val ≠ 0xc1 →
      b2n (MPK_ISBLOB t.val) + b2n (MPK_ISCOL t.val) + b2n (MPK_ISBOOL t.val)
        + b2n (MPK_ISNIL t.val) + b2n (MPK_ISNUM t.val) = 1) ∧
    (∀ t : Byte, MPK_ISBLOB t.val = true →
      b2n (MPK_ISSTR t.val) + b2n (MPK_ISBIN t.val) + b2n (MPK_ISEXT t.val) = 1) ∧
    (∀ t : Byte, MPK_ISCOL t.val = true →
      b2n (MPK_ISARR t.val) + b2n (MPK_ISMAP t.val) = 1) ∧
    (MPK_ISBLOB 0xc1 = false ∧ MPK_ISCOL 0xc1 = false ∧ MPK_ISBOOL 0xc1 = false ∧
      MPK_ISNIL 0xc1 = false ∧ MPK_ISNUM 0xc1 = false) ∧
    (∀ (a : mpk_msg_t) (off : Nat), off < 256 → a.msg[off]? = some 0xc1 →
      MPK_ElemAt a off = none) := by
  refine ⟨by decide, by decide, by decide, by decide, ?_⟩
  intro a off hoff h
  unfold MPK_ElemAt
  simp only [Nat.mod_eq_of_lt hoff]
  cases hI : INDEX a.msg off a.size with
  | none => rfl
  | some p =>
    have hp : p = 0xc1 := by
      unfold INDEX at hI
      split_ifs at hI
      rw [h] at hI
      exact (Option.some.inj hI).symm
    subst hp
    rfl

theorem classes_partition_witness :
    b2n (MPK_ISBLOB 0xa3) + b2n (MPK_ISCOL 0xa3) + b2n (MPK_ISBOOL 0xa3)
        + b2n (MPK_ISNIL 0xa3) + b2n (MPK_ISNUM 0xa3) = 1 ∧
    b2n (MPK_ISSTR 0xa3) + b2n (MPK_ISBIN 0xa3) + b2n (MPK_ISEXT 0xa3) = 1 ∧
    b2n (MPK_ISARR 0x92) + b2n (MPK_ISMAP 0x92) = 1 ∧
    MPK_ElemAt msgC1 0 = none :=
  ⟨classes_partition.1 0xa3 (by decide), classes_partition.2.1 0xa3 (by decide),
    classes_partition.2.2.1 0x92 (by decide),
    classes_partition.2.2.2.2 msgC1 0 (by decide) (by decide)⟩

/-- The float32 half of C13 holds: a header 0xca with its four payload bytes
inside the buffer decodes to the float whose bit pattern is the big-endian
number of the payload. -/
theorem elemAt_f32_bits (a : mpk_msg_t) (off : Nat) (p : Byte) (hoff : off < 256)
    (hp : a.msg[off]? = some p) (hv : p.val = 0xca) (hfit : off + 1 + 4 ≤ a.size) :
    MPK_ElemAt a off
      = some { value := .f32 (beValue ((a.msg.drop (off + 1)).take 4)), rawhdr := off } := by
  obtain ⟨c1, c2, c3, c4, c5, c6, c7⟩ := class_explicit p (by omega) (by omega)
  have hmod : off % 256 = off := Nat.mod_eq_of_lt hoff
  have hidx : INDEX a.msg off a.size = some p := by simp [INDEX, show off < a.size by omega, hp]
  have hn := MPKNUM_ok 4 a off 0 (by omega) hfit (by simp [SIZE_MOD]; omega)
  have hu := asUnsigned_beValue 4 _ (payload_length a off 4 hfit)
  simp only [hv] at c1 c2 c3 c4 c5 c6 c7
  simp [MPK_ElemAt, hmod, hidx, c1, c2, c3, c4, c5, numericAt, c6, c7, hv, MPK_U8, MPK_U16,
    MPK_U32, MPK_U64, MPK_I8, MPK_I16, MPK_I32, MPK_I64, MPK_F32, MPK_NumF32, hn]
  simpa using hu

/-- C13 fails on the code for float64: `cb 3f f0 00 00 00 00 00 00` encodes
the double 1.0, whose bit pattern is the big-endian number 0x3ff0000000000000
of the payload, yet `MPK_ElemAt` yields the double with bit pattern 0 (the
value 0.0): `MPK_NumF64` is generated with the C type `float`, so it returns
the float made of the low four bytes and that float is then converted. -/
theorem elemAt_f64_low_half :
    MPK_ElemAt msgOne 0 = some { value := .f64 0, rawhdr := 0 } ∧
    beValue ((msgOne.msg.drop 1).take 8) = 0x3ff0000000000000 := by
  decide

set_option maxRecDepth 100000 in
theorem cyc_step1 (F : Nat) : FwdLoop (F + 1) msgCycle cycArr 0 1 = FwdLoop F msgCycle cycStr 1 2 := by
  rfl

set_option maxRecDepth 100000 in
theorem cyc_step2 (F : Nat) : FwdLoop (F + 1) msgCycle cycStr 1 2 = FwdLoop F msgCycle cycArr 0 1 := by
  rfl

theorem cyc_forever : ∀ F, FwdLoop F msgCycle cycArr 0 1 = none ∧
    FwdLoop F msgCycle cycStr 1 2 = none := by
  intro F
  induction F with
  | zero => exact ⟨rfl, rfl⟩
  | succ F ih => exact ⟨by rw [cyc_step1]; exact ih.2, by rw [cyc_step2]; exact ih.1⟩

set_option maxRecDepth 100000 in
/-- C14 fails on the code, by the `uint8_t` offset of `MPK_ElemAt`: in the
256-byte message `msgCycle` the string at offset 1 ends at offset 256, which
`MPK_ElemAt` takes for offset 0, so the cursor goes back to the array and the
count never reaches 0. `MPK_FwdNElems` from the array decoded at offset 0
with `n = 1` runs out of every fuel, and so does `MPK_ColSize` of that
array. -/
theorem fwd_cycles_forever :
    msgCycle.size = 256 ∧ MPK_ElemAt msgCycle 0 = some cycArr ∧
    (∀ F, MPK_FwdNElems F msgCycle cycArr 1 = none) ∧
    (∀ F, MPK_ColSize F msgCycle cycArr = none) := by
  refine ⟨by decide, by decide, fun F => ?_, fun F => ?_⟩
  · exact (cyc_forever F).1
  · have h : MPK_ColSize F msgCycle cycArr
        = (match FwdLoop F msgCycle cycStr 1 2 with
          | none => none
          | some none => some 256
          | some (some endel1) => some ((endel1.rawhdr + SIZE_MOD - 0) % SIZE_MOD)) := rfl
    rw [h, (cyc_forever F).2]

/-! ## C12 and C16 to C19 -/

set_option maxRecDepth 100000 in
theorem blob_hdr_kind : ∀ p : Byte, blobType0 p.val = blobKindRef p.val := by
  decide

set_option maxRecDepth 100000 in
theorem blob_hdr_fixstr : ∀ p : Byte, MPK_ISSF p.val = true →
    blobType0 p.val = some MPK_STR ∧ blobLenWidthRef p.val = 0 ∧
      (0xa0 ≤ p.val ∧ p.val ≤ 0xbf) ∧ p.val &&& 0x1f = p.val % 32 := by
  decide

set_option maxRecDepth 100000 in
theorem blob_hdr_fixext : ∀ p : Byte, MPK_ISXF p.val = true →
    blobType0 p.val = some MPK_EXT ∧ MPK_ISSF p.val = false ∧
      blobLenWidthRef p.val = 0 ∧ ¬ (0xa0 ≤ p.val ∧ p.val ≤ 0xbf) ∧
      1 <<< (p.val - MPK_XF1) =
        (if p.val = 0xd4 then 1 else if p.val = 0xd5 then 2 else if p.val = 0xd6 then 4
          else if p.val = 0xd7 then 8 else 16) ∧ 0xd4 ≤ p.val ∧ p.val ≤ 0xd8 := by
  decide

set_option maxRecDepth 100000 in
theorem blob_hdr_explicit : ∀ p : Byte, blobType0 p.val ≠ none → MPK_ISSF p.val = false →
    MPK_ISXF p.val = false →
      (¬ (0xa0 ≤ p.val ∧ p.val ≤ 0xbf) ∧ ¬ (0xd4 ≤ p.val ∧ p.val ≤ 0xd8)) ∧
      ((p.val = MPK_B8 ∨ p.val = MPK_S8 ∨ p.val = MPK_X8) ∧ blobLenWidthRef p.val = 1 ∨
       ¬ (p.val = MPK_B8 ∨ p.val = MPK_S8 ∨ p.val = MPK_X8) ∧
         (p.val = MPK_B16 ∨ p.val = MPK_S16 ∨ p.val = MPK_X16) ∧ blobLenWidthRef p.val = 2 ∨
       ¬ (p.val = MPK_B8 ∨ p.val = MPK_S8 ∨ p.val = MPK_X8) ∧
         ¬ (p.val = MPK_B16 ∨ p.val = MPK_S16 ∨ p.val = MPK_X16) ∧
         (p.val = MPK_B32 ∨ p.val = MPK_S32 ∨ p.val = MPK_X32) ∧ blobLenWidthRef p.val = 4) := by
  decide

theorem blobLenRef_fixext (a : mpk_msg_t) (off t : Nat) (h1 : ¬ (0xa0 ≤ t ∧ t ≤ 0xbf))
    (h2 : 0xd4 ≤ t) (h3 : t ≤ 0xd8) :
    blobLenRef a off t = (if t = 0xd4 then 1 else if t = 0xd5 then 2 else if t = 0xd6 then 4
          else if t = 0xd7 then 8 else 16) := by
  unfold blobLenRef
  rw [if_neg h1]
  split_ifs <;> first | rfl | omega

theorem blobLenRef_explicit (a : mpk_msg_t) (off t : Nat) (h1 : ¬ (0xa0 ≤ t ∧ t ≤ 0xbf))
    (h2 : ¬ (0xd4 ≤ t ∧ t ≤ 0xd8)) :
    blobLenRef a off t = beValue ((a.msg.drop (off + 1)).take (blobLenWidthRef t)) := by
  unfold blobLenRef
  rw [if_neg h1]
  split_ifs <;> first | rfl | omega

/-- The typed unsigned extractors in terms of the reference value. -/
theorem numU_cases (w : Nat) (hw : 1 ≤ w) (a : mpk_msg_t) (off : Nat) (err : Int)
    (hoff : off + w < SIZE_MOD) :
    (a.size < off + 1 + w → MPKNUM w a off err = (0, 1)) ∧
    (off + 1 + w ≤ a.size →
      MPKNUM w a off err = (beValue ((a.msg.drop (off + 1)).take w), err)) :=
  ⟨fun h => MPKNUM_err w a off err h hoff, fun h => MPKNUM_ok w a off err hw h hoff⟩

theorem blobLength_ref (a : mpk_msg_t) (off : Nat) (p : Byte) (ty : Nat)
    (hty : blobType0 p.val = some ty) (hlt : off < a.size) (hoff : off + 4 < SIZE_MOD) :
    blobLength a off p.val ty =
      if a.size < off + 1 + blobLenWidthRef p.val then none
      else some (blobLenWidthRef p.val, blobLenRef a off p.val) := by
  have f1 := blob_hdr_fixstr p
  have f2 := blob_hdr_fixext p
  have f3 := blob_hdr_explicit p
  unfold blobLength
  by_cases c1 : MPK_ISSF p.val = true
  · obtain ⟨g1, g2, g3, g4⟩ := f1 c1
    have hty1 : ty = MPK_STR := by rw [g1] at hty; exact (Option.some.inj hty).symm
    rw [if_pos ⟨hty1, c1⟩, g2, if_neg (by omega)]
    simp only [blobLenRef, g3, and_self, if_true, g4]
  by_cases c2 : MPK_ISXF p.val = true
  · obtain ⟨g1, g2, g3, g4, g5, g6, g7⟩ := f2 c2
    have hty1 : ty = MPK_EXT := by rw [g1] at hty; exact (Option.some.inj hty).symm
    rw [if_neg (by simp [c1]), if_pos ⟨hty1, c2⟩, g3, if_neg (by omega),
      blobLenRef_fixext a off _ g4 g6 g7, g5]
  obtain ⟨⟨n1, n2⟩, f4⟩ := f3 (by rw [hty]; simp) (by simpa using c1) (by simpa using c2)
  rw [if_neg (by simp [c1]), if_neg (by simp [c2]), blobLenRef_explicit a off _ n1 n2]
  rcases f4 with ⟨h8, hw⟩ | ⟨h8, h16, hw⟩ | ⟨h8, h16, h32, hw⟩
  · rw [if_pos h8, hw]
    obtain ⟨e1, e2⟩ := numU_cases 1 (by omega) a off 0 (by omega)
    by_cases hs : a.size < off + 1 + 1
    · simp [hs, MPK_NumU8, e1 hs]
    · have hlen := payload_length a off 1 (by omega)
      simp [hs, MPK_NumU8, e2 (by omega), asUnsigned_beValue 1 _ hlen]
  · rw [if_neg h8, if_pos h16, hw]
    obtain ⟨e1, e2⟩ := numU_cases 2 (by omega) a off 0 (by omega)
    by_cases hs : a.size < off + 1 + 2
    · simp [hs, MPK_NumU16, e1 hs]
    · have hlen := payload_length a off 2 (by omega)
      simp [hs, MPK_NumU16, e2 (by omega), asUnsigned_beValue 2 _ hlen]
  · rw [if_neg h8, if_neg h16, if_pos h32, hw]
    obtain ⟨e1, e2⟩ := numU_cases 4 (by omega) a off 0 (by omega)
    by_cases hs : a.size < off + 1 + 4
    · simp [hs, MPK_NumU32, e1 hs]
    · have hlen := payload_length a off 4 (by omega)
      simp [hs, MPK_NumU32, e2 (by omega), asUnsigned_beValue 4 _ hlen]

theorem blobLenWidthRef_le (t : Nat) : blobLenWidthRef t ≤ 4 := by
  unfold blobLenWidthRef; split_ifs <;> omega

theorem blobLenRef_lt (a : mpk_msg_t) (off : Nat) (t : Nat) :
    blobLenRef a off t < U32_MOD := by
  unfold blobLenRef
  have hU : U32_MOD = 4294967296 := by simp [U32_MOD]
  split_ifs
  any_goals omega
  have h1 := beValue_lt ((a.msg.drop (off + 1)).take (blobLenWidthRef t))
  have h2 : ((a.msg.drop (off + 1)).take (blobLenWidthRef t)).length ≤ 4 := by
    rw [List.length_take]
    have := blobLenWidthRef_le t
    omega
  have h3 : 256 ^ ((a.msg.drop (off + 1)).take (blobLenWidthRef t)).length ≤ 256 ^ 4 :=
    Nat.pow_le_pow_right (by norm_num) h2
  rw [hU]
  calc _ < _ := h1
    _ ≤ 256 ^ 4 := h3
    _ = 4294967296 := by norm_num

theorem asSigned_byte (q : Byte) : asSigned 8 q.val = twosComplement 8 q.val := by
  have : q.val % 2 ^ 8 = q.val := Nat.mod_eq_of_lt (by have := q.isLt; omega)
  simp only [asSigned, twosComplement, this]

theorem INDEX_eq (a : mpk_msg_t) (i : Nat) (h : i < a.size) :
    INDEX a.msg i a.size = some (a.msg.getD i 0) := by
  obtain ⟨b, hb⟩ := get?_of_lt_size a i h
  simp [INDEX, h, hb, List.getD_eq_getElem?_getD]

theorem INDEX_none (a : mpk_msg_t) (i : Nat) (h : a.size ≤ i) :
    INDEX a.msg i a.size = none := by
  simp [INDEX, Nat.not_lt.mpr h]

theorem blob_ref (a : mpk_msg_t) (off : Nat) (p : Byte) (hp : a.msg[off]? = some p)
    (hlt : off < a.size) (hfit : off + U32_MOD + 6 ≤ SIZE_MOD) :
    match blobRef a off p.val with
    | none => (MPK_Blob a off).off = 0
    | some b => MPK_Blob a off = b := by
  have hU : (0 : Nat) < U32_MOD := by simp [U32_MOD]
  have hidx : INDEX a.msg off a.size = some p := by simp [INDEX, hlt, hp]
  have hk := blob_hdr_kind p
  unfold blobRef MPK_Blob
  simp only [hidx]
  cases hty : blobType0 p.val with
  | none =>
    rw [← hk, hty]
  | some ty =>
    rw [← hk, hty]
    simp only
    rw [blobLength_ref a off p ty hty hlt (by omega)]
    by_cases c1 : a.size < off + 1 + blobLenWidthRef p.val
    · simp only [c1, if_true]
    simp only [c1, if_false]
    have hlw : blobLenWidthRef p.val ≤ 4 := by
      unfold blobLenWidthRef; split_ifs <;> omega
    have hext : blobExtRef p.val = if ty = MPK_EXT then 1 else 0 := by
      unfold blobExtRef
      rw [← hk, hty]
      by_cases h : ty = MPK_EXT
      · simp [h]
      · simp [h]
    have hlen := blobLenRef_lt a off p.val
    generalize blobLenWidthRef p.val = lw at *
    generalize blobLenRef a off p.val = len at *
    rw [hext]
    have hm0 : (off + lw + 1) % SIZE_MOD = off + lw + 1 := Nat.mod_eq_of_lt (by omega)
    by_cases hE : ty = MPK_EXT
    · simp only [hE, if_true, blobType1, hm0, true_and]
      have hm1 : (off + lw + len + 1) % SIZE_MOD = off + lw + len + 1 :=
        Nat.mod_eq_of_lt (by omega)
      have hm2 : (off + lw + 1 + 1) % SIZE_MOD = off + lw + 1 + 1 :=
        Nat.mod_eq_of_lt (by omega)
      by_cases c2 : a.size ≤ off + 1 + lw
      · rw [INDEX_none a _ (by omega)]
        simp only [c2, if_true]
      · rw [INDEX_eq a _ (by omega)]
        simp only [c2, if_false, hm1, hm2]
        by_cases c3 : a.size < off + 1 + lw + 1 + len
        · rw [INDEX_none a _ (by omega)]
          simp only [c3, if_true]
        · rw [INDEX_eq a _ (by omega)]
          simp only [c3, if_false, asSigned_byte]
          rw [show off + lw + 1 + 1 = off + 1 + lw + 1 by omega,
            show off + lw + 1 = off + 1 + lw by omega]
    · simp only [hE, if_false, blobType1, Nat.add_zero, false_and]
      have hm1 : (off + lw + len) % SIZE_MOD = off + lw + len :=
        Nat.mod_eq_of_lt (by omega)
      simp only [hm1, hm0]
      by_cases c3 : a.size < off + 1 + lw + len
      · rw [INDEX_none a _ (by omega)]
        simp [c3]
      · rw [INDEX_eq a _ (by omega)]
        simp only [c3, if_false]
        rw [show off + lw + 1 = off + 1 + lw by omega]
        simp

theorem blobRef_cases (a : mpk_msg_t) (off t : Nat) :
    (blobRef a off t = none ∧
      (blobKindRef t = none ∨ a.size < off + 1 + blobLenWidthRef t ∨
        (blobExtRef t = 1 ∧ a.size ≤ off + 1 + blobLenWidthRef t) ∨
        a.size < off + 1 + blobLenWidthRef t + blobExtRef t + blobLenRef a off t)) ∨
    (∃ ty, blobKindRef t = some ty ∧
      off + 1 + blobLenWidthRef t + blobExtRef t + blobLenRef a off t ≤ a.size ∧
      off + 1 + blobLenWidthRef t ≤ a.size ∧
      (blobExtRef t = 1 → off + 1 + blobLenWidthRef t < a.size) ∧
      blobRef a off t = some
        { off := off + 1 + blobLenWidthRef t + blobExtRef t, size := blobLenRef a off t,
          data := (a.msg.drop (off + 1 + blobLenWidthRef t + blobExtRef t)).take
            (blobLenRef a off t),
          type0 := (ty : Int),
          type1 := if blobExtRef t = 1
            then twosComplement 8 ((a.msg.getD (off + 1 + blobLenWidthRef t) 0).val)
            else 0 }) := by
  unfold blobRef
  cases hk : blobKindRef t with
  | none => exact Or.inl ⟨rfl, Or.inl rfl⟩
  | some ty =>
    simp only
    by_cases c1 : a.size < off + 1 + blobLenWidthRef t
    · exact Or.inl ⟨by rw [if_pos c1], Or.inr (Or.inl c1)⟩
    by_cases c2 : blobExtRef t = 1 ∧ a.size ≤ off + 1 + blobLenWidthRef t
    · exact Or.inl ⟨by rw [if_neg c1, if_pos c2], Or.inr (Or.inr (Or.inl c2))⟩
    by_cases c3 : a.size < off + 1 + blobLenWidthRef t + blobExtRef t + blobLenRef a off t
    · exact Or.inl ⟨by rw [if_neg c1, if_neg c2, if_pos c3], Or.inr (Or.inr (Or.inr c3))⟩
    · refine Or.inr ⟨ty, rfl, by omega, by omega, fun he => ?_, by
        rw [if_neg c1, if_neg c2, if_neg c3]⟩
      by_contra hcon
      exact c2 ⟨he, by omega⟩

/-- C17: where `MPK_Blob` succeeds (in a buffer whose size leaves room for
`size_t` arithmetic), the kind tag is string for the headers 0xa0-0xbf and
0xd9-0xdb, binary for 0xc4-0xc6 and extension for 0xc7-0xc9 and 0xd4-0xd8
(`blobKindRef`); the length is the low 5 bits of a fixstr header, 1, 2, 4, 8,
16 for the fixext headers, and otherwise the unsigned big-endian value of the
1-, 2- or 4-byte length field after the header (`blobLenRef`); the data offset
is `off + 1 +` the width of the length field `+ 1` for an extension; the
second type-tag byte is the signed byte right after the length field for an
extension and 0 otherwise; and the borrowed payload is the run of `size`
bytes of the message that starts at the data offset. -/
theorem blob_fields (a : mpk_msg_t) (off : Nat) (hfit : a.size + U32_MOD + 6 ≤ SIZE_MOD)
    (h : (MPK_Blob a off).off ≠ 0) :
    ∃ hdr : Byte, ∃ ty : Nat, a.msg[off]? = some hdr ∧ blobKindRef hdr.val = some ty ∧
      (MPK_Blob a off).type0 = (ty : Int) ∧
      (MPK_Blob a off).size = blobLenRef a off hdr.val ∧
      (MPK_Blob a off).off = off + 1 + blobLenWidthRef hdr.val + blobExtRef hdr.val ∧
      (MPK_Blob a off).type1 =
        (if blobExtRef hdr.val = 1
          then twosComplement 8 ((a.msg.getD (off + 1 + blobLenWidthRef hdr.val) 0).val)
          else 0) ∧
      (MPK_Blob a off).data
        = (a.msg.drop (MPK_Blob a off).off).take (MPK_Blob a off).size ∧
      (MPK_Blob a off).data.length = (MPK_Blob a off).size := by
  by_cases hlt : off < a.size
  · obtain ⟨p, hp⟩ := get?_of_lt_size a off hlt
    have hr := blob_ref a off p hp hlt (by omega)
    rcases blobRef_cases a off p.val with ⟨hn, -⟩ | ⟨ty, hk, hfits, -, -, hs⟩
    · rw [hn] at hr; exact absurd hr h
    · rw [hs] at hr
      simp only at hr
      refine ⟨p, ty, hp, hk, ?_⟩
      rw [hr]
      refine ⟨rfl, rfl, rfl, rfl, rfl, ?_⟩
      simp only [List.length_take, List.length_drop]
      simp only [mpk_msg_t.size] at hfits
      omega
  · exfalso
    apply h
    simp [MPK_Blob, INDEX, hlt]

/-- C18: `MPK_Blob` returns the sentinel data offset 0 exactly when `off` is
unaddressable, or the header byte is not a blob class, or the explicit length
field does not lie fully inside the buffer, or the subtype byte of an
extension is unaddressable, or data start plus length exceeds `size`; in
every other case the data offset is at least 1 and data offset plus length is
at most `size` (in a buffer whose size leaves room for `size_t`
arithmetic). -/
theorem blob_sentinel (a : mpk_msg_t) (off : Nat) (hfit : a.size + U32_MOD + 6 ≤ SIZE_MOD) :
    ((MPK_Blob a off).off = 0 ↔
      (a.size ≤ off ∨ ∃ hdr : Byte, a.msg[off]? = some hdr ∧
        (blobKindRef hdr.val = none ∨ a.size < off + 1 + blobLenWidthRef hdr.val ∨
          (blobExtRef hdr.val = 1 ∧ a.size ≤ off + 1 + blobLenWidthRef hdr.val) ∨
          a.size < off + 1 + blobLenWidthRef hdr.val + blobExtRef hdr.val
            + blobLenRef a off hdr.val))) ∧
    ((MPK_Blob a off).off ≠ 0 →
      1 ≤ (MPK_Blob a off).off ∧ (MPK_Blob a off).off + (MPK_Blob a off).size ≤ a.size) := by
  by_cases hlt : off < a.size
  · obtain ⟨p, hp⟩ := get?_of_lt_size a off hlt
    have hr := blob_ref a off p hp hlt (by omega)
    rcases blobRef_cases a off p.val with ⟨hn, hc⟩ | ⟨ty, hk, hfits, h1, h2, hs⟩
    · rw [hn] at hr
      simp only at hr
      exact ⟨⟨fun _ => Or.inr ⟨p, hp, hc⟩, fun _ => hr⟩, fun h => absurd hr h⟩
    · rw [hs] at hr
      simp only at hr
      rw [hr]
      simp only
      refine ⟨⟨fun h0 => by omega, fun hc => ?_⟩, fun _ => ⟨by omega, by omega⟩⟩
      rcases hc with hc | ⟨q, hq, hc⟩
      · omega
      · rw [hp] at hq
        have : p = q := Option.some.inj hq
        subst this
        rcases hc with hc | hc | hc | hc
        · rw [hk] at hc; simp at hc
        · omega
        · have := h2 hc.1; omega
        · omega
  · have h0 : (MPK_Blob a off).off = 0 := by simp [MPK_Blob, INDEX, hlt]
    exact ⟨⟨fun _ => Or.inl (by omega), fun _ => h0⟩, fun h => absurd h0 h⟩

set_option maxRecDepth 100000 in
theorem col_hdr_kind : ∀ p : Byte, colType p.val = colKindRef p.val := by
  decide

set_option maxRecDepth 100000 in
theorem col_hdr_fix : ∀ p : Byte, colType p.val ≠ none → MPK_ISFIX p.val = true →
    colLenWidthRef p.val = 0 ∧ (0x80 ≤ p.val ∧ p.val ≤ 0x9f) ∧ p.val &&& 0x0f = p.val % 16 := by
  decide

set_option maxRecDepth 100000 in
theorem col_hdr_explicit : ∀ p : Byte, colType p.val ≠ none → MPK_ISFIX p.val = false →
    ¬ (0x80 ≤ p.val ∧ p.val ≤ 0x9f) ∧
    ((p.val = MPK_M16 ∨ p.val = MPK_A16) ∧ colLenWidthRef p.val = 2 ∨
     ¬ (p.val = MPK_M16 ∨ p.val = MPK_A16) ∧ (p.val = MPK_M32 ∨ p.val = MPK_A32) ∧
       colLenWidthRef p.val = 4) := by
  decide

theorem colLength_ref (a : mpk_msg_t) (off : Nat) (p : Byte)
    (hty : colType p.val ≠ none) (hlt : off < a.size) (hoff : off + 4 < SIZE_MOD) :
    colLength a off p.val =
      if a.size < off + 1 + colLenWidthRef p.val then none
      else some (colLenWidthRef p.val, colCountRef a off p.val) := by
  unfold colLength
  by_cases c1 : MPK_ISFIX p.val = true
  · obtain ⟨g1, g2, g3⟩ := col_hdr_fix p hty c1
    rw [if_pos c1, g1, if_neg (by omega)]
    simp only [colCountRef, g2, and_self, if_true, g3]
  obtain ⟨n1, f4⟩ := col_hdr_explicit p hty (by simpa using c1)
  have hcount : colCountRef a off p.val
      = beValue ((a.msg.drop (off + 1)).take (colLenWidthRef p.val)) := by
    unfold colCountRef; rw [if_neg n1]
  rw [if_neg c1, hcount]
  rcases f4 with ⟨h16, hw⟩ | ⟨h16, h32, hw⟩
  · rw [if_pos h16, hw]
    obtain ⟨e1, e2⟩ := numU_cases 2 (by omega) a off 0 (by omega)
    by_cases hs : a.size < off + 1 + 2
    · simp [hs, MPK_NumU16, e1 hs]
    · have hlen := payload_length a off 2 (by omega)
      simp [hs, MPK_NumU16, e2 (by omega), asUnsigned_beValue 2 _ hlen]
  · rw [if_neg h16, if_pos h32, hw]
    obtain ⟨e1, e2⟩ := numU_cases 4 (by omega) a off 0 (by omega)
    by_cases hs : a.size < off + 1 + 4
    · simp [hs, MPK_NumU32, e1 hs]
    · have hlen := payload_length a off 4 (by omega)
      simp [hs, MPK_NumU32, e2 (by omega), asUnsigned_beValue 4 _ hlen]

theorem colLenWidthRef_le (t : Nat) : colLenWidthRef t ≤ 4 := by
  unfold colLenWidthRef; split_ifs <;> omega

/-- What `MPK_Col` returns at an addressable offset, by the reference
functions. -/
theorem col_ref (a : mpk_msg_t) (off : Nat) (p : Byte) (hp : a.msg[off]? = some p)
    (hlt : off < a.size) (hfit : off + U32_MOD + 6 ≤ SIZE_MOD) :
    (colKindRef p.val = none → (MPK_Col a off).off = 0) ∧
    (∀ ty, colKindRef p.val = some ty →
      (a.size ≤ off + 1 + colLenWidthRef p.val → (MPK_Col a off).off = 0) ∧
      (off + 1 + colLenWidthRef p.val < a.size →
        MPK_Col a off = { off := off + 1 + colLenWidthRef p.val,
                          elems := colCountRef a off p.val, type := ty })) := by
  have hU : (0 : Nat) < U32_MOD := by simp [U32_MOD]
  have hidx : INDEX a.msg off a.size = some p := by simp [INDEX, hlt, hp]
  have hk := col_hdr_kind p
  have hlw := colLenWidthRef_le p.val
  have hm : (off + 1 + colLenWidthRef p.val) % SIZE_MOD = off + 1 + colLenWidthRef p.val :=
    Nat.mod_eq_of_lt (by omega)
  refine ⟨fun hn => ?_, fun ty hs => ⟨fun h1 => ?_, fun h1 => ?_⟩⟩
  · unfold MPK_Col
    simp only [hidx]
    rw [hk, hn]
  · unfold MPK_Col
    simp only [hidx]
    rw [hk, hs]
    simp only
    rw [colLength_ref a off p (by rw [hk, hs]; simp) hlt (by omega)]
    by_cases c1 : a.size < off + 1 + colLenWidthRef p.val
    · simp only [c1, if_true]
    · simp only [c1, if_false, hm]
      rw [INDEX_none a _ h1]
  · unfold MPK_Col
    simp only [hidx]
    rw [hk, hs]
    simp only
    rw [colLength_ref a off p (by rw [hk, hs]; simp) hlt (by omega)]
    simp only [show ¬ a.size < off + 1 + colLenWidthRef p.val by omega, if_false, hm]
    rw [INDEX_eq a _ h1]

/-- C19: `MPK_Col` returns a non-zero first-child offset exactly when `off`
is addressable, the header byte is an array or map class, the explicit length
field lies fully inside the buffer and `off + 1 +` its width is less than
`size`; on success the kind is array for 0x90-0x9f, 0xdc, 0xdd and map for
0x80-0x8f, 0xde, 0xdf, the count is the low 4 bits of a fix header and
otherwise the unsigned big-endian value of the 2- or 4-byte length field, and
the first-child offset is `off + 1 +` the width of the length field (in a
buffer whose size leaves room for `size_t` arithmetic). -/
theorem col_fields (a : mpk_msg_t) (off : Nat) (hfit : a.size + U32_MOD + 6 ≤ SIZE_MOD) :
    ((MPK_Col a off).off ≠ 0 ↔
      (off < a.size ∧ ∃ hdr : Byte, a.msg[off]? = some hdr ∧ colKindRef hdr.val ≠ none ∧
        off + 1 + colLenWidthRef hdr.val ≤ a.size ∧
        off + 1 + colLenWidthRef hdr.val < a.size)) ∧
    ((MPK_Col a off).off ≠ 0 →
      ∃ hdr : Byte, ∃ ty : Nat, a.msg[off]? = some hdr ∧ colKindRef hdr.val = some ty ∧
        (MPK_Col a off).type = ty ∧
        (MPK_Col a off).elems = colCountRef a off hdr.val ∧
        (MPK_Col a off).off = off + 1 + colLenWidthRef hdr.val) := by
  by_cases hlt : off < a.size
  · obtain ⟨p, hp⟩ := get?_of_lt_size a off hlt
    obtain ⟨r1, r2⟩ := col_ref a off p hp hlt (by omega)
    cases hk : colKindRef p.val with
    | none =>
      have h0 := r1 hk
      refine ⟨⟨fun h => absurd h0 h, fun ⟨_, q, hq, hne, _⟩ => ?_⟩, fun h => absurd h0 h⟩
      rw [hp] at hq
      have : p = q := Option.some.inj hq
      subst this
      exact absurd hk hne
    | some ty =>
      obtain ⟨r3, r4⟩ := r2 ty hk
      by_cases c : off + 1 + colLenWidthRef p.val < a.size
      · have hr := r4 c
        have hne : (MPK_Col a off).off ≠ 0 := by rw [hr]; simp only; omega
        refine ⟨⟨fun _ => ⟨hlt, p, hp, by rw [hk]; simp, by omega, c⟩, fun _ => hne⟩,
          fun _ => ⟨p, ty, hp, hk, ?_⟩⟩
        rw [hr]
        exact ⟨rfl, rfl, rfl⟩
      · have h0 := r3 (by omega)
        refine ⟨⟨fun h => absurd h0 h, fun ⟨_, q, hq, _, _, hc⟩ => ?_⟩, fun h => absurd h0 h⟩
        rw [hp] at hq
        have : p = q := Option.some.inj hq
        subst this
        exact absurd hc c
  · have h0 : (MPK_Col a off).off = 0 := by simp [MPK_Col, INDEX, hlt]
    exact ⟨⟨fun h => absurd h0 h, fun ⟨h, _⟩ => absurd h hlt⟩, fun h => absurd h0 h⟩

/-- C16 fails on the code at the top of the offset range: with
`off = 2^64 - 1` the sums `off + 1` and `off + bytes` wrap to 0 in `size_t`, so on a
one-byte message `MPK_NumU8` reads byte 0 and reports no error, although
`off + 1 + 1 > size`. -/
theorem numU8_wraps :
    msgSeven.size < (2 ^ 64 - 1) + 1 + 1 ∧ MPK_NumU8 msgSeven (2 ^ 64 - 1) 0 = (7, 0) := by
  decide

theorem extractor_unsigned (w : Nat) (hw : 1 ≤ w)
    (f : mpk_msg_t → Nat → Int → Nat × Int)
    (hf : ∀ a off err, f a off err = (asUnsigned (8 * w) (MPKNUM w a off err).1,
      (MPKNUM w a off err).2)) :
    ExtractorSpec w f id 0 := by
  intro a off err hoff
  obtain ⟨e1, e2⟩ := numU_cases w hw a off err hoff
  constructor
  · intro h; rw [hf, e1 h]; simp [asUnsigned]
  · intro h
    rw [hf, e2 h]
    simp only [id, asUnsigned_beValue w _ (payload_length a off w h)]

theorem extractor_signed (w : Nat) (hw : 1 ≤ w)
    (f : mpk_msg_t → Nat → Int → Int × Int)
    (hf : ∀ a off err, f a off err = (asSigned (8 * w) (MPKNUM w a off err).1,
      (MPKNUM w a off err).2)) :
    ExtractorSpec w f (twosComplement (8 * w)) 0 := by
  intro a off err hoff
  obtain ⟨e1, e2⟩ := numU_cases w hw a off err hoff
  constructor
  · intro h; rw [hf, e1 h]; simp [asSigned]
  · intro h
    rw [hf, e2 h]
    simp only [asSigned_beValue w _ (payload_length a off w h)]

/-- C16 as amended: for every extractor `MPK_NumU8/U16/U32/U64/I8/I16/I32/I64`
of payload width `w`, every message and every header offset with
`off + w < 2^64`: when `off + 1 + w > size` the extractor sets the error flag
and returns 0; otherwise it leaves the flag as it was and returns the
unsigned or two's-complement reading of the big-endian number of the bytes
`off+1 .. off+w`, which are all it depends on. -/
theorem extractors_bounds :
    ExtractorSpec 1 MPK_NumU8 id 0 ∧ ExtractorSpec 2 MPK_NumU16 id 0 ∧
    ExtractorSpec 4 MPK_NumU32 id 0 ∧ ExtractorSpec 8 MPK_NumU64 id 0 ∧
    ExtractorSpec 1 MPK_NumI8 (twosComplement 8) 0 ∧
    ExtractorSpec 2 MPK_NumI16 (twosComplement 16) 0 ∧
    ExtractorSpec 4 MPK_NumI32 (twosComplement 32) 0 ∧
    ExtractorSpec 8 MPK_NumI64 (twosComplement 64) 0 :=
  ⟨extractor_unsigned 1 (by omega) _ (fun _ _ _ => rfl),
    extractor_unsigned 2 (by omega) _ (fun _ _ _ => rfl),
    extractor_unsigned 4 (by omega) _ (fun _ _ _ => rfl),
    extractor_unsigned 8 (by omega) _ (fun _ _ _ => rfl),
    extractor_signed 1 (by omega) _ (fun _ _ _ => rfl),
    extractor_signed 2 (by omega) _ (fun _ _ _ => rfl),
    extractor_signed 4 (by omega) _ (fun _ _ _ => rfl),
    extractor_signed 8 (by omega) _ (fun _ _ _ => rfl)⟩

theorem extractors_bounds_witness :
    MPK_NumU8 msgU8 0 0 = (255, 0) ∧ MPK_NumU16 msgU8 0 0 = (0, 1) :=
  ⟨(extractors_bounds.1 msgU8 0 0 (by decide)).2 (by decide),
    (extractors_bounds.2.1 msgU8 0 0 (by decide)).1 (by decide)⟩

theorem truncate_size (k : Nat) (a : mpk_msg_t) : (truncate k a).size = min k a.size := by
  simp [truncate, mpk_msg_t.size]

theorem truncate_get (k : Nat) (a : mpk_msg_t) (i : Nat) (h : i < k) :
    (truncate k a).msg[i]? = a.msg[i]? := by
  simp [truncate, List.getElem?_take, h]

theorem truncate_field (k : Nat) (a : mpk_msg_t) (i w : Nat) (h : i + w ≤ k) :
    ((truncate k a).msg.drop i).take w = (a.msg.drop i).take w := by
  simp only [truncate, List.drop_take, List.take_take]
  congr 1
  omega

set_option maxRecDepth 100000 in
theorem class_by_ref : ∀ p : Byte,
    (MPK_ISBLOB p.val = true ↔ blobKindRef p.val ≠ none) ∧
    (MPK_ISCOL p.val = true ↔ colKindRef p.val ≠ none) ∧
    (blobKindRef p.val ≠ none → colKindRef p.val = none) := by
  decide

set_option maxRecDepth 100000 in
theorem class_scalar_width : ∀ p : Byte, MPK_ISBLOB p.val = false → MPK_ISCOL p.val = false →
    (scalarWidthRef p.val).getD 0 ≠ 0 → 0xca ≤ p.val ∧ p.val ≤ 0xd3 := by
  decide

theorem elemAt_numeric_short (a : mpk_msg_t) (off : Nat) (p : Byte) (hoff : off < 256)
    (hp : a.msg[off]? = some p) (hlt : off < a.size)
    (h1 : 0xca ≤ p.val) (h2 : p.val ≤ 0xd3)
    (hshort : a.size < off + 1 + (scalarWidthRef p.val).getD 0) :
    MPK_ElemAt a off = none := by
  obtain ⟨c1, c2, c3, c4, c5, c6, c7⟩ := class_explicit p h1 h2
  have hmod : off % 256 = off := Nat.mod_eq_of_lt hoff
  have hidx : INDEX a.msg off a.size = some p := by simp [INDEX, hlt, hp]
  have hsm : ∀ w, w ≤ 8 → off + w < SIZE_MOD := by
    intro w hw; simp only [SIZE_MOD]; omega
  have hv : p.val = 0xca ∨ p.val = 0xcb ∨ p.val = 0xcc ∨ p.val = 0xcd ∨ p.val = 0xce ∨
      p.val = 0xcf ∨ p.val = 0xd0 ∨ p.val = 0xd1 ∨ p.val = 0xd2 ∨ p.val = 0xd3 := by omega
  rcases hv with hv | hv | hv | hv | hv | hv | hv | hv | hv | hv <;>
    simp only [hv] at c1 c2 c3 c4 c5 c6 c7 hshort <;>
    simp [scalarWidthRef, refWidth] at hshort
  · have e := MPKNUM_err 4 a off 0 (by omega) (hsm 4 (by omega))
    simp [MPK_ElemAt, hmod, hidx, c1, c2, c3, c4, c5, numericAt, c6, c7, hv, MPK_U8, MPK_U16,
      MPK_U32, MPK_U64, MPK_I8, MPK_I16, MPK_I32, MPK_I64, MPK_F32, MPK_F64, MPK_NumF32, e]
  · have e := MPKNUM_err 8 a off 0 (by omega) (hsm 8 (by omega))
    simp [MPK_ElemAt, hmod, hidx, c1, c2, c3, c4, c5, numericAt, c6, c7, hv, MPK_U8, MPK_U16,
      MPK_U32, MPK_U64, MPK_I8, MPK_I16, MPK_I32, MPK_I64, MPK_F32, MPK_F64, MPK_NumF64, e]
  · have e := MPKNUM_err 1 a off 0 (by omega) (hsm 1 (by omega))
    simp [MPK_ElemAt, hmod, hidx, c1, c2, c3, c4, c5, numericAt, c6, c7, hv, MPK_U8, MPK_U16,
      MPK_U32, MPK_U64, MPK_I8, MPK_I16, MPK_I32, MPK_I64, MPK_F32, MPK_F64, MPK_NumU8, e]
  · have e := MPKNUM_err 2 a off 0 (by omega) (hsm 2 (by omega))
    simp [MPK_ElemAt, hmod, hidx, c1, c2, c3, c4, c5, numericAt, c6, c7, hv, MPK_U8, MPK_U16,
      MPK_U32, MPK_U64, MPK_I8, MPK_I16, MPK_I32, MPK_I64, MPK_F32, MPK_F64, MPK_NumU16, e]
  · have e := MPKNUM_err 4 a off 0 (by omega) (hsm 4 (by omega))
    simp [MPK_ElemAt, hmod, hidx, c1, c2, c3, c4, c5, numericAt, c6, c7, hv, MPK_U8, MPK_U16,
      MPK_U32, MPK_U64, MPK_I8, MPK_I16, MPK_I32, MPK_I64, MPK_F32, MPK_F64, MPK_NumU32, e]
  · have e := MPKNUM_err 8 a off 0 (by omega) (hsm 8 (by omega))
    simp [MPK_ElemAt, hmod, hidx, c1, c2, c3, c4, c5, numericAt, c6, c7, hv, MPK_U8, MPK_U16,
      MPK_U32, MPK_U64, MPK_I8, MPK_I16, MPK_I32, MPK_I64, MPK_F32, MPK_F64, MPK_NumU64, e]
  · have e := MPKNUM_err 1 a off 0 (by omega) (hsm 1 (by omega))
    simp [MPK_ElemAt, hmod, hidx, c1, c2, c3, c4, c5, numericAt, c6, c7, hv, MPK_U8, MPK_U16,
      MPK_U32, MPK_U64, MPK_I8, MPK_I16, MPK_I32, MPK_I64, MPK_F32, MPK_F64, MPK_NumI8, e]
  · have e := MPKNUM_err 2 a off 0 (by omega) (hsm 2 (by omega))
    simp [MPK_ElemAt, hmod, hidx, c1, c2, c3, c4, c5, numericAt, c6, c7, hv, MPK_U8, MPK_U16,
      MPK_U32, MPK_U64, MPK_I8, MPK_I16, MPK_I32, MPK_I64, MPK_F32, MPK_F64, MPK_NumI16, e]
  · have e := MPKNUM_err 4 a off 0 (by omega) (hsm 4 (by omega))
    simp [MPK_ElemAt, hmod, hidx, c1, c2, c3, c4, c5, numericAt, c6, c7, hv, MPK_U8, MPK_U16,
      MPK_U32, MPK_U64, MPK_I8, MPK_I16, MPK_I32, MPK_I64, MPK_F32, MPK_F64, MPK_NumI32, e]
  · have e := MPKNUM_err 8 a off 0 (by omega) (hsm 8 (by omega))
    simp [MPK_ElemAt, hmod, hidx, c1, c2, c3, c4, c5, numericAt, c6, c7, hv, MPK_U8, MPK_U16,
      MPK_U32, MPK_U64, MPK_I8, MPK_I16, MPK_I32, MPK_I64, MPK_F32, MPK_F64, MPK_NumI64, e]

theorem blobLenRef_truncate (k : Nat) (a : mpk_msg_t) (off t : Nat)
    (h : off + 1 + blobLenWidthRef t ≤ k) :
    blobLenRef (truncate k a) off t = blobLenRef a off t := by
  unfold blobLenRef
  rw [truncate_field k a (off + 1) _ h]

/-- C12: let `MPK_ElemAt` succeed at an offset `off` that its parameter can
hold, on the element with header byte `hdr`, and let `L = neededBytes` be the
number of bytes the element needs. Then for every `k < off + L`,
`MPK_ElemAt` at `off` fails on the buffer cut down to its first `k` bytes,
and it fails on every buffer that has the same first `k` bytes, whatever
lies at the indices from `k` on. -/
theorem truncated_decode_fails (a : mpk_msg_t) (off : Nat) (hdr : Byte) (v : mpk_value_t)
    (hoff : off < 256) (hfit : a.size + U32_MOD + 6 ≤ SIZE_MOD)
    (hv : MPK_ElemAt a off = some v) (hp : a.msg[off]? = some hdr) :
    ∀ k, k < off + neededBytes a off hdr.val →
      MPK_ElemAt (truncate k a) off = none ∧
      ∀ a2 : mpk_msg_t, a2.msg.take k = a.msg.take k →
        MPK_ElemAt (truncate k a2) off = none := by
  intro k hk
  suffices h : MPK_ElemAt (truncate k a) off = none by
    refine ⟨h, fun a2 h2 => ?_⟩
    have : truncate k a2 = truncate k a := by simp only [truncate, h2]
    rw [this]; exact h
  have hmod : off % 256 = off := Nat.mod_eq_of_lt hoff
  have hsz := truncate_size k a
  by_cases hko : k ≤ off
  · have hnone : INDEX (truncate k a).msg off (truncate k a).size = none := by
      unfold INDEX
      rw [if_neg (by rw [hsz]; omega)]
    simp only [MPK_ElemAt, hmod, hnone]
  have hoffk : off < k := by omega
  have hlta : off < a.size := by
    have := (elemAt_inv a off v hv).2.1
    rw [(elemAt_inv a off v hv).1, hmod] at this
    exact this
  have hlt : off < (truncate k a).size := by rw [hsz]; omega
  have hp1 : (truncate k a).msg[off]? = some hdr := by rw [truncate_get k a off hoffk, hp]
  have hidx : INDEX (truncate k a).msg off (truncate k a).size = some hdr := by
    simp [INDEX, hlt, hp1]
  have hfit1 : (truncate k a).size + U32_MOD + 6 ≤ SIZE_MOD := by rw [hsz]; omega
  obtain ⟨cb, cc, cx⟩ := class_by_ref hdr
  unfold neededBytes at hk
  by_cases hB : MPK_ISBLOB hdr.val = true
  · rw [if_pos (cb.mp hB)] at hk
    have h0 : (MPK_Blob (truncate k a) off).off = 0 := by
      rw [(blob_sentinel (truncate k a) off hfit1).1]
      refine Or.inr ⟨hdr, hp1, ?_⟩
      by_cases hl : (truncate k a).size < off + 1 + blobLenWidthRef hdr.val
      · exact Or.inr (Or.inl hl)
      · refine Or.inr (Or.inr (Or.inr ?_))
        rw [blobLenRef_truncate k a off _ (by omega)]
        omega
    simp [MPK_ElemAt, hmod, hidx, hB, h0]
  have hBn : blobKindRef hdr.val = none := by
    by_contra hcon; exact hB (cb.mpr hcon)
  rw [if_neg (by simp [hBn])] at hk
  by_cases hC : MPK_ISCOL hdr.val = true
  · rw [if_pos (cc.mp hC)] at hk
    have h0 : (MPK_Col (truncate k a) off).off = 0 := by
      by_contra hne
      obtain ⟨-, q, hq, -, -, hc⟩ := (col_fields (truncate k a) off hfit1).1.mp hne
      rw [hp1] at hq
      have : hdr = q := Option.some.inj hq
      subst this
      omega
    simp [MPK_ElemAt, hmod, hidx, hB, hC, h0]
  have hCn : colKindRef hdr.val = none := by
    by_contra hcon; exact hC (cc.mpr hcon)
  rw [if_neg (by simp [hCn])] at hk
  have hw : (scalarWidthRef hdr.val).getD 0 ≠ 0 := by omega
  obtain ⟨r1, r2⟩ := class_scalar_width hdr (by simpa using hB) (by simpa using hC) hw
  exact elemAt_numeric_short (truncate k a) off hdr hoff hp1 hlt r1 r2 (by omega)

theorem truncated_decode_fails_witness :
    MPK_ElemAt (truncate 3 msgAbc) 0 = none ∧
    ∀ a2 : mpk_msg_t, a2.msg.take 3 = msgAbc.msg.take 3 →
      MPK_ElemAt (truncate 3 a2) 0 = none :=
  truncated_decode_fails msgAbc 0 0xa3
    { value := .blob ⟨1, 3, [0x61, 0x62, 0x63], 0, 0⟩, rawhdr := 0 }
    (by decide) (by decide) (by decide) (by decide) 3 (by decide)

theorem blob_fields_witness :
    ∃ hdr : Byte, ∃ ty : Nat, msgAbc.msg[0]? = some hdr ∧ blobKindRef hdr.val = some ty ∧
      (MPK_Blob msgAbc 0).type0 = (ty : Int) ∧
      (MPK_Blob msgAbc 0).size = blobLenRef msgAbc 0 hdr.val ∧
      (MPK_Blob msgAbc 0).off = 0 + 1 + blobLenWidthRef hdr.val + blobExtRef hdr.val ∧
      (MPK_Blob msgAbc 0).type1 =
        (if blobExtRef hdr.val = 1
          then twosComplement 8 ((msgAbc.msg.getD (0 + 1 + blobLenWidthRef hdr.val) 0).val)
          else 0) ∧
      (MPK_Blob msgAbc 0).data
        = (msgAbc.msg.drop (MPK_Blob msgAbc 0).off).take (MPK_Blob msgAbc 0).size ∧
      (MPK_Blob msgAbc 0).data.length = (MPK_Blob msgAbc 0).size :=
  blob_fields msgAbc 0 (by decide) (by decide)

theorem blob_sentinel_witness :
    (MPK_Blob msgU8 0).off = 0 ∧
    (1 ≤ (MPK_Blob msgAbc 0).off ∧
      (MPK_Blob msgAbc 0).off + (MPK_Blob msgAbc 0).size ≤ msgAbc.size) :=
  ⟨(blob_sentinel msgU8 0 (by decide)).1.mpr
      (Or.inr ⟨0xcc, by decide, Or.inl (by decide)⟩),
    (blob_sentinel msgAbc 0 (by decide)).2 (by decide)⟩

theorem col_fields_witness :
    (MPK_Col msgArrLast 0).off ≠ 0 ∧
    ∃ hdr : Byte, ∃ ty : Nat, msgArrLast.msg[0]? = some hdr ∧ colKindRef hdr.val = some ty ∧
      (MPK_Col msgArrLast 0).type = ty ∧
      (MPK_Col msgArrLast 0).elems = colCountRef msgArrLast 0 hdr.val ∧
      (MPK_Col msgArrLast 0).off = 0 + 1 + colLenWidthRef hdr.val :=
  ⟨(col_fields msgArrLast 0 (by decide)).1.mpr
      ⟨by decide, 0x92, by decide, by decide, by decide, by decide⟩,
    (col_fields msgArrLast 0 (by decide)).2 (by decide)⟩

/-! ## Runs of elements on the wire -/

theorem lt_size_of_get (a : mpk_msg_t) (i : Nat) (b : Byte) (h : a.msg[i]? = some b) :
    i < a.size := by
  by_contra hc
  have hn : a.msg[i]? = none := List.getElem?_eq_none (by simp only [mpk_msg_t.size] at hc; omega)
  rw [hn] at h
  simp at h

set_option maxRecDepth 100000 in
/-- The size table of the skip engine against the wire format: a header is a
scalar header exactly when `MPK_STSiz` is not zero, and then `MPK_STSiz` is
one more than the width of the payload. -/
theorem stsiz_by_ref : ∀ p : Byte,
    (scalarWidthRef p.val ≠ none ↔ MPK_STSiz p.val ≠ 0) ∧
    (scalarWidthRef p.val ≠ none →
      MPK_STSiz p.val = 1 + (scalarWidthRef p.val).getD 0 ∧
      blobKindRef p.val = none ∧ colKindRef p.val = none) := by
  decide

theorem Wire.bound {a : mpk_msg_t} {p k e : Nat} (h : Wire a p k e) :
    p + k ≤ e ∧ (p ≤ a.size → e ≤ a.size) := by
  induction h with
  | nil p => exact ⟨by omega, fun h => h⟩
  | scalar hdr w hget hw hfit _ ih => exact ⟨by omega, fun _ => ih.2 hfit⟩
  | blob hdr hget hk hfit _ ih => exact ⟨by omega, fun _ => ih.2 hfit⟩
  | col hdr ty hget hk hfit _ _ ih1 ih2 => exact ⟨by omega, fun _ => ih2.2 (ih1.2 hfit)⟩

theorem Wire.zero_end {a : mpk_msg_t} {p e : Nat} (h : Wire a p 0 e) : e = p := by
  cases h; rfl

/-- No element starts at or after the end of the buffer. -/
theorem Wire.stuck {a : mpk_msg_t} {p k e : Nat} (h : Wire a p k e) (hp : a.size ≤ p) :
    k = 0 ∧ e = p := by
  cases h with
  | nil => exact ⟨rfl, rfl⟩
  | scalar hdr w hget _ _ _ => have := lt_size_of_get a p hdr hget; omega
  | blob hdr hget _ _ _ => have := lt_size_of_get a p hdr hget; omega
  | col hdr ty hget _ _ _ _ => have := lt_size_of_get a p hdr hget; omega

/-- A scalar whose header and payload lie inside the buffer is decoded. -/
theorem elemAt_scalar_ok (a : mpk_msg_t) (off : Nat) (p : Byte) (w : Nat)
    (hoff : off < 256) (hp : a.msg[off]? = some p)
    (hw : scalarWidthRef p.val = some w) (hfit : off + 1 + w ≤ a.size) :
    MPK_ElemAt a off ≠ none := by
  have hlt : off < a.size := by omega
  have hmod : off % 256 = off := Nat.mod_eq_of_lt hoff
  have hidx : INDEX a.msg off a.size = some p := by simp [INDEX, hlt, hp]
  have hsm : ∀ k, k ≤ 8 → off + k < SIZE_MOD := by
    intro k hk; simp only [SIZE_MOD]; omega
  by_cases c1 : p.val < 0x80
  · obtain ⟨h1, h2, h3, h4, h5, h6⟩ := class_posfix p c1
    simp [MPK_ElemAt, hmod, hidx, h1, h2, h3, h4, h5, numericAt, h6, MPK_NumUF]
  by_cases c2 : 0xe0 ≤ p.val
  · obtain ⟨h1, h2, h3, h4, h5, h6, h7⟩ := class_negfix p c2
    simp [MPK_ElemAt, hmod, hidx, h1, h2, h3, h4, h5, numericAt, h6, h7, MPK_NumIF]
  by_cases c7 : p.val = 0xc0 ∨ p.val = 0xc2 ∨ p.val = 0xc3
  · obtain ⟨h1, h2, h3, h4⟩ := class_const p c7
    rcases c7 with hv | hv | hv <;> simp only [hv] at h1 h2 h3 h4 <;>
      simp [MPK_ElemAt, hmod, hidx, h1, h2, h3, h4, hv, MPK_T]
  have hr : 0xca ≤ p.val ∧ p.val ≤ 0xd3 := by
    unfold scalarWidthRef refWidth at hw
    split_ifs at hw <;> omega
  obtain ⟨h1, h2, h3, h4, h5, h6, h7⟩ := class_explicit p hr.1 hr.2
  have hv : p.val = 0xca ∨ p.val = 0xcb ∨ p.val = 0xcc ∨ p.val = 0xcd ∨ p.val = 0xce ∨
      p.val = 0xcf ∨ p.val = 0xd0 ∨ p.val = 0xd1 ∨ p.val = 0xd2 ∨ p.val = 0xd3 := by omega
  rcases hv with hv | hv | hv | hv | hv | hv | hv | hv | hv | hv <;>
    simp only [hv] at h1 h2 h3 h4 h5 h6 h7 hw <;>
    simp [scalarWidthRef, refWidth] at hw <;> subst hw
  · have e := MPKNUM_ok 4 a off 0 (by omega) hfit (hsm 4 (by omega))
    simp [MPK_ElemAt, hmod, hidx, h1, h2, h3, h4, h5, numericAt, h6, h7, hv, MPK_U8, MPK_U16,
      MPK_U32, MPK_U64, MPK_I8, MPK_I16, MPK_I32, MPK_I64, MPK_F32, MPK_F64, MPK_NumF32, e]
  · have e := MPKNUM_ok 8 a off 0 (by omega) hfit (hsm 8 (by omega))
    simp [MPK_ElemAt, hmod, hidx, h1, h2, h3, h4, h5, numericAt, h6, h7, hv, MPK_U8, MPK_U16,
      MPK_U32, MPK_U64, MPK_I8, MPK_I16, MPK_I32, MPK_I64, MPK_F32, MPK_F64, MPK_NumF64, e]
  · have e := MPKNUM_ok 1 a off 0 (by omega) hfit (hsm 1 (by omega))
    simp [MPK_ElemAt, hmod, hidx, h1, h2, h3, h4, h5, numericAt, h6, h7, hv, MPK_U8, MPK_U16,
      MPK_U32, MPK_U64, MPK_I8, MPK_I16, MPK_I32, MPK_I64, MPK_F32, MPK_F64, MPK_NumU8, e]
  · have e := MPKNUM_ok 2 a off 0 (by omega) hfit (hsm 2 (by omega))
    simp [MPK_ElemAt, hmod, hidx, h1, h2, h3, h4, h5, numericAt, h6, h7, hv, MPK_U8, MPK_U16,
      MPK_U32, MPK_U64, MPK_I8, MPK_I16, MPK_I32, MPK_I64, MPK_F32, MPK_F64, MPK_NumU16, e]
  · have e := MPKNUM_ok 4 a off 0 (by omega) hfit (hsm 4 (by omega))
    simp [MPK_ElemAt, hmod, hidx, h1, h2, h3, h4, h5, numericAt, h6, h7, hv, MPK_U8, MPK_U16,
      MPK_U32, MPK_U64, MPK_I8, MPK_I16, MPK_I32, MPK_I64, MPK_F32, MPK_F64, MPK_NumU32, e]
  · have e := MPKNUM_ok 8 a off 0 (by omega) hfit (hsm 8 (by omega))
    simp [MPK_ElemAt, hmod, hidx, h1, h2, h3, h4, h5, numericAt, h6, h7, hv, MPK_U8, MPK_U16,
      MPK_U32, MPK_U64, MPK_I8, MPK_I16, MPK_I32, MPK_I64, MPK_F32, MPK_F64, MPK_NumU64, e]
  · have e := MPKNUM_ok 1 a off 0 (by omega) hfit (hsm 1 (by omega))
    simp [MPK_ElemAt, hmod, hidx, h1, h2, h3, h4, h5, numericAt, h6, h7, hv, MPK_U8, MPK_U16,
      MPK_U32, MPK_U64, MPK_I8, MPK_I16, MPK_I32, MPK_I64, MPK_F32, MPK_F64, MPK_NumI8, e]
  · have e := MPKNUM_ok 2 a off 0 (by omega) hfit (hsm 2 (by omega))
    simp [MPK_ElemAt, hmod, hidx, h1, h2, h3, h4, h5, numericAt, h6, h7, hv, MPK_U8, MPK_U16,
      MPK_U32, MPK_U64, MPK_I8, MPK_I16, MPK_I32, MPK_I64, MPK_F32, MPK_F64, MPK_NumI16, e]
  · have e := MPKNUM_ok 4 a off 0 (by omega) hfit (hsm 4 (by omega))
    simp [MPK_ElemAt, hmod, hidx, h1, h2, h3, h4, h5, numericAt, h6, h7, hv, MPK_U8, MPK_U16,
      MPK_U32, MPK_U64, MPK_I8, MPK_I16, MPK_I32, MPK_I64, MPK_F32, MPK_F64, MPK_NumI32, e]
  · have e := MPKNUM_ok 8 a off 0 (by omega) hfit (hsm 8 (by omega))
    simp [MPK_ElemAt, hmod, hidx, h1, h2, h3, h4, h5, numericAt, h6, h7, hv, MPK_U8, MPK_U16,
      MPK_U32, MPK_U64, MPK_I8, MPK_I16, MPK_I32, MPK_I64, MPK_F32, MPK_F64, MPK_NumI64, e]

/-- A blob whose header, length field, subtype byte and payload lie inside
the buffer is decoded, and it ends where the wire format says. -/
theorem elemAt_blob_ok (a : mpk_msg_t) (off : Nat) (p : Byte) (hoff : off < 256)
    (hp : a.msg[off]? = some p) (hk : blobKindRef p.val ≠ none)
    (hfit : off + 1 + blobLenWidthRef p.val + blobExtRef p.val + blobLenRef a off p.val
      ≤ a.size) :
    ∃ b, MPK_ElemAt a off = some { value := .blob b, rawhdr := off } ∧
      b.off + b.size
        = off + 1 + blobLenWidthRef p.val + blobExtRef p.val + blobLenRef a off p.val := by
  have hlt := lt_size_of_get a off p hp
  have hmod : off % 256 = off := Nat.mod_eq_of_lt hoff
  have hidx : INDEX a.msg off a.size = some p := by simp [INDEX, hlt, hp]
  have hB : MPK_ISBLOB p.val = true := (class_by_ref p).1.mpr hk
  have hr := blob_ref a off p hp hlt (by simp only [U32_MOD, SIZE_MOD]; omega)
  rcases blobRef_cases a off p.val with ⟨-, hc⟩ | ⟨ty, -, -, -, -, hs⟩
  · rcases hc with hc | hc | hc | hc
    · exact absurd hc hk
    · omega
    · omega
    · omega
  · rw [hs] at hr
    simp only at hr
    refine ⟨MPK_Blob a off, ?_, ?_⟩
    · have h0 : (MPK_Blob a off).off ≠ 0 := by rw [hr]; simp only; omega
      simp only [MPK_ElemAt, hmod, hidx, hB, if_true]
      rw [if_neg h0]
    · rw [hr]

/-- A collection header is decoded exactly when a byte follows its length
field, and then to the first-child offset, count and kind of the wire
format. -/
theorem elemAt_col_ok (a : mpk_msg_t) (off : Nat) (p : Byte) (ty : Nat) (hoff : off < 256)
    (hp : a.msg[off]? = some p) (hk : colKindRef p.val = some ty) :
    (off + 1 + colLenWidthRef p.val < a.size →
      MPK_ElemAt a off = some
        { value := .col ⟨off + 1 + colLenWidthRef p.val, colCountRef a off p.val, ty⟩,
          rawhdr := off }) ∧
    (a.size ≤ off + 1 + colLenWidthRef p.val → MPK_ElemAt a off = none) := by
  have hlt := lt_size_of_get a off p hp
  have hmod : off % 256 = off := Nat.mod_eq_of_lt hoff
  have hidx : INDEX a.msg off a.size = some p := by simp [INDEX, hlt, hp]
  obtain ⟨cb, cc, cx⟩ := class_by_ref p
  have hC : MPK_ISCOL p.val = true := cc.mpr (by rw [hk]; simp)
  have hB : MPK_ISBLOB p.val = false := by
    cases hb : MPK_ISBLOB p.val with
    | false => rfl
    | true => have := cx (cb.mp hb); rw [hk] at this; simp at this
  obtain ⟨-, r2⟩ := col_ref a off p hp hlt (by simp only [U32_MOD, SIZE_MOD]; omega)
  obtain ⟨r3, r4⟩ := r2 ty hk
  constructor
  · intro h
    have := r4 h
    simp only [MPK_ElemAt, hmod, hidx, hB, hC, if_true, this]
    simp
  · intro h
    have := r3 h
    simp [MPK_ElemAt, hmod, hidx, hB, hC, this]

/-- The run that starts with a collection header splits into the header with
its length field, the run of the children and the rest. -/
theorem Wire.col_inv {a : mpk_msg_t} {p k e : Nat} (h : Wire a p (k + 1) e) (hdr : Byte)
    (ty : Nat) (hget : a.msg[p]? = some hdr) (hk : colKindRef hdr.val = some ty) :
    p + 1 + colLenWidthRef hdr.val ≤ a.size ∧
    ∃ e1, Wire a (p + 1 + colLenWidthRef hdr.val)
        (colCountRef a p hdr.val * (if ty = MPK_MAP then 2 else 1)) e1 ∧ Wire a e1 k e := by
  cases h with
  | scalar hdr1 w hget1 hw _ _ =>
    rw [hget] at hget1
    have : hdr = hdr1 := Option.some.inj hget1
    subst this
    have := ((stsiz_by_ref hdr).2 (by rw [hw]; simp)).2.2
    rw [hk] at this; simp at this
  | blob hdr1 hget1 hb _ _ =>
    rw [hget] at hget1
    have : hdr = hdr1 := Option.some.inj hget1
    subst this
    have := (class_by_ref hdr).2.2 hb
    rw [hk] at this; simp at this
  | col hdr1 ty1 hget1 hk1 hfit hkids hrest =>
    rw [hget] at hget1
    have : hdr = hdr1 := Option.some.inj hget1
    subst this
    rw [hk] at hk1
    have : ty = ty1 := Option.some.inj hk1
    subst this
    exact ⟨hfit, _, hkids, hrest⟩

/-- The skip loop on a run of `k` elements of the wire format, started on the
first element with count `n + k`: it reaches the end of the run with count
`n`, or, when the run ends with the buffer, it may fail before (on an empty
collection that is the last byte, which `MPK_Col` rejects). -/
theorem wire_skip {a : mpk_msg_t} {p k e : Nat} (h : Wire a p k e) (he : e ≤ 256) :
    ∀ n, n + (e - p) < SIZE_MOD →
      ∃ t, (∀ F, FwdAt (F + t) a p (n + k) = FwdAt F a e n) ∨
        (e = a.size ∧ ∀ F, FwdAt (F + t) a p (n + k) = some none) := by
  induction h with
  | nil p => intro n _; exact ⟨0, Or.inl fun F => rfl⟩
  | @scalar p k e hdr w hget hw hfit hrest ih =>
    intro n hn
    have hb := hrest.bound
    have hp : p < 256 := by omega
    obtain ⟨hs1, -, -⟩ := (stsiz_by_ref hdr).2 (by rw [hw]; simp)
    rw [hw] at hs1
    simp only [Option.getD_some] at hs1
    obtain ⟨v, hv⟩ := Option.ne_none_iff_exists'.mp (elemAt_scalar_ok a p hdr w hp hget hw hfit)
    have step : ∀ F, FwdAt (F + 1) a p (n + k + 1) = FwdAt F a (p + 1 + w) (n + k) := by
      intro F
      have := fwdAt_static F a p (n + k) hdr v hp hget (by omega) hv (by omega)
      rw [this, hs1, show p + (1 + w) = p + 1 + w by omega]
    obtain ⟨t, ht⟩ := ih he n (by omega)
    refine ⟨t + 1, ?_⟩
    rcases ht with ht | ⟨hend, ht⟩
    · left; intro F
      rw [show F + (t + 1) = F + t + 1 by omega, show n + (k + 1) = n + k + 1 by omega,
        step, ht]
    · right; refine ⟨hend, fun F => ?_⟩
      rw [show F + (t + 1) = F + t + 1 by omega, show n + (k + 1) = n + k + 1 by omega,
        step, ht]
  | @blob p k e hdr hget hk hfit hrest ih =>
    intro n hn
    have hb := hrest.bound
    have hp : p < 256 := by omega
    obtain ⟨b, hv, hbe⟩ := elemAt_blob_ok a p hdr hp hget hk hfit
    have step : ∀ F, FwdAt (F + 1) a p (n + k + 1)
        = FwdAt F a (p + 1 + blobLenWidthRef hdr.val + blobExtRef hdr.val
            + blobLenRef a p hdr.val) (n + k) := by
      intro F
      have := fwdAt_blob F a p (n + k) b hp hv (by omega)
      rw [this, hbe]
    obtain ⟨t, ht⟩ := ih he n (by omega)
    refine ⟨t + 1, ?_⟩
    rcases ht with ht | ⟨hend, ht⟩
    · left; intro F
      rw [show F + (t + 1) = F + t + 1 by omega, show n + (k + 1) = n + k + 1 by omega,
        step, ht]
    · right; refine ⟨hend, fun F => ?_⟩
      rw [show F + (t + 1) = F + t + 1 by omega, show n + (k + 1) = n + k + 1 by omega,
        step, ht]
  | @col p k e e1 hdr ty hget hk hfit hkids hrest ih1 ih2 =>
    intro n hn
    have hb1 := hkids.bound
    have hb2 := hrest.bound
    have hp : p < 256 := by omega
    obtain ⟨ok, bad⟩ := elemAt_col_ok a p hdr ty hp hget hk
    by_cases hlast : a.size ≤ p + 1 + colLenWidthRef hdr.val
    · have hnone := bad hlast
      obtain ⟨-, h1⟩ := hkids.stuck hlast
      obtain ⟨-, h2⟩ := hrest.stuck (by omega)
      exact ⟨0, Or.inr ⟨by omega, fun F => fwdAt_fail _ a p _ hnone⟩⟩
    · have hv := ok (by omega)
      have hr : rawCount ⟨p + 1 + colLenWidthRef hdr.val, colCountRef a p hdr.val, ty⟩
          = colCountRef a p hdr.val * (if ty = MPK_MAP then 2 else 1) := rfl
      have step : ∀ F, FwdAt (F + 1) a p (n + k + 1)
          = FwdAt F a (p + 1 + colLenWidthRef hdr.val)
              (n + k + colCountRef a p hdr.val * (if ty = MPK_MAP then 2 else 1)) := by
        intro F
        have := fwdAt_col F a p (n + k) _ hp hv
          (by rw [hr]; simp only [U32_MOD]; omega) (by rw [hr]; omega)
        rw [this, hr]
      obtain ⟨t1, ht1⟩ := ih1 (by omega) (n + k) (by omega)
      obtain ⟨t2, ht2⟩ := ih2 he n (by omega)
      rcases ht1 with ht1 | ⟨hend1, ht1⟩
      · refine ⟨t2 + t1 + 1, ?_⟩
        rcases ht2 with ht2 | ⟨hend, ht2⟩
        · left; intro F
          rw [show F + (t2 + t1 + 1) = F + t2 + t1 + 1 by omega,
            show n + (k + 1) = n + k + 1 by omega, step, ht1, ht2]
        · right; refine ⟨hend, fun F => ?_⟩
          rw [show F + (t2 + t1 + 1) = F + t2 + t1 + 1 by omega,
            show n + (k + 1) = n + k + 1 by omega, step, ht1, ht2]
      · obtain ⟨-, h2⟩ := hrest.stuck (by omega)
        refine ⟨t1 + 1, Or.inr ⟨by omega, fun F => ?_⟩⟩
        rw [show F + (t1 + 1) = F + t1 + 1 by omega, show n + (k + 1) = n + k + 1 by omega,
          step, ht1]

/-- The run that starts with an element decoded as a collection: the decoded
first-child offset and count are those of the wire format, so the children
are a run of `rawCount` elements from the first-child offset. -/
theorem Wire.decoded_col {a : mpk_msg_t} {p k e : Nat} (h : Wire a p (k + 1) e)
    (c : mpk_collection_t) (hp : p < 256)
    (hv : MPK_ElemAt a p = some { value := .col c, rawhdr := p }) :
    p < c.off ∧ c.off < a.size ∧ ∃ e1, Wire a c.off (rawCount c) e1 ∧ Wire a e1 k e := by
  obtain ⟨-, -, hdr, hget, -, hc, -⟩ := elemAt_inv a p _ hv
  rw [Nat.mod_eq_of_lt hp] at hget
  obtain ⟨-, hcls, -, -⟩ := hc c rfl
  obtain ⟨ty, hk⟩ := Option.ne_none_iff_exists'.mp ((class_by_ref hdr).2.1.mp hcls)
  obtain ⟨hfit, e1, hkids, hrest⟩ := h.col_inv hdr ty hget hk
  obtain ⟨ok, bad⟩ := elemAt_col_ok a p hdr ty hp hget hk
  by_cases hlast : a.size ≤ p + 1 + colLenWidthRef hdr.val
  · rw [bad hlast] at hv; simp at hv
  · have := ok (by omega)
    rw [this] at hv
    simp only [Option.some.injEq, mpk_value_t.mk.injEq, mpk_payload.col.injEq, and_true] at hv
    subst hv
    exact ⟨by simp only; omega, by simp only; omega, e1, hkids, hrest⟩

/-- The first element of a run is decoded, unless it is a collection header
that ends the buffer. -/
theorem Wire.head_decodes {a : mpk_msg_t} {p k e : Nat} (h : Wire a p (k + 1) e)
    (hp : p < 256) (hne : colEndsBuffer a p = false) : MPK_ElemAt a p ≠ none := by
  cases h with
  | scalar hdr w hget hw hfit _ => exact elemAt_scalar_ok a p hdr w hp hget hw hfit
  | blob hdr hget hk hfit _ =>
    obtain ⟨b, hv, -⟩ := elemAt_blob_ok a p hdr hp hget hk hfit
    rw [hv]; simp
  | col hdr ty hget hk hfit _ _ =>
    simp only [colEndsBuffer, hget, hk, Option.isSome_some, Bool.true_and,
      decide_eq_false_iff_not] at hne
    rw [(elemAt_col_ok a p hdr ty hp hget hk).1 (by omega)]; simp

theorem elemAt_none_of_colEndsBuffer (a : mpk_msg_t) (off : Nat) (hoff : off < 256)
    (h : colEndsBuffer a off = true) : MPK_ElemAt a off = none := by
  unfold colEndsBuffer at h
  split at h
  · rename_i hdr hget
    simp only [Bool.and_eq_true, decide_eq_true_eq] at h
    obtain ⟨ty, hk⟩ := Option.isSome_iff_exists.mp h.1
    exact (elemAt_col_ok a off hdr ty hoff hget hk).2 (by omega)
  · simp at h

/-- Below offset 256 array indexing is right: if the first `idx` children of
the array are a run of `idx` elements of the wire format that ends at
`e <= 255`, where child `idx` decodes to `w`, then `MPK_IndexArr` yields
`w`. -/
theorem indexArr_small (a : mpk_msg_t) (arr : mpk_collection_t) (idx e : Nat)
    (w : mpk_value_t) (hty : arr.type = MPK_ARR) (hidx : idx < arr.elems)
    (he : e ≤ 255) (hk : Wire a arr.off idx e) (hw : MPK_ElemAt a e = some w) :
    ∃ F0, ∀ F, F0 ≤ F → MPK_IndexArr F a arr idx = some (some w) := by
  have hb := hk.bound
  obtain ⟨hwr, hlt, -⟩ := elemAt_inv a e w hw
  rw [Nat.mod_eq_of_lt (by omega)] at hwr
  rw [hwr] at hlt
  obtain ⟨t, ht⟩ := wire_skip hk (by omega) 0 (by simp only [SIZE_MOD]; omega)
  rcases ht with ht | ⟨hend, -⟩
  swap
  · omega
  have hland : ∀ G, FwdAt (G + 1 + t) a arr.off idx = some (some w) := by
    intro G
    have h1 := ht (G + 1)
    rw [Nat.zero_add, fwdAt_zero G a e w hw] at h1
    exact h1
  have h0 : ∃ v0, MPK_ElemAt a arr.off = some v0 := by
    cases h0 : MPK_ElemAt a arr.off with
    | some v0 => exact ⟨v0, rfl⟩
    | none =>
      have := hland 0
      rw [fwdAt_fail _ a arr.off idx h0] at this
      simp at this
  obtain ⟨v0, h0⟩ := h0
  refine ⟨t + 1, fun F hF => ?_⟩
  obtain ⟨G, rfl⟩ := Nat.exists_eq_add_of_le hF
  rw [MPK_IndexArr, if_neg (by simp [hty]), if_neg (by omega)]
  simp only [h0]
  rw [fwdNElems_eq_fwdAt _ a arr.off idx v0 h0, show t + 1 + G = G + 1 + t by omega, hland]

/-! ## C5, C6, C8 and C11 -/

theorem wire_nestedEmpty : Wire msgNestedEmpty 0 1 2 :=
  Wire.col (p := 0) 0x91 MPK_ARR (by decide) (by decide) (by decide)
    (Wire.col (p := 1) 0x90 MPK_ARR (by decide) (by decide) (by decide) (Wire.nil 2)
      (Wire.nil 2))
    (Wire.nil 2)

theorem wire_arrThenEmpty : Wire msgArrThenEmpty 0 2 3 :=
  Wire.col (p := 0) 0x91 MPK_ARR (by decide) (by decide) (by decide)
    (Wire.scalar (p := 1) 1 0 (by decide) (by decide) (by decide) (Wire.nil 2))
    (Wire.col (p := 2) 0x90 MPK_ARR (by decide) (by decide) (by decide) (Wire.nil 3)
      (Wire.nil 3))

theorem wire_u16Arr : Wire msgU16Arr 0 1 5 :=
  Wire.col (p := 0) 0x92 MPK_ARR (by decide) (by decide) (by decide)
    (Wire.scalar (p := 1) 0xcd 2 (by decide) (by decide) (by decide)
      (Wire.scalar (p := 4) 2 0 (by decide) (by decide) (by decide) (Wire.nil 5)))
    (Wire.nil 5)

theorem wire_arrEmptyLast : Wire msgArrEmptyLast 0 1 3 :=
  Wire.col (p := 0) 0x92 MPK_ARR (by decide) (by decide) (by decide)
    (Wire.scalar (p := 1) 1 0 (by decide) (by decide) (by decide)
      (Wire.col (p := 2) 0x90 MPK_ARR (by decide) (by decide) (by decide) (Wire.nil 3)
        (Wire.nil 3)))
    (Wire.nil 3)

theorem wire_nested_inner : Wire msgNested 1 1 3 :=
  Wire.col (p := 1) 0x91 MPK_ARR (by decide) (by decide) (by decide)
    (Wire.scalar (p := 2) 1 0 (by decide) (by decide) (by decide) (Wire.nil 3))
    (Wire.nil 3)

theorem wire_deep : Wire msgDeep 0 1 9 :=
  Wire.col (p := 0) 0x82 MPK_MAP (by decide) (by decide) (by decide)
    (Wire.blob (p := 1) 0xa1 (by decide) (by decide) (by decide)
      (Wire.scalar (p := 3) 0xcd 2 (by decide) (by decide) (by decide)
        (Wire.col (p := 6) 0x91 MPK_ARR (by decide) (by decide) (by decide)
          (Wire.col (p := 7) 0x90 MPK_ARR (by decide) (by decide) (by decide) (Wire.nil 8)
            (Wire.nil 8))
          (Wire.scalar (p := 8) 0xc3 0 (by decide) (by decide) (by decide) (Wire.nil 9)))))
    (Wire.nil 9)

/-- C5 fails on the code. The array `91 90` is well-formed and the last thing
in its buffer, its only child being an empty array, yet `MPK_ColSize` returns
0 and not the length 2: `MPK_Col` rejects the empty array that has no byte
after it, so the first child does not decode. And in `91 01 90` the array
`91 01` is followed by another element, the empty array at offset 2, yet
`MPK_ColSize` returns 3 and not 2: the skip fails on the element that follows
and the failure is taken for the end of the buffer. -/
theorem colSize_nested_empty_last :
    Wire msgNestedEmpty 0 1 2 ∧ msgNestedEmpty.size = 2 ∧
    MPK_ElemAt msgNestedEmpty 0 = some { value := .col ⟨1, 1, MPK_ARR⟩, rawhdr := 0 } ∧
    (∀ fuel, MPK_ColSize fuel msgNestedEmpty { value := .col ⟨1, 1, MPK_ARR⟩, rawhdr := 0 }
      = some 0) ∧
    Wire msgArrThenEmpty 0 2 3 ∧ msgArrThenEmpty.msg[2]? = some 0x90 ∧
    MPK_ElemAt msgArrThenEmpty 0 = some { value := .col ⟨1, 1, MPK_ARR⟩, rawhdr := 0 } ∧
    (∀ fuel, MPK_ColSize (fuel + 1) msgArrThenEmpty
      { value := .col ⟨1, 1, MPK_ARR⟩, rawhdr := 0 } = some 3) :=
  ⟨wire_nestedEmpty, by decide, by decide, fun _ => rfl, wire_arrThenEmpty, by decide,
    by decide, fun _ => rfl⟩

/-- C5 as amended: let the collection `c` be decoded by `MPK_ElemAt` at header
offset `h`, and let its complete encoding, every nested descendant included,
be one well-formed element of the wire format on the bytes `[h, e)`, with
`e <= 255`. If an element that `MPK_ElemAt` decodes follows at `e`, then
`MPK_ColSize` returns `e - h`. If the collection ends with the buffer
(`e = size`) and the byte at its first-child offset is not a collection header
that ends the buffer, then `MPK_ColSize` returns `size - h`; this covers a
collection whose last nested child is an empty collection. If the byte at
the first-child offset is a collection header that ends the buffer, then
`MPK_ColSize` returns 0. In the first two cases enough fuel gives the
result. -/
theorem colSize_wellformed (a : mpk_msg_t) (h e : Nat) (c : mpk_collection_t)
    (hv : MPK_ElemAt a h = some { value := .col c, rawhdr := h })
    (hk : Wire a h 1 e) (he : e ≤ 255) :
    (∀ w, MPK_ElemAt a e = some w →
      ∃ F0, ∀ F, F0 ≤ F → MPK_ColSize F a { value := .col c, rawhdr := h } = some (e - h)) ∧
    (e = a.size → colEndsBuffer a c.off = false →
      ∃ F0, ∀ F, F0 ≤ F →
        MPK_ColSize F a { value := .col c, rawhdr := h } = some (a.size - h)) ∧
    (colEndsBuffer a c.off = true →
      ∀ F, MPK_ColSize F a { value := .col c, rawhdr := h } = some 0) := by
  have hh := elemAt_hdr_lt a h _ hv
  obtain ⟨hco, hcs, e1, hkids, hrest⟩ := hk.decoded_col c hh hv
  have he1 := hrest.zero_end
  subst he1
  have hb := hkids.bound
  have hr : rawCount c < U32_MOD := by simp only [U32_MOD]; omega
  obtain ⟨t, ht⟩ := wire_skip hkids (by omega) 0 (by simp only [SIZE_MOD]; omega)
  rw [Nat.zero_add] at ht
  refine ⟨?_, ?_, ?_⟩
  · intro w hw
    obtain ⟨hwr, hlt, -⟩ := elemAt_inv a e w hw
    rw [Nat.mod_eq_of_lt (by omega)] at hwr
    rw [hwr] at hlt
    rcases ht with ht | ⟨hend, -⟩
    swap
    · omega
    have hland : ∀ G, FwdAt (G + 1 + t) a c.off (rawCount c) = some (some w) := by
      intro G
      rw [ht (G + 1), fwdAt_zero G a e w hw]
    have h0 : ∃ v0, MPK_ElemAt a c.off = some v0 := by
      cases h0 : MPK_ElemAt a c.off with
      | some v0 => exact ⟨v0, rfl⟩
      | none =>
        have := hland 0
        rw [fwdAt_fail _ a c.off _ h0] at this
        simp at this
    obtain ⟨v0, h0⟩ := h0
    refine ⟨t + 1, fun F hF => ?_⟩
    obtain ⟨G, rfl⟩ := Nat.exists_eq_add_of_le hF
    rw [colSize_eq _ a h c v0 hr h0, show t + 1 + G = G + 1 + t by omega, hland]
    simp only [hwr]
    rw [sub_mod e h (by omega) (by simp only [SIZE_MOD]; omega)]
  · intro hend hne
    have hpos : rawCount c ≠ 0 := by
      intro hz
      rw [hz] at hkids
      have := hkids.zero_end
      omega
    obtain ⟨k, hk1⟩ := Nat.exists_eq_succ_of_ne_zero hpos
    have hhead := hkids
    rw [hk1] at hhead
    obtain ⟨v0, h0⟩ := Option.ne_none_iff_exists'.mp (hhead.head_decodes (by omega) hne)
    have hfail : ∀ F, FwdAt (F + t) a c.off (rawCount c) = some none := by
      intro F
      rcases ht with ht | ⟨-, ht⟩
      · rw [ht F, fwdAt_fail F a e 0 (by rw [hend]; exact elemAt_none_of_size a (by omega))]
      · exact ht F
    refine ⟨t, fun F hF => ?_⟩
    obtain ⟨G, rfl⟩ := Nat.exists_eq_add_of_le hF
    rw [colSize_eq _ a h c v0 hr h0, show t + G = G + t by omega, hfail]
    simp only
    rw [sub_mod a.size h (by omega) (by simp only [SIZE_MOD]; omega)]
  · intro hlast F
    have h0 := elemAt_none_of_colEndsBuffer a c.off (by omega) hlast
    simp [MPK_ColSize, h0]

theorem colSize_wellformed_witness :
    (∃ F0, ∀ F, F0 ≤ F →
      MPK_ColSize F msgU16Arr { value := .col ⟨1, 2, MPK_ARR⟩, rawhdr := 0 } = some 5) ∧
    (∃ F0, ∀ F, F0 ≤ F →
      MPK_ColSize F msgArrEmptyLast { value := .col ⟨1, 2, MPK_ARR⟩, rawhdr := 0 } = some 3) ∧
    (∀ F, MPK_ColSize F msgNestedEmpty { value := .col ⟨1, 1, MPK_ARR⟩, rawhdr := 0 }
      = some 0) :=
  ⟨(colSize_wellformed msgU16Arr 0 5 ⟨1, 2, MPK_ARR⟩ (by decide) wire_u16Arr (by decide)).1
      ⟨.u8 7, 5⟩ (by decide),
    (colSize_wellformed msgArrEmptyLast 0 3 ⟨1, 2, MPK_ARR⟩ (by decide) wire_arrEmptyLast
      (by decide)).2.1 (by decide) (by decide),
    (colSize_wellformed msgNestedEmpty 0 2 ⟨1, 1, MPK_ARR⟩ (by decide) wire_nestedEmpty
      (by decide)).2.2 (by decide)⟩

/-- C6 fails on the code. In `92 01 c1` the second child of the array has the
unknown header byte 0xc1, the skip fails there, and `MPK_ColSize` returns
`size - 0 = 3`, not 0. In `92 01` the array is cut off by the end of the
buffer before its second child, and `MPK_ColSize` returns `size - 0 = 2`, not
0. The same unknown header in the first child, `91 c1`, does give the error
value 0. -/
theorem colSize_bad_child :
    MPK_ElemAt msgArrBad 0 = some { value := .col ⟨1, 2, MPK_ARR⟩, rawhdr := 0 } ∧
    msgArrBad.msg[2]? = some 0xc1 ∧ MPK_ElemAt msgArrBad 2 = none ∧
    (∀ fuel, MPK_ColSize (fuel + 1) msgArrBad { value := .col ⟨1, 2, MPK_ARR⟩, rawhdr := 0 }
      = some 3) ∧
    MPK_ElemAt msgArrCut 0 = some { value := .col ⟨1, 2, MPK_ARR⟩, rawhdr := 0 } ∧
    msgArrCut.size = 2 ∧
    (∀ fuel, MPK_ColSize (fuel + 1) msgArrCut { value := .col ⟨1, 2, MPK_ARR⟩, rawhdr := 0 }
      = some 2) ∧
    MPK_ElemAt msgBadFirst 0 = some { value := .col ⟨1, 1, MPK_ARR⟩, rawhdr := 0 } ∧
    msgBadFirst.msg[1]? = some 0xc1 ∧
    (∀ fuel, MPK_ColSize fuel msgBadFirst { value := .col ⟨1, 1, MPK_ARR⟩, rawhdr := 0 }
      = some 0) :=
  ⟨by decide, by decide, by decide, fun _ => rfl, by decide, by decide, fun _ => rfl,
    by decide, by decide, fun _ => rfl⟩

/-- The two guards of `MPK_FindInMap`: it fails on every collection that is
not a map and for every collection-typed lookup key, whatever the fuel. -/
theorem findInMap_guards (F : Nat) (a : mpk_msg_t) (map : mpk_collection_t) (k : mpk_value_t) :
    (map.type ≠ MPK_MAP → MPK_FindInMap F a map k = some none) ∧
    (k.type = MPK_COL → MPK_FindInMap F a map k = some none) := by
  refine ⟨fun h => ?_, fun h => ?_⟩
  · rw [MPK_FindInMap, if_pos h]
  · unfold MPK_FindInMap
    split
    · rfl
    · rfl

/-- C8 fails on the code, by the `float` type of `MPK_NumF64`. The map
`81 cb 3f f0 00 00 00 00 00 00 01` has one pair, whose key is the float64 1.0
(payload 0x3ff0000000000000). The lookup key is what `MPK_ElemAt` decodes
from the encoding of the float64 2.0 (payload 0x4000000000000000). Both keys
decode to the float64 0.0, so `MPK_FindInMap` succeeds and returns the value
of the pair, the fixint 1 at offset 10, although the payloads differ. -/
theorem findInMap_f64_other_key :
    MPK_ElemAt msgTwo 0 = some { value := .f64 0, rawhdr := 0 } ∧
    beValue ((msgTwo.msg.drop 1).take 8) = 0x4000000000000000 ∧
    MPK_ElemAt msgMapF64 0 = some { value := .col ⟨1, 1, MPK_MAP⟩, rawhdr := 0 } ∧
    msgMapF64.msg[1]? = some 0xcb ∧
    beValue ((msgMapF64.msg.drop 2).take 8) = 0x3ff0000000000000 ∧
    (∀ fuel, MPK_FindInMap (fuel + 2) msgMapF64 ⟨1, 1, MPK_MAP⟩ { value := .f64 0, rawhdr := 0 }
      = some (some { value := .u8 1, rawhdr := 10 })) :=
  ⟨by decide, by decide, by decide, by decide, by decide, fun _ => rfl⟩

/-- C11: let a collection header (array or map) stand at offset `p`, let the
complete encoding of the collection, every nested descendant included, be one
well-formed element of the wire format on the bytes `[p, e)` (its children
counted as the header or the length field states, a map pair as two), and let
`MPK_ElemAt` decode an element `w` at `e <= 255`. Then `MPK_ElemAt` decodes
the collection at `p`, and `MPK_FwdNElems` from that cursor with `n = 1`
succeeds, given enough fuel, and leaves the cursor equal to `w`. -/
theorem fwd_over_collection (a : mpk_msg_t) (p e : Nat) (hdr : Byte) (w : mpk_value_t)
    (hget : a.msg[p]? = some hdr) (hcol : colKindRef hdr.val ≠ none)
    (hk : Wire a p 1 e) (he : e ≤ 255) (hw : MPK_ElemAt a e = some w) :
    ∃ c, MPK_ElemAt a p = some { value := .col c, rawhdr := p } ∧
      ∃ F0, ∀ F, F0 ≤ F →
        MPK_FwdNElems F a { value := .col c, rawhdr := p } 1 = some (some w) := by
  obtain ⟨ty, hty⟩ := Option.ne_none_iff_exists'.mp hcol
  have hb := hk.bound
  obtain ⟨hwr, hlt, -⟩ := elemAt_inv a e w hw
  rw [Nat.mod_eq_of_lt (by omega)] at hwr
  rw [hwr] at hlt
  obtain ⟨-, e1, hkids, hrest⟩ := hk.col_inv hdr ty hget hty
  have he1 := hrest.zero_end
  subst he1
  have hb1 := hkids.bound
  have hv := (elemAt_col_ok a p hdr ty (by omega) hget hty).1 (by omega)
  refine ⟨_, hv, ?_⟩
  obtain ⟨t, ht⟩ := wire_skip hk (by omega) 0 (by simp only [SIZE_MOD]; omega)
  rcases ht with ht | ⟨hend, -⟩
  swap
  · omega
  refine ⟨t + 1, fun F hF => ?_⟩
  obtain ⟨G, rfl⟩ := Nat.exists_eq_add_of_le hF
  have h1 := ht (G + 1)
  rw [fwdAt_zero G a e w hw] at h1
  rw [fwdNElems_eq_fwdAt _ a p 1 _ hv, show t + 1 + G = G + 1 + t by omega]
  exact h1

theorem fwd_over_collection_witness :
    (∃ c, MPK_ElemAt msgU16Arr 0 = some { value := .col c, rawhdr := 0 } ∧
      ∃ F0, ∀ F, F0 ≤ F →
        MPK_FwdNElems F msgU16Arr { value := .col c, rawhdr := 0 } 1
          = some (some { value := .u8 7, rawhdr := 5 })) ∧
    (∃ c, MPK_ElemAt msgDeep 0 = some { value := .col c, rawhdr := 0 } ∧
      ∃ F0, ∀ F, F0 ≤ F →
        MPK_FwdNElems F msgDeep { value := .col c, rawhdr := 0 } 1
          = some (some { value := .u8 7, rawhdr := 9 })) ∧
    (∃ c, MPK_ElemAt msgNested 1 = some { value := .col c, rawhdr := 1 } ∧
      ∃ F0, ∀ F, F0 ≤ F →
        MPK_FwdNElems F msgNested { value := .col c, rawhdr := 1 } 1
          = some (some { value := .u8 2, rawhdr := 3 })) :=
  ⟨fwd_over_collection msgU16Arr 0 5 0x92 { value := .u8 7, rawhdr := 5 } (by decide)
      (by decide) wire_u16Arr (by decide) (by decide),
    fwd_over_collection msgDeep 0 9 0x82 { value := .u8 7, rawhdr := 9 } (by decide)
      (by decide) wire_deep (by decide) (by decide),
    fwd_over_collection msgNested 1 3 0x91 { value := .u8 2, rawhdr := 3 } (by decide)
      (by decide) wire_nested_inner (by decide) (by decide)⟩

end MPK
